import Mathlib

/-!
# Verification of the CNF converter (`Formula.py`)

Shallow embedding of the propositional-formula CNF converter: the formula
data type, the recursive-descent parser, the classical (distribution-based)
clausifier `to_cnf_equiv`, the Tseitin clausifier `tseitin_450`, and the
clause simplifier `dedup_simplify`, together with proofs of the specified
properties.

Conventions of the embedding:
* Python strings are modeled as Lean `String`, and the character-level
  operations (`s[1:]`, `s.startswith('-')`, `'-' + s`) are modeled on the
  underlying character list `String.data`, which matches Python's
  character-sequence view of `str`.
* The source's `while` loops and its recursions that are not structural
  (the tokenizer scan and the Tseitin rewrite loop) are modeled with an
  explicit fuel parameter; the callers pass enough fuel, and sufficiency is
  proved where a claim depends on it.
* Python's `raise` sites inside total pipelines are modeled either by an
  explicit error type (the parser) or, for the internal "can never happen"
  invariant violations, by a defensive default value together with a proof
  that the branch is unreachable.
* Python's `sorted(set(c))` canonicalization of a clause is modeled as
  insertion sort over the deduplicated list, with the same
  code-point-lexicographic string order as Python.
-/

/-- Lexicographic comparison of character lists by code points; this is how
Python compares `str` values. -/
def le_chars : List Char → List Char → Bool
  | [], _ => true
  | _ :: _, [] => false
  | c :: cs, d :: ds => if c < d then true else if d < c then false else le_chars cs ds

/-- String order used by Python's `sorted` on literal strings. -/
def str_le (a b : String) : Prop := le_chars a.data b.data = true

instance : DecidableRel str_le := fun a b => by unfold str_le; infer_instance

/-- Decimal digit character, as produced by Python's `str(int)`. -/
def dec_digit (d : Nat) : Char := Char.ofNat (48 + d)

/-- Decimal digits (most significant first) of `n`; fuel-driven, `fuel ≥ n`
always suffices. -/
def dec_digits : Nat → Nat → List Char
  | 0, _ => []
  | fuel+1, n => if n < 10 then [dec_digit n] else dec_digits fuel (n / 10) ++ [dec_digit (n % 10)]

/-- Decimal rendering of a natural number, as Python's `str(int)`. -/
def dec_repr (n : Nat) : String := if n = 0 then "0" else ⟨dec_digits n n⟩

/-- Formula trees.  The Python class `Formula` is a node with an `op` tag
(a variable name string, or one of the `OpType` connectives) and optional
`left`/`right` children; the trees actually built by the parser and the
rewrite passes are exactly the well-formed ones captured by this inductive
type (`Variable` with no children, `Not` unary, the other connectives
binary). -/
inductive Formula where
  | var (name : String)
  | not (child : Formula)
  | and (left right : Formula)
  | or (left right : Formula)
  | impl (left right : Formula)
  | equiv (left right : Formula)
deriving DecidableEq

namespace Formula

/-- `Formula.is_variable`. -/
def is_variable : Formula → Bool
  | .var _ => true
  | _ => false

/-- `Formula.is_literal`: a variable, or the negation of a variable. -/
def is_literal : Formula → Bool
  | .var _ => true
  | .not (.var _) => true
  | _ => false

/-- `Formula.__str__`: canonical fully parenthesized rendering. -/
def str : Formula → String
  | .var x => x
  | .not f => "-" ++ f.str
  | .and a b => "(" ++ a.str ++ " & " ++ b.str ++ ")"
  | .or a b => "(" ++ a.str ++ " v " ++ b.str ++ ")"
  | .impl a b => "(" ++ a.str ++ " -> " ++ b.str ++ ")"
  | .equiv a b => "(" ++ a.str ++ " <-> " ++ b.str ++ ")"

/-- Node count of a formula tree (used to measure the Tseitin loop). -/
def size : Formula → Nat
  | .var _ => 1
  | .not f => 1 + f.size
  | .and a b | .or a b | .impl a b | .equiv a b => 1 + a.size + b.size

/-- List of variable names occurring in a formula. -/
def vars : Formula → List String
  | .var x => [x]
  | .not f => f.vars
  | .and a b | .or a b | .impl a b | .equiv a b => a.vars ++ b.vars

end Formula

/-- Boolean semantics of a formula under an assignment of the variables
(the evaluation the specification's semantic properties quantify over). -/
def eval (ρ : String → Bool) : Formula → Bool
  | .var x => ρ x
  | .not f => !eval ρ f
  | .and a b => eval ρ a && eval ρ b
  | .or a b => eval ρ a || eval ρ b
  | .impl a b => !eval ρ a || eval ρ b
  | .equiv a b => eval ρ a == eval ρ b

/-- Semantics of a literal string: `-name` is the negation of `name`. -/
def lit_eval (ρ : String → Bool) (l : String) : Bool :=
  match l.data with
  | c :: rest => if c = '-' then !(ρ ⟨rest⟩) else ρ l
  | [] => ρ l

/-- A clause (list of literal strings) is a disjunction. -/
def clause_eval (ρ : String → Bool) (c : List String) : Bool := c.any (lit_eval ρ)

/-- A clause list is a conjunction of clauses. -/
def clauses_eval (ρ : String → Bool) (cs : List (List String)) : Bool := cs.all (clause_eval ρ)

/-! ## Tokenizer (`FormulaParser._tokenize`) -/

/-- Identifier characters: alphanumeric or underscore. -/
def id_char (c : Char) : Bool := c.isAlphanum || c = '_'

/-- Scan a maximal identifier run (the inner `while` of the tokenizer). -/
def ident_span (acc : List Char) : List Char → List Char × List Char
  | [] => (acc, [])
  | c :: rest => if id_char c then ident_span (acc ++ [c]) rest else (acc, c :: rest)

/-- One left-to-right tokenizer scan; `fuel ≥` length of the input always
suffices (each step consumes at least one character). Priority order as in
the source: `<->`, then `->`, then the single-character tokens, then
identifier runs; any other character is silently dropped. -/
def tok_core : Nat → List Char → List String
  | 0, _ => []
  | fuel+1, l =>
    match l with
    | [] => []
    | '<' :: '-' :: '>' :: rest => "<->" :: tok_core fuel rest
    | '-' :: '>' :: rest => "->" :: tok_core fuel rest
    | c :: rest =>
      if c = '-' || c = '&' || c = 'v' || c = '(' || c = ')' then
        (⟨[c]⟩ : String) :: tok_core fuel rest
      else if id_char c then
        let p := ident_span [c] rest
        (⟨p.1⟩ : String) :: tok_core fuel p.2
      else tok_core fuel rest

/-- `FormulaParser._tokenize`: spaces are removed first (`s.replace(' ','')`),
then the character stream is scanned. -/
def tokenize (s : String) : List String :=
  let l := s.data.filter (fun c => c ≠ ' ')
  tok_core l.length l

/-! ## Parser (recursive descent) -/

/-- The parser's failure conditions.  The first three constructors are the
three `raise` sites of the source; `fuelOut` is an artifact of the fuel-based
modeling of the mutual recursion and is proved unreachable for the fuel
passed by `parse`. -/
inductive ParseErr where
  | extraneous (tok : String)
  | expectedParen
  | endOfInput
  | fuelOut
deriving DecidableEq

mutual

/-- `_parse_equiv`: right-recursive `<->` level. -/
def parse_equiv : Nat → List String → Except ParseErr (Formula × List String)
  | 0, _ => .error .fuelOut
  | fuel+1, toks =>
    match parse_impl fuel toks with
    | .error e => .error e
    | .ok (left, rest) =>
      match rest with
      | "<->" :: rest2 =>
        match parse_equiv fuel rest2 with
        | .error e => .error e
        | .ok (right, rest3) => .ok (.equiv left right, rest3)
      | _ => .ok (left, rest)

/-- `_parse_impl`: right-recursive `->` level. -/
def parse_impl : Nat → List String → Except ParseErr (Formula × List String)
  | 0, _ => .error .fuelOut
  | fuel+1, toks =>
    match parse_or fuel toks with
    | .error e => .error e
    | .ok (left, rest) =>
      match rest with
      | "->" :: rest2 =>
        match parse_impl fuel rest2 with
        | .error e => .error e
        | .ok (right, rest3) => .ok (.impl left right, rest3)
      | _ => .ok (left, rest)

/-- `_parse_or`: left-folding iterative `v` level. -/
def parse_or : Nat → List String → Except ParseErr (Formula × List String)
  | 0, _ => .error .fuelOut
  | fuel+1, toks =>
    match parse_and fuel toks with
    | .error e => .error e
    | .ok (left, rest) => parse_or_loop fuel left rest

/-- The `while` loop of `_parse_or`. -/
def parse_or_loop : Nat → Formula → List String → Except ParseErr (Formula × List String)
  | 0, _, _ => .error .fuelOut
  | fuel+1, left, toks =>
    match toks with
    | "v" :: rest =>
      match parse_and fuel rest with
      | .error e => .error e
      | .ok (right, rest2) => parse_or_loop fuel (.or left right) rest2
    | _ => .ok (left, toks)

/-- `_parse_and`: left-folding iterative `&` level. -/
def parse_and : Nat → List String → Except ParseErr (Formula × List String)
  | 0, _ => .error .fuelOut
  | fuel+1, toks =>
    match parse_not fuel toks with
    | .error e => .error e
    | .ok (left, rest) => parse_and_loop fuel left rest

/-- The `while` loop of `_parse_and`. -/
def parse_and_loop : Nat → Formula → List String → Except ParseErr (Formula × List String)
  | 0, _, _ => .error .fuelOut
  | fuel+1, left, toks =>
    match toks with
    | "&" :: rest =>
      match parse_not fuel rest with
      | .error e => .error e
      | .ok (right, rest2) => parse_and_loop fuel (.and left right) rest2
    | _ => .ok (left, toks)

/-- `_parse_not`: prefix `-`, right-recursive. -/
def parse_not : Nat → List String → Except ParseErr (Formula × List String)
  | 0, _ => .error .fuelOut
  | fuel+1, toks =>
    match toks with
    | "-" :: rest =>
      match parse_not fuel rest with
      | .error e => .error e
      | .ok (child, rest2) => .ok (.not child, rest2)
    | _ => parse_primary fuel toks

/-- `_parse_primary`: parenthesized formula, or any remaining token taken as
a variable name. -/
def parse_primary : Nat → List String → Except ParseErr (Formula × List String)
  | 0, _ => .error .fuelOut
  | fuel+1, toks =>
    match toks with
    | "(" :: rest =>
      match parse_equiv fuel rest with
      | .error e => .error e
      | .ok (node, rest2) =>
        match rest2 with
        | ")" :: rest3 => .ok (node, rest3)
        | _ => .error .expectedParen
    | tok :: rest => .ok (.var tok, rest)
    | [] => .error .endOfInput

end

/-- Fuel that is always sufficient for the parser's mutual recursion on a
given token list (proved below). -/
def parse_fuel (toks : List String) : Nat := 6 * toks.length + 6

/-- `FormulaParser.parse`: parse a complete `equiv`, then require the whole
token stream to be consumed. -/
def parse (s : String) : Except ParseErr Formula :=
  let toks := tokenize s
  match parse_equiv (parse_fuel toks) toks with
  | .error e => .error e
  | .ok (f, []) => .ok f
  | .ok (_, tok :: _) => .error (.extraneous tok)

/-! ## Normalizer -/

/-- `CNFConverter._elim_equiv_impl`. -/
def elim_equiv_impl : Formula → Formula
  | .var x => .var x
  | .not f => .not (elim_equiv_impl f)
  | .impl a b => .or (.not (elim_equiv_impl a)) (elim_equiv_impl b)
  | .equiv a b =>
    .and (.or (.not (elim_equiv_impl a)) (elim_equiv_impl b))
      (.or (.not (elim_equiv_impl b)) (elim_equiv_impl a))
  | .and a b => .and (elim_equiv_impl a) (elim_equiv_impl b)
  | .or a b => .or (elim_equiv_impl a) (elim_equiv_impl b)

mutual

/-- `CNFConverter._nnf`.  The source is a single recursive function whose
`Not` branch dispatches on the child; that branch is split off as `nnf_not`
(so that `nnf_not g` computes the source's `_nnf(Formula(NOT, g))`), which
makes the recursion structural. -/
def nnf : Formula → Formula
  | .var x => .var x
  | .not g => nnf_not g
  | .and a b => .and (nnf a) (nnf b)
  | .or a b => .or (nnf a) (nnf b)
  | .impl a b => .impl (nnf a) (nnf b)
  | .equiv a b => .equiv (nnf a) (nnf b)

/-- The `Not` branch of `_nnf`: `nnf_not g = _nnf(Not(g))`. -/
def nnf_not : Formula → Formula
  | .var x => .not (.var x)
  | .not g => nnf g
  | .and a b => .or (nnf_not a) (nnf_not b)
  | .or a b => .and (nnf_not a) (nnf_not b)
  | .impl a b => .not (.impl (nnf a) (nnf b))
  | .equiv a b => .not (.equiv (nnf a) (nnf b))

end

/-! ## Classical clausifier -/

/-- The body of `CNFConverter._dist` once its first argument is known not to
be an `And` (the source re-checks `A.op == AND` on every call, but `A` never
changes in this phase, so the check stays false). -/
def dist_aux (A : Formula) : Formula → Formula
  | .and b1 b2 => .and (dist_aux A b1) (dist_aux A b2)
  | B => .or A B

/-- `CNFConverter._dist`: distribute a disjunction over conjunctions. -/
def dist : Formula → Formula → Formula
  | .and a1 a2, B => .and (dist a1 B) (dist a2 B)
  | A, B => dist_aux A B

/-- `CNFConverter._dist_or_over_and`. -/
def dist_or_over_and (f : Formula) : Formula :=
  if f.is_literal then f
  else match f with
    | .var x => .var x
    | .not g => .not (dist_or_over_and g)
    | .and a b => .and (dist_or_over_and a) (dist_or_over_and b)
    | .or a b => dist (dist_or_over_and a) (dist_or_over_and b)
    | .impl a b => .impl (dist_or_over_and a) (dist_or_over_and b)
    | .equiv a b => .equiv (dist_or_over_and a) (dist_or_over_and b)

/-- `CNFConverter._or_to_literals`. -/
def or_to_literals : Formula → List String
  | .or a b => or_to_literals a ++ or_to_literals b
  | .var x => [x]
  | .not (.var x) => ["-" ++ x]
  | f => [f.str]

/-- `CNFConverter._formula_to_clauses`. -/
def formula_to_clauses : Formula → List (List String)
  | .and a b => formula_to_clauses a ++ formula_to_clauses b
  | f => [or_to_literals f]

/-- `CNFConverter.to_cnf_equiv`: the classical pipeline. -/
def to_cnf_equiv (f : Formula) : List (List String) :=
  formula_to_clauses (dist_or_over_and (nnf (elim_equiv_impl f)))

/-! ## CNF predicates -/

/-- `CNFConverter._is_clause`. -/
def is_clause : Formula → Bool
  | .or a b => is_clause a && is_clause b
  | f => f.is_literal

/-- `CNFConverter._is_cnf`. -/
def is_cnf : Formula → Bool
  | .and a b => is_cnf a && is_cnf b
  | .or a b => is_clause a && is_clause b
  | f => f.is_literal

/-! ## Tseitin clausifier -/

/-- Left/right steps of a path from the root, as recorded by the search. -/
inductive Dir where
  | left
  | right
deriving DecidableEq

/-- The literal-string negation `negate` of `tseitin_450`. -/
def negate (s : String) : String :=
  match s.data with
  | c :: rest => if c = '-' then ⟨rest⟩ else "-" ++ s
  | [] => "-" ++ s

/-- `lit_to_str`.  The source raises on a non-literal; the search only ever
hands this function literals (proved below), so the default is unreachable. -/
def lit_to_str : Formula → String
  | .var x => x
  | .not (.var x) => "-" ++ x
  | _ => ""

/-- The fresh Tseitin variable produced after `n` increments of the counter
(Python's `f"t{fresh_id}"`). -/
def fresh_name (n : Nat) : String := "t" ++ dec_repr n

/-- `add_equiv_cnf`: the three defining clauses of `p ↔ (L op R)`, where the
`op` is the tag of `node`.  The source raises on any other tag; the rewrite
loop only ever passes `And`/`Or` nodes (proved below). -/
def add_equiv_cnf (p : String) (node : Formula) (L R : String) : List (List String) :=
  match node with
  | .and _ _ => [["-" ++ p, L], ["-" ++ p, R], [negate L, negate R, p]]
  | .or _ _ => [[p, negate L], [p, negate R], ["-" ++ p, L, R]]
  | _ => []

/-- `find_literal_binary`: depth-first search (node, then left subtree, then
right subtree) for the first `And`/`Or` node with two literal children,
returning it with the path from the root. -/
def find_literal_binary : Formula → List Dir → Option (Formula × List Dir)
  | .var _, _ => none
  | .not g, path => find_literal_binary g (path ++ [.left])
  | .and a b, path =>
    if a.is_literal && b.is_literal then some (.and a b, path)
    else
      match find_literal_binary a (path ++ [.left]) with
      | some r => some r
      | none => find_literal_binary b (path ++ [.right])
  | .or a b, path =>
    if a.is_literal && b.is_literal then some (.or a b, path)
    else
      match find_literal_binary a (path ++ [.left]) with
      | some r => some r
      | none => find_literal_binary b (path ++ [.right])
  | .impl a b, path =>
    match find_literal_binary a (path ++ [.left]) with
    | some r => some r
    | none => find_literal_binary b (path ++ [.right])
  | .equiv a b, path =>
    match find_literal_binary a (path ++ [.left]) with
    | some r => some r
    | none => find_literal_binary b (path ++ [.right])

/-- `replace_at`: rebuild the tree with the subtree at `path` replaced by
`atom`.  On a path that does not exist in the tree the source would fault;
those cases return the node unchanged and are unreachable for the paths
produced by `find_literal_binary`. -/
def replace_at : Formula → List Dir → Formula → Formula
  | _, [], atom => atom
  | .not g, .left :: rest, atom => .not (replace_at g rest atom)
  | .and a b, .left :: rest, atom => .and (replace_at a rest atom) b
  | .and a b, .right :: rest, atom => .and a (replace_at b rest atom)
  | .or a b, .left :: rest, atom => .or (replace_at a rest atom) b
  | .or a b, .right :: rest, atom => .or a (replace_at b rest atom)
  | .impl a b, .left :: rest, atom => .impl (replace_at a rest atom) b
  | .impl a b, .right :: rest, atom => .impl a (replace_at b rest atom)
  | .equiv a b, .left :: rest, atom => .equiv (replace_at a rest atom) b
  | .equiv a b, .right :: rest, atom => .equiv a (replace_at b rest atom)
  | f, _ :: _, _ => f

/-- Subtree of a formula at a path (verification helper relating
`find_literal_binary` and `replace_at`). -/
def subtree_at : Formula → List Dir → Option Formula
  | f, [] => some f
  | .not g, .left :: rest => subtree_at g rest
  | .and a _, .left :: rest => subtree_at a rest
  | .and _ b, .right :: rest => subtree_at b rest
  | .or a _, .left :: rest => subtree_at a rest
  | .or _ b, .right :: rest => subtree_at b rest
  | .impl a _, .left :: rest => subtree_at a rest
  | .impl _ b, .right :: rest => subtree_at b rest
  | .equiv a _, .left :: rest => subtree_at a rest
  | .equiv _ b, .right :: rest => subtree_at b rest
  | _, _ :: _ => none

/-- The `while` loop of `tseitin_450`, with the state it mutates in the
source (the clause list and the fresh counter) threaded explicitly; each
iteration strictly shrinks the tree, so `fuel ≥ size g` always suffices
(proved below). -/
def tseitin_loop : Nat → Formula → List (List String) → Nat → List (List String) × Formula × Nat
  | 0, g, cls, k => (cls, g, k)
  | fuel+1, g, cls, k =>
    if is_cnf g then (cls, g, k)
    else
      match find_literal_binary g [] with
      | none => (cls, g, k)
      | some (node, path) =>
        match node with
        | .and a b =>
          let p := fresh_name (k+1)
          tseitin_loop fuel (replace_at g path (.var p))
            (cls ++ add_equiv_cnf p (.and a b) (lit_to_str a) (lit_to_str b)) (k+1)
        | .or a b =>
          let p := fresh_name (k+1)
          tseitin_loop fuel (replace_at g path (.var p))
            (cls ++ add_equiv_cnf p (.or a b) (lit_to_str a) (lit_to_str b)) (k+1)
        | _ => (cls, g, k)

/-! ## Clause simplifier -/

/-- First character is `'-'` (Python `l.startswith('-')`). -/
def starts_dash (s : String) : Bool :=
  match s.data with
  | c :: _ => c = '-'
  | [] => false

/-- Python `l[1:]`. -/
def str_tail (s : String) : String := ⟨s.data.drop 1⟩

/-- The tautology test of `_dedup_simplify`: the clause contains some `-x`
together with `x`, or some positive `l` together with `-l`. -/
def is_taut (c : List String) : Bool :=
  c.any (fun l => starts_dash l && decide (str_tail l ∈ c)) ||
    c.any (fun l => !starts_dash l && decide (("-" ++ l) ∈ c))

/-- Python `sorted(set(c))`: the distinct literals of the clause in
ascending string order. -/
def sort_clause (c : List String) : List String := List.insertionSort str_le c.dedup

/-- Python `set(d).issubset(set(c))`. -/
def subset_b (d c : List String) : Bool := d.all (fun x => decide (x ∈ c))

/-- Python `set(d) == set(c)`. -/
def set_eq_b (d c : List String) : Bool := subset_b d c && subset_b c d

/-- `CNFConverter._dedup_simplify`: drop tautological clauses and
canonicalize each survivor, then drop every clause strictly containing
another surviving clause (indexwise, as in the source's `i != j`). -/
def dedup_simplify (cls : List (List String)) : List (List String) :=
  let norm := cls.filterMap (fun c => if is_taut c then none else some (sort_clause c))
  norm.enum.filterMap (fun ic =>
    if norm.enum.any (fun jd =>
        jd.1 != ic.1 && subset_b jd.2 ic.2 && !set_eq_b jd.2 ic.2) then
      none
    else some ic.2)

/-- `CNFConverter.tseitin_450`: normalize, run the rewrite loop, clausify
the residual (directly if it is CNF, otherwise through the classical
fallback), and simplify. -/
def tseitin_450 (f : Formula) : List (List String) :=
  let g := nnf (elim_equiv_impl f)
  let r := tseitin_loop g.size g [] 0
  let cnf_g := if is_cnf r.2.1 then formula_to_clauses r.2.1 else to_cnf_equiv r.2.1
  dedup_simplify (r.1 ++ cnf_g)

/-! ## Structural predicates used by the statements -/

/-- Negation-normal form over `And`/`Or`/`Not`/`Variable`, with `Not`
applied only to variables. -/
def nnf_only : Formula → Bool
  | .var _ => true
  | .not (.var _) => true
  | .not _ => false
  | .and a b | .or a b => nnf_only a && nnf_only b
  | .impl _ _ | .equiv _ _ => false

/-- No `Implies`/`Equiv` connective occurs. -/
def no_ie : Formula → Bool
  | .var _ => true
  | .not f => no_ie f
  | .and a b | .or a b => no_ie a && no_ie b
  | .impl _ _ | .equiv _ _ => false

/-- A well-formed variable name: a non-empty alphanumeric/underscore
token (the data-model invariant of the specification). -/
def ident_tok (x : String) : Bool := !x.data.isEmpty && x.data.all id_char

/-- A proper literal string: a well-formed variable name, or `-` followed by
one.  Every literal produced by the pipelines on well-formed input is proper. -/
def lit_ok (l : String) : Bool :=
  if starts_dash l then ident_tok (str_tail l) else ident_tok l

/-- `C` contains both `x` and `-x` for some variable `x` (the tautological
clause test of the specification). -/
def taut_pair (c : List String) : Bool :=
  c.any (fun x => decide (("-" ++ x) ∈ c))

/-- Numeric value of a decimal digit string (verification helper inverting
`dec_digits`). -/
def dec_val (cs : List Char) : Nat := cs.foldl (fun acc c => 10 * acc + (c.toNat - 48)) 0

/-- The defining-clause blocks the specification prescribes for the Tseitin
rewrite steps: the `i`-th step (counting from the counter value `k`) uses the
fresh variable `t(k+i+1)` and emits, for an `And` node with literal children
`L`, `R`, the clauses `{¬p, L}`, `{¬p, R}`, `{¬L, ¬R, p}`, and for an `Or`
node the clauses `{p, ¬L}`, `{p, ¬R}`, `{¬p, L, R}`.  Written from the
specification's words, to be compared with what `tseitin_loop` emits. -/
def spec_tseitin_blocks : Nat → List (Bool × String × String) → List (List String)
  | _, [] => []
  | k, (isAnd, L, R) :: steps =>
    (if isAnd then
      [["-" ++ fresh_name (k+1), L], ["-" ++ fresh_name (k+1), R],
        [negate L, negate R, fresh_name (k+1)]]
    else
      [[fresh_name (k+1), negate L], [fresh_name (k+1), negate R],
        ["-" ++ fresh_name (k+1), L, R]]) ++ spec_tseitin_blocks (k+1) steps

/-- The rewrite steps the Tseitin loop performs, projected from the loop body:
one entry per iteration, recording the counter value after its increment (the
step's fresh variable is `fresh_name` of it) and the node selected by
`find_literal_binary` in the current formula.  Same guards, same recursion as
`tseitin_loop`. -/
def tseitin_steps : Nat → Formula → Nat → List (Nat × Formula)
  | 0, _, _ => []
  | fuel+1, g, k =>
    if is_cnf g then []
    else
      match find_literal_binary g [] with
      | none => []
      | some (node, path) =>
        match node with
        | .and a b => (k+1, .and a b) ::
            tseitin_steps fuel (replace_at g path (.var (fresh_name (k+1)))) (k+1)
        | .or a b => (k+1, .or a b) ::
            tseitin_steps fuel (replace_at g path (.var (fresh_name (k+1)))) (k+1)
        | _ => []

/-- Written from the specification's words: the three defining clauses of one
rewrite step, for the recorded counter value `n` and the selected `node`,
where `L` and `R` are the renderings of that node's own literal children and
`p = t<n>`: for `And`, `{¬p, L}`, `{¬p, R}`, `{¬L, ¬R, p}`; for `Or`,
`{p, ¬L}`, `{p, ¬R}`, `{¬p, L, R}`. -/
def spec_step_block : Nat × Formula → List (List String)
  | (n, .and a b) =>
    [["-" ++ fresh_name n, lit_to_str a], ["-" ++ fresh_name n, lit_to_str b],
      [negate (lit_to_str a), negate (lit_to_str b), fresh_name n]]
  | (n, .or a b) =>
    [[fresh_name n, negate (lit_to_str a)], [fresh_name n, negate (lit_to_str b)],
      ["-" ++ fresh_name n, lit_to_str a, lit_to_str b]]
  | _ => []

/-- The concatenation of the specification's defining-clause blocks over a
sequence of recorded rewrite steps. -/
def spec_blocks_of_steps : List (Nat × Formula) → List (List String)
  | [] => []
  | s :: steps => spec_step_block s ++ spec_blocks_of_steps steps

/-! ## The string order used by clause canonicalization -/

theorem le_chars_refl : ∀ a, le_chars a a = true := by
  intro a
  induction a with
  | nil => rfl
  | cons c cs ih => simp [le_chars, lt_irrefl, ih]

theorem le_chars_total : ∀ a b, le_chars a b = true ∨ le_chars b a = true := by
  intro a
  induction a with
  | nil => intro b; left; rfl
  | cons c cs ih =>
    intro b
    cases b with
    | nil => right; rfl
    | cons d ds =>
      rcases lt_trichotomy c d with h | h | h
      · left; simp [le_chars, h]
      · subst h
        rcases ih ds with h' | h'
        · left; simp [le_chars, lt_irrefl, h']
        · right; simp [le_chars, lt_irrefl, h']
      · right; simp [le_chars, h]

theorem le_chars_trans :
    ∀ a b c, le_chars a b = true → le_chars b c = true → le_chars a c = true := by
  intro a
  induction a with
  | nil => intro b c _ _; rfl
  | cons x xs ih =>
    intro b c hab hbc
    cases b with
    | nil => simp [le_chars] at hab
    | cons y ys =>
      cases c with
      | nil => simp [le_chars] at hbc
      | cons z zs =>
        simp only [le_chars] at hab hbc ⊢
        rcases lt_trichotomy x y with hxy | hxy | hxy <;>
          rcases lt_trichotomy y z with hyz | hyz | hyz
        · simp [hxy.trans hyz]
        · subst hyz; simp [hxy]
        · rw [if_neg (lt_asymm hyz), if_pos hyz] at hbc; exact absurd hbc (by simp)
        · subst hxy; simp [hyz]
        · subst hxy; subst hyz
          rw [if_neg (lt_irrefl x), if_neg (lt_irrefl x)] at hab hbc ⊢
          exact ih _ _ hab hbc
        · subst hxy
          rw [if_neg (lt_asymm hyz), if_pos hyz] at hbc; exact absurd hbc (by simp)
        · rw [if_neg (lt_asymm hxy), if_pos hxy] at hab; exact absurd hab (by simp)
        · rw [if_neg (lt_asymm hxy), if_pos hxy] at hab; exact absurd hab (by simp)
        · rw [if_neg (lt_asymm hxy), if_pos hxy] at hab; exact absurd hab (by simp)

theorem le_chars_antisymm :
    ∀ a b, le_chars a b = true → le_chars b a = true → a = b := by
  intro a
  induction a with
  | nil =>
    intro b _ hba
    cases b with
    | nil => rfl
    | cons d ds => simp [le_chars] at hba
  | cons c cs ih =>
    intro b hab hba
    cases b with
    | nil => simp [le_chars] at hab
    | cons d ds =>
      simp only [le_chars] at hab hba
      rcases lt_trichotomy c d with h | h | h
      · simp [h, lt_asymm h] at hba
      · subst h
        simp only [lt_irrefl, if_false] at hab hba
        rw [ih ds hab hba]
      · simp [h, lt_asymm h] at hab

instance : IsTotal String str_le := ⟨fun a b => le_chars_total a.data b.data⟩

instance : IsTrans String str_le :=
  ⟨fun a b c hab hbc => le_chars_trans a.data b.data c.data hab hbc⟩

instance : IsRefl String str_le := ⟨fun a => le_chars_refl a.data⟩

instance : IsAntisymm String str_le := by
  refine ⟨fun a b hab hba => ?_⟩
  cases a with
  | mk da =>
    cases b with
    | mk db => exact congrArg String.mk (le_chars_antisymm da db hab hba)

/-! ## Decimal rendering facts -/

theorem dec_digit_toNat {d : Nat} (h : d < 10) : (dec_digit d).toNat = 48 + d := by
  interval_cases d <;> decide

theorem id_char_dec_digit {d : Nat} (h : d < 10) : id_char (dec_digit d) = true := by
  interval_cases d <;> decide

theorem dec_val_append (l : List Char) (c : Char) :
    dec_val (l ++ [c]) = 10 * dec_val l + (c.toNat - 48) := by
  simp [dec_val, List.foldl_append]

theorem dec_digits_val : ∀ fuel n, 1 ≤ n → n ≤ fuel → dec_val (dec_digits fuel n) = n := by
  intro fuel
  induction fuel with
  | zero => intro n h1 h2; omega
  | succ fuel ih =>
    intro n h1 h2
    by_cases h : n < 10
    · simp [dec_digits, h, dec_val, dec_digit_toNat h]
    · have hd : 1 ≤ n / 10 := by omega
      have hlt : n / 10 < n := Nat.div_lt_self (by omega) (by omega)
      simp only [dec_digits, h, if_false]
      rw [dec_val_append, ih (n / 10) hd (by omega), dec_digit_toNat (Nat.mod_lt n (by omega))]
      omega

theorem dec_repr_inj {n m : Nat} (hn : 1 ≤ n) (hm : 1 ≤ m)
    (h : dec_repr n = dec_repr m) : n = m := by
  unfold dec_repr at h
  rw [if_neg (by omega), if_neg (by omega)] at h
  have hdata : dec_digits n n = dec_digits m m := congrArg String.data h
  have hv := dec_digits_val n n hn le_rfl
  rw [hdata, dec_digits_val m m hm le_rfl] at hv
  omega

theorem dec_digits_chars : ∀ fuel n c, c ∈ dec_digits fuel n → id_char c = true := by
  intro fuel
  induction fuel with
  | zero => intro n c h; simp [dec_digits] at h
  | succ fuel ih =>
    intro n c h
    by_cases hn : n < 10
    · simp [dec_digits, hn] at h
      subst h
      exact id_char_dec_digit hn
    · simp only [dec_digits, hn, if_false, List.mem_append, List.mem_singleton] at h
      rcases h with h | h
      · exact ih _ _ h
      · subst h
        exact id_char_dec_digit (Nat.mod_lt n (by omega))

theorem dec_repr_chars (n : Nat) : ∀ c ∈ (dec_repr n).data, id_char c = true := by
  intro c hc
  unfold dec_repr at hc
  split_ifs at hc with h
  · simp at hc
    subst hc
    decide
  · exact dec_digits_chars n n c hc

/-! ## Fresh-name facts -/

theorem fresh_name_data (n : Nat) : (fresh_name n).data = 't' :: (dec_repr n).data := by
  cases h : dec_repr n with
  | mk l => simp [fresh_name, h, String.data_append]

theorem fresh_name_inj {n m : Nat} (hn : 1 ≤ n) (hm : 1 ≤ m)
    (h : fresh_name n = fresh_name m) : n = m := by
  have hd := congrArg String.data h
  rw [fresh_name_data, fresh_name_data] at hd
  have hd' : (dec_repr n).data = (dec_repr m).data := by injection hd
  refine dec_repr_inj hn hm ?_
  cases hr : dec_repr n with
  | mk l =>
    cases hr' : dec_repr m with
    | mk l' =>
      rw [hr, hr'] at hd'
      simp at hd'
      rw [hd']

theorem ident_tok_fresh_name (n : Nat) : ident_tok (fresh_name n) = true := by
  simp only [ident_tok, fresh_name_data, Bool.and_eq_true, List.all_cons]
  refine ⟨by simp, by decide, ?_⟩
  rw [List.all_eq_true]
  intro c hc
  exact dec_repr_chars n c hc

theorem fresh_name_head (n : Nat) : (fresh_name n).data.head? = some 't' := by
  rw [fresh_name_data]; rfl

theorem fresh_name_ne {n : Nat} {x : String} (h : x.data.head? ≠ some 't') :
    fresh_name n ≠ x := by
  intro he
  exact h (by rw [← he, fresh_name_head])

/-! ## Literal-string facts -/

theorem string_mk_data (l : List Char) : (⟨l⟩ : String).data = l := rfl

theorem string_data_inj {a b : String} (h : a.data = b.data) : a = b := by
  cases a; cases b; exact congrArg String.mk h

theorem dash_append_data (x : String) : ("-" ++ x).data = '-' :: x.data := by
  simp [String.data_append]

theorem id_char_ne_dash {c : Char} (h : id_char c = true) : c ≠ '-' := by
  intro he
  subst he
  simp [id_char] at h

theorem starts_dash_mk_cons (c : Char) (rest : List Char) :
    starts_dash ⟨c :: rest⟩ = decide (c = '-') := rfl

theorem lit_eval_mk_cons (ρ : String → Bool) (c : Char) (rest : List Char) :
    lit_eval ρ ⟨c :: rest⟩ = if c = '-' then !(ρ ⟨rest⟩) else ρ ⟨c :: rest⟩ := rfl

theorem negate_mk_cons (c : Char) (rest : List Char) :
    negate ⟨c :: rest⟩ = if c = '-' then (⟨rest⟩ : String) else "-" ++ ⟨c :: rest⟩ := rfl

theorem string_mk_data_self (x : String) : (⟨x.data⟩ : String) = x := by cases x; rfl

theorem starts_dash_data {s : String} {c : Char} {rest : List Char} (h : s.data = c :: rest) :
    starts_dash s = decide (c = '-') := by
  cases s with
  | mk d =>
    rw [string_mk_data] at h
    subst h
    rfl

theorem lit_eval_data (ρ : String → Bool) {s : String} {c : Char} {rest : List Char}
    (h : s.data = c :: rest) :
    lit_eval ρ s = if c = '-' then !(ρ ⟨rest⟩) else ρ s := by
  cases s with
  | mk d =>
    rw [string_mk_data] at h
    subst h
    rfl

theorem negate_data {s : String} {c : Char} {rest : List Char} (h : s.data = c :: rest) :
    negate s = if c = '-' then (⟨rest⟩ : String) else "-" ++ s := by
  cases s with
  | mk d =>
    rw [string_mk_data] at h
    subst h
    rfl

theorem ident_tok_not_dash {x : String} (h : ident_tok x = true) :
    starts_dash x = false := by
  obtain ⟨d⟩ := x
  simp only [ident_tok, Bool.and_eq_true, List.all_eq_true, string_mk_data] at h
  obtain ⟨hne, hall⟩ := h
  cases d with
  | nil => rfl
  | cons c rest =>
    rw [starts_dash_mk_cons]
    simp [id_char_ne_dash (hall c (List.mem_cons_self c rest))]

theorem lit_eval_of_not_dash {x : String} (h : starts_dash x = false) (ρ : String → Bool) :
    lit_eval ρ x = ρ x := by
  obtain ⟨d⟩ := x
  cases d with
  | nil => rfl
  | cons c rest =>
    rw [starts_dash_mk_cons] at h
    rw [lit_eval_mk_cons, if_neg (by simpa using h)]

theorem lit_eval_dash (x : String) (ρ : String → Bool) :
    lit_eval ρ ("-" ++ x) = !(ρ x) := by
  rw [lit_eval_data ρ (dash_append_data x), if_pos rfl, string_mk_data_self]

theorem negate_of_not_dash {x : String} (h : starts_dash x = false) :
    negate x = "-" ++ x := by
  obtain ⟨d⟩ := x
  cases d with
  | nil => rfl
  | cons c rest =>
    rw [starts_dash_mk_cons] at h
    rw [negate_mk_cons, if_neg (by simpa using h)]

theorem negate_dash (x : String) : negate ("-" ++ x) = x := by
  rw [negate_data (dash_append_data x), if_pos rfl, string_mk_data_self]

theorem starts_dash_dash (x : String) : starts_dash ("-" ++ x) = true := by
  rw [starts_dash_data (dash_append_data x)]
  decide

theorem str_tail_dash (x : String) : str_tail ("-" ++ x) = x := by
  unfold str_tail
  rw [dash_append_data]
  exact string_mk_data_self x

/-- Decomposition of a proper literal: either a clean variable name, or the
dash-negation of one. -/
theorem lit_ok_cases {l : String} (h : lit_ok l = true) :
    (starts_dash l = false ∧ ident_tok l = true) ∨
      ∃ x, l = "-" ++ x ∧ ident_tok x = true := by
  unfold lit_ok at h
  obtain ⟨d⟩ := l
  cases d with
  | nil => exact Or.inl ⟨rfl, by simp at h; exact h⟩
  | cons c rest =>
    by_cases hc : c = '-'
    · subst hc
      right
      refine ⟨⟨rest⟩, ?_, ?_⟩
      · refine string_data_inj ?_
        rw [dash_append_data, string_mk_data, string_mk_data]
      · rw [if_pos (by rw [starts_dash_mk_cons]; decide)] at h
        exact h
    · left
      have hs : starts_dash ⟨c :: rest⟩ = false := by
        rw [starts_dash_mk_cons]; simpa using hc
      rw [if_neg (by simp [hs])] at h
      exact ⟨hs, h⟩

theorem lit_ok_dash {x : String} (hx : ident_tok x = true) :
    lit_ok ("-" ++ x) = true := by
  unfold lit_ok
  rw [if_pos (starts_dash_dash x), str_tail_dash]
  exact hx

theorem lit_ok_of_ident {x : String} (hx : ident_tok x = true) : lit_ok x = true := by
  unfold lit_ok
  rw [if_neg (by simp [ident_tok_not_dash hx])]
  exact hx

theorem lit_eval_negate {l : String} (h : lit_ok l = true) (ρ : String → Bool) :
    lit_eval ρ (negate l) = !(lit_eval ρ l) := by
  rcases lit_ok_cases h with ⟨hd, _⟩ | ⟨x, rfl, hx⟩
  · rw [negate_of_not_dash hd, lit_eval_dash, lit_eval_of_not_dash hd]
  · rw [negate_dash, lit_eval_dash,
      lit_eval_of_not_dash (ident_tok_not_dash hx), Bool.not_not]

theorem lit_ok_negate {l : String} (h : lit_ok l = true) : lit_ok (negate l) = true := by
  rcases lit_ok_cases h with ⟨hd, hi⟩ | ⟨x, rfl, hx⟩
  · rw [negate_of_not_dash hd]
    exact lit_ok_dash hi
  · rw [negate_dash]
    exact lit_ok_of_ident hx

/-! ## Clause-level semantics -/

theorem clause_eval_iff {ρ : String → Bool} {c : List String} :
    clause_eval ρ c = true ↔ ∃ l ∈ c, lit_eval ρ l = true := by
  simp [clause_eval, List.any_eq_true]

theorem clause_eval_mono {ρ : String → Bool} {d c : List String}
    (hsub : ∀ l ∈ d, l ∈ c) (h : clause_eval ρ d = true) : clause_eval ρ c = true := by
  rw [clause_eval_iff] at h ⊢
  obtain ⟨l, hl, he⟩ := h
  exact ⟨l, hsub l hl, he⟩

theorem clause_eval_congr {ρ : String → Bool} {c d : List String}
    (h : ∀ l, l ∈ c ↔ l ∈ d) : clause_eval ρ c = clause_eval ρ d := by
  rw [Bool.eq_iff_iff, clause_eval_iff, clause_eval_iff]
  constructor
  · rintro ⟨l, hl, he⟩
    exact ⟨l, (h l).mp hl, he⟩
  · rintro ⟨l, hl, he⟩
    exact ⟨l, (h l).mpr hl, he⟩

theorem clauses_eval_iff {ρ : String → Bool} {cs : List (List String)} :
    clauses_eval ρ cs = true ↔ ∀ c ∈ cs, clause_eval ρ c = true := by
  simp [clauses_eval, List.all_eq_true]

/-! ## Canonicalization (`sorted(set(c))`) facts -/

theorem mem_sort_clause {l : String} {c : List String} :
    l ∈ sort_clause c ↔ l ∈ c := by
  unfold sort_clause
  rw [(List.perm_insertionSort str_le c.dedup).mem_iff, List.mem_dedup]

theorem sort_clause_nodup (c : List String) : (sort_clause c).Nodup :=
  ((List.perm_insertionSort str_le c.dedup).nodup_iff).mpr (List.nodup_dedup c)

theorem sort_clause_sorted (c : List String) : List.Sorted str_le (sort_clause c) :=
  List.sorted_insertionSort str_le c.dedup

theorem sort_clause_idem (c : List String) : sort_clause (sort_clause c) = sort_clause c := by
  conv_lhs => rw [sort_clause]
  rw [List.dedup_eq_self.mpr (sort_clause_nodup c)]
  exact List.Sorted.insertionSort_eq (sort_clause_sorted c)

/-! ## Tautology-test facts -/

theorem is_taut_iff {c : List String} :
    is_taut c = true ↔
      (∃ l ∈ c, starts_dash l = true ∧ str_tail l ∈ c) ∨
        (∃ l ∈ c, starts_dash l = false ∧ ("-" ++ l) ∈ c) := by
  unfold is_taut
  rw [Bool.or_eq_true, List.any_eq_true, List.any_eq_true]
  constructor
  · rintro (⟨l, hl, he⟩ | ⟨l, hl, he⟩)
    · simp only [Bool.and_eq_true, decide_eq_true_eq] at he
      exact Or.inl ⟨l, hl, he⟩
    · simp only [Bool.and_eq_true, Bool.not_eq_true', decide_eq_true_eq] at he
      exact Or.inr ⟨l, hl, he⟩
  · rintro (⟨l, hl, h1, h2⟩ | ⟨l, hl, h1, h2⟩)
    · exact Or.inl ⟨l, hl, by simp [h1, h2]⟩
    · exact Or.inr ⟨l, hl, by simp [h1, h2]⟩

theorem is_taut_congr {c d : List String} (h : ∀ l, l ∈ c ↔ l ∈ d) :
    is_taut c = is_taut d := by
  rw [Bool.eq_iff_iff, is_taut_iff, is_taut_iff]
  constructor
  · rintro (⟨l, hl, h1, h2⟩ | ⟨l, hl, h1, h2⟩)
    · exact Or.inl ⟨l, (h l).mp hl, h1, (h _).mp h2⟩
    · exact Or.inr ⟨l, (h l).mp hl, h1, (h _).mp h2⟩
  · rintro (⟨l, hl, h1, h2⟩ | ⟨l, hl, h1, h2⟩)
    · exact Or.inl ⟨l, (h l).mpr hl, h1, (h _).mpr h2⟩
    · exact Or.inr ⟨l, (h l).mpr hl, h1, (h _).mpr h2⟩

theorem clause_eval_of_taut {c : List String} (hok : ∀ l ∈ c, lit_ok l = true)
    (ht : is_taut c = true) (ρ : String → Bool) : clause_eval ρ c = true := by
  rw [is_taut_iff] at ht
  rcases ht with ⟨l, hl, hsd, htl⟩ | ⟨l, hl, hsd, hdl⟩
  · rcases lit_ok_cases (hok l hl) with ⟨hd, _⟩ | ⟨x, rfl, hx⟩
    · rw [hd] at hsd; cases hsd
    · rw [str_tail_dash] at htl
      rw [clause_eval_iff]
      cases he : ρ x with
      | true =>
        exact ⟨x, htl, by rw [lit_eval_of_not_dash (ident_tok_not_dash hx), he]⟩
      | false =>
        exact ⟨"-" ++ x, hl, by rw [lit_eval_dash, he]; rfl⟩
  · rw [clause_eval_iff]
    cases he : ρ l with
    | true => exact ⟨l, hl, by rw [lit_eval_of_not_dash hsd, he]⟩
    | false => exact ⟨"-" ++ l, hdl, by rw [lit_eval_dash, he]; rfl⟩

/-! ## Subset-test facts -/

theorem subset_b_iff {d c : List String} : subset_b d c = true ↔ ∀ x ∈ d, x ∈ c := by
  simp [subset_b, List.all_eq_true]

theorem subset_b_refl (c : List String) : subset_b c c = true := by
  rw [subset_b_iff]; exact fun x hx => hx

theorem ssubset_card {d c : List String} (hsub : subset_b d c = true)
    (hnsub : subset_b c d = false) : d.toFinset.card < c.toFinset.card := by
  apply Finset.card_lt_card
  rw [Finset.ssubset_iff_subset_ne]
  constructor
  · intro x hx
    rw [List.mem_toFinset] at hx ⊢
    exact (subset_b_iff.mp hsub) x hx
  · intro he
    have : subset_b c d = true := by
      rw [subset_b_iff]
      intro x hx
      have : x ∈ d.toFinset := by rw [he, List.mem_toFinset]; exact hx
      rwa [List.mem_toFinset] at this
    rw [this] at hnsub; cases hnsub

/-! ## Enumeration helpers -/

theorem snd_mem_of_mem_enum {α : Type} {p : Nat × α} {l : List α} (h : p ∈ l.enum) :
    p.2 ∈ l := by
  rw [List.mem_enum_iff_getElem?] at h
  rw [List.getElem?_eq_some] at h
  obtain ⟨hlt, he⟩ := h
  exact he ▸ List.getElem_mem hlt

theorem exists_enum_of_mem {α : Type} {a : α} {l : List α} (h : a ∈ l) :
    ∃ i, (i, a) ∈ l.enum := by
  obtain ⟨n, hn⟩ := List.getElem?_of_mem h
  exact ⟨n, List.mem_enum_iff_getElem?.mpr hn⟩

theorem enum_functional {α : Type} {i : Nat} {a b : α} {l : List α}
    (ha : (i, a) ∈ l.enum) (hb : (i, b) ∈ l.enum) : a = b := by
  rw [List.mem_enum_iff_getElem?] at ha hb
  rw [ha] at hb
  injection hb

/-- `filterMap` that behaves as a `map` on every element of the list. -/
theorem filterMap_eq_map_of {α β : Type} (L : List α) (f : α → Option β) (g : α → β)
    (h : ∀ x ∈ L, f x = some (g x)) : L.filterMap f = L.map g := by
  induction L with
  | nil => rfl
  | cons x xs ih =>
    rw [List.filterMap_cons, h x (List.mem_cons_self x xs), List.map_cons,
      ih (fun y hy => h y (List.mem_cons_of_mem x hy))]

/-! ## The two passes of `dedup_simplify` -/

theorem mem_subsume_iff {α : Type} {cond : Nat × α → Bool} {l : List α} {x : α} :
    x ∈ l.enum.filterMap (fun p => if cond p then none else some p.2) ↔
      ∃ i, (i, x) ∈ l.enum ∧ cond (i, x) = false := by
  rw [List.mem_filterMap]
  constructor
  · rintro ⟨p, hp, hf⟩
    by_cases hc : cond p = true
    · rw [if_pos hc] at hf; cases hf
    · rw [if_neg hc] at hf
      injection hf with hf
      subst hf
      exact ⟨p.1, hp, by simpa using hc⟩
  · rintro ⟨i, hi, hc⟩
    exact ⟨(i, x), hi, by rw [if_neg (by simp [hc])]⟩

theorem clauses_eval_norm_pass (cls : List (List String))
    (hok : ∀ c ∈ cls, ∀ l ∈ c, lit_ok l = true) (ρ : String → Bool) :
    clauses_eval ρ (cls.filterMap (fun c => if is_taut c then none else some (sort_clause c))) =
      clauses_eval ρ cls := by
  induction cls with
  | nil => rfl
  | cons c cs ih =>
    have ih' := ih (fun c' hc' => hok c' (List.mem_cons_of_mem c hc'))
    rw [List.filterMap_cons]
    by_cases ht : is_taut c = true
    · rw [if_pos ht]
      have hc : clause_eval ρ c = true :=
        clause_eval_of_taut (hok c (List.mem_cons_self c cs)) ht ρ
      simp only [clauses_eval, List.all_cons, hc, Bool.true_and] at *
      exact ih'
    · rw [if_neg ht]
      simp only [clauses_eval, List.all_cons] at *
      rw [clause_eval_congr (fun l => mem_sort_clause), ih']

theorem clauses_eval_sub_pass (norm : List (List String)) (ρ : String → Bool) :
    clauses_eval ρ (norm.enum.filterMap (fun ic =>
        if norm.enum.any (fun jd =>
            jd.1 != ic.1 && subset_b jd.2 ic.2 && !set_eq_b jd.2 ic.2) then none
        else some ic.2)) =
      clauses_eval ρ norm := by
  rw [Bool.eq_iff_iff, clauses_eval_iff, clauses_eval_iff]
  constructor
  · intro hout
    suffices H : ∀ n c, c ∈ norm → c.toFinset.card ≤ n → clause_eval ρ c = true by
      intro c hc
      exact H c.toFinset.card c hc le_rfl
    intro n
    induction n with
    | zero =>
      intro c hc hcard
      obtain ⟨i, hi⟩ := exists_enum_of_mem hc
      by_cases hcond : (norm.enum.any fun jd =>
          jd.1 != i && subset_b jd.2 c && !set_eq_b jd.2 c) = true
      · rw [List.any_eq_true] at hcond
        obtain ⟨⟨j, d⟩, hjd, hcc⟩ := hcond
        simp only [Bool.and_eq_true, bne_iff_ne, Bool.not_eq_true'] at hcc
        obtain ⟨⟨hne, hsub⟩, hseq⟩ := hcc
        have hnsub : subset_b c d = false := by
          unfold set_eq_b at hseq
          rw [hsub, Bool.true_and] at hseq
          exact hseq
        have := ssubset_card hsub hnsub
        omega
      · exact hout c (mem_subsume_iff.mpr ⟨i, hi, by simpa using hcond⟩)
    | succ n ih =>
      intro c hc hcard
      obtain ⟨i, hi⟩ := exists_enum_of_mem hc
      by_cases hcond : (norm.enum.any fun jd =>
          jd.1 != i && subset_b jd.2 c && !set_eq_b jd.2 c) = true
      · rw [List.any_eq_true] at hcond
        obtain ⟨⟨j, d⟩, hjd, hcc⟩ := hcond
        simp only [Bool.and_eq_true, bne_iff_ne, Bool.not_eq_true'] at hcc
        obtain ⟨⟨hne, hsub⟩, hseq⟩ := hcc
        have hnsub : subset_b c d = false := by
          unfold set_eq_b at hseq
          rw [hsub, Bool.true_and] at hseq
          exact hseq
        have hlt := ssubset_card hsub hnsub
        have hd : clause_eval ρ d = true := ih d (snd_mem_of_mem_enum hjd) (by omega)
        exact clause_eval_mono (subset_b_iff.mp hsub) hd
      · exact hout c (mem_subsume_iff.mpr ⟨i, hi, by simpa using hcond⟩)
  · intro hnorm c hc
    obtain ⟨i, hi, _⟩ := mem_subsume_iff.mp hc
    exact hnorm c (snd_mem_of_mem_enum hi)

theorem dedup_simplify_eval (cls : List (List String))
    (hok : ∀ c ∈ cls, ∀ l ∈ c, lit_ok l = true) (ρ : String → Bool) :
    clauses_eval ρ (dedup_simplify cls) = clauses_eval ρ cls := by
  have h1 : dedup_simplify cls =
      (cls.filterMap (fun c => if is_taut c then none else some (sort_clause c))).enum.filterMap
        (fun ic =>
          if (cls.filterMap
                (fun c => if is_taut c then none else some (sort_clause c))).enum.any
              (fun jd => jd.1 != ic.1 && subset_b jd.2 ic.2 && !set_eq_b jd.2 ic.2) then
            none
          else some ic.2) := rfl
  rw [h1, clauses_eval_sub_pass, clauses_eval_norm_pass cls hok]

theorem mem_dedup_simplify {C : List String} {cls : List (List String)}
    (h : C ∈ dedup_simplify cls) :
    ∃ c ∈ cls, is_taut c = false ∧ C = sort_clause c := by
  have h1 : dedup_simplify cls =
      (cls.filterMap (fun c => if is_taut c then none else some (sort_clause c))).enum.filterMap
        (fun ic =>
          if (cls.filterMap
                (fun c => if is_taut c then none else some (sort_clause c))).enum.any
              (fun jd => jd.1 != ic.1 && subset_b jd.2 ic.2 && !set_eq_b jd.2 ic.2) then
            none
          else some ic.2) := rfl
  rw [h1, mem_subsume_iff] at h
  obtain ⟨i, hi, _⟩ := h
  have hC := snd_mem_of_mem_enum hi
  rw [List.mem_filterMap] at hC
  obtain ⟨c, hc, hfc⟩ := hC
  by_cases ht : is_taut c = true
  · rw [if_pos ht] at hfc; cases hfc
  · rw [if_neg ht] at hfc
    injection hfc with hfc
    exact ⟨c, hc, by simpa using ht, hfc.symm⟩

theorem taut_pair_dedup_simplify (cls : List (List String)) :
    ∀ C ∈ dedup_simplify cls, taut_pair C = false := by
  intro C hC
  obtain ⟨c, _, htaut, rfl⟩ := mem_dedup_simplify hC
  by_contra hne
  simp only [Bool.not_eq_false] at hne
  unfold taut_pair at hne
  rw [List.any_eq_true] at hne
  obtain ⟨x, hx, hdx⟩ := hne
  rw [decide_eq_true_eq, mem_sort_clause] at hdx
  rw [mem_sort_clause] at hx
  have : is_taut c = true := by
    rw [is_taut_iff]
    by_cases hsd : starts_dash x = true
    · exact Or.inl ⟨"-" ++ x, hdx, starts_dash_dash x, by rw [str_tail_dash]; exact hx⟩
    · exact Or.inr ⟨x, hx, by simpa using hsd, hdx⟩
  rw [this] at htaut
  cases htaut

theorem dedup_simplify_mem_canonical {C : List String} {cls : List (List String)}
    (h : C ∈ dedup_simplify cls) : is_taut C = false ∧ sort_clause C = C := by
  obtain ⟨c, _, htaut, rfl⟩ := mem_dedup_simplify h
  exact ⟨by rw [is_taut_congr (fun l => mem_sort_clause)]; exact htaut, sort_clause_idem c⟩

theorem dedup_simplify_idem (cls : List (List String)) :
    dedup_simplify (dedup_simplify cls) = dedup_simplify cls := by
  have h1 : (dedup_simplify cls).filterMap
      (fun c => if is_taut c then none else some (sort_clause c)) = dedup_simplify cls := by
    rw [filterMap_eq_map_of (dedup_simplify cls) _ id ?_, List.map_id]
    intro c hcmem
    obtain ⟨ht, hs⟩ := dedup_simplify_mem_canonical hcmem
    rw [if_neg (by simp [ht]), hs]
    rfl
  have h2 : dedup_simplify (dedup_simplify cls) =
      (dedup_simplify cls).enum.filterMap (fun ic =>
        if (dedup_simplify cls).enum.any
            (fun jd => jd.1 != ic.1 && subset_b jd.2 ic.2 && !set_eq_b jd.2 ic.2) then none
        else some ic.2) := by
    conv_lhs => rw [dedup_simplify]
    rw [h1]
  rw [h2]
  rw [filterMap_eq_map_of _ _ Prod.snd ?_, List.enum_map_snd]
  intro p hp
  have hcond : ((dedup_simplify cls).enum.any fun jd =>
      jd.1 != p.1 && subset_b jd.2 p.2 && !set_eq_b jd.2 p.2) = false := by
    by_contra hc
    simp only [Bool.not_eq_false] at hc
    rw [List.any_eq_true] at hc
    obtain ⟨⟨j, d⟩, hjd, hcc⟩ := hc
    simp only [Bool.and_eq_true, bne_iff_ne, Bool.not_eq_true'] at hcc
    obtain ⟨⟨hne, hsub⟩, hseq⟩ := hcc
    have hnsub : subset_b p.2 d = false := by
      unfold set_eq_b at hseq
      rw [hsub, Bool.true_and] at hseq
      exact hseq
    have hdc : d ≠ p.2 := by
      intro he
      rw [he, subset_b_refl] at hnsub
      cases hnsub
    have hdO : d ∈ dedup_simplify cls := snd_mem_of_mem_enum hjd
    have hcO : p.2 ∈ dedup_simplify cls := snd_mem_of_mem_enum hp
    -- the pass-1 structure of `dedup_simplify cls`
    have h3 : dedup_simplify cls =
        (cls.filterMap (fun c => if is_taut c then none else some (sort_clause c))).enum.filterMap
          (fun ic =>
            if (cls.filterMap
                  (fun c => if is_taut c then none else some (sort_clause c))).enum.any
                (fun jd => jd.1 != ic.1 && subset_b jd.2 ic.2 && !set_eq_b jd.2 ic.2) then
              none
            else some ic.2) := rfl
    rw [h3, mem_subsume_iff] at hcO
    obtain ⟨i1, hi1, hkept⟩ := hcO
    rw [h3] at hdO
    have hdN := mem_subsume_iff.mp hdO
    obtain ⟨j1, hj1, _⟩ := hdN
    have hne1 : j1 ≠ i1 := by
      intro he
      subst he
      exact hdc (enum_functional hj1 hi1)
    have : ((cls.filterMap
          (fun c => if is_taut c then none else some (sort_clause c))).enum.any
        (fun jd => jd.1 != i1 && subset_b jd.2 p.2 && !set_eq_b jd.2 p.2)) = true := by
      rw [List.any_eq_true]
      refine ⟨(j1, d), hj1, ?_⟩
      simp only [Bool.and_eq_true, bne_iff_ne, Bool.not_eq_true']
      refine ⟨⟨hne1, hsub⟩, ?_⟩
      unfold set_eq_b
      rw [hsub, Bool.true_and]
      exact hnsub
    rw [this] at hkept
    cases hkept
  rw [if_neg (by simp [hcond])]

/-! ## Normalizer semantics -/

theorem eval_elim (ρ : String → Bool) (f : Formula) :
    eval ρ (elim_equiv_impl f) = eval ρ f := by
  induction f with
  | var x => rfl
  | not f ih => simp [elim_equiv_impl, eval, ih]
  | and a b iha ihb => simp [elim_equiv_impl, eval, iha, ihb]
  | or a b iha ihb => simp [elim_equiv_impl, eval, iha, ihb]
  | impl a b iha ihb => simp [elim_equiv_impl, eval, iha, ihb]
  | equiv a b iha ihb =>
    simp only [elim_equiv_impl, eval, iha, ihb]
    cases eval ρ a <;> cases eval ρ b <;> rfl

theorem no_ie_elim (f : Formula) : no_ie (elim_equiv_impl f) = true := by
  induction f with
  | var x => rfl
  | not f ih => simpa [elim_equiv_impl, no_ie] using ih
  | and a b iha ihb => simp [elim_equiv_impl, no_ie, iha, ihb]
  | or a b iha ihb => simp [elim_equiv_impl, no_ie, iha, ihb]
  | impl a b iha ihb => simp [elim_equiv_impl, no_ie, iha, ihb]
  | equiv a b iha ihb => simp [elim_equiv_impl, no_ie, iha, ihb]

theorem vars_elim (f : Formula) : ∀ x ∈ (elim_equiv_impl f).vars, x ∈ f.vars := by
  induction f with
  | var x => exact fun x hx => hx
  | not f ih => exact ih
  | and a b iha ihb =>
    intro x hx
    simp only [elim_equiv_impl, Formula.vars, List.mem_append] at hx ⊢
    rcases hx with h | h
    · exact Or.inl (iha x h)
    · exact Or.inr (ihb x h)
  | or a b iha ihb =>
    intro x hx
    simp only [elim_equiv_impl, Formula.vars, List.mem_append] at hx ⊢
    rcases hx with h | h
    · exact Or.inl (iha x h)
    · exact Or.inr (ihb x h)
  | impl a b iha ihb =>
    intro x hx
    simp only [elim_equiv_impl, Formula.vars, List.mem_append] at hx ⊢
    rcases hx with h | h
    · exact Or.inl (iha x h)
    · exact Or.inr (ihb x h)
  | equiv a b iha ihb =>
    intro x hx
    simp only [elim_equiv_impl, Formula.vars, List.mem_append] at hx ⊢
    rcases hx with (h | h) | (h | h)
    · exact Or.inl (iha x h)
    · exact Or.inr (ihb x h)
    · exact Or.inr (ihb x h)
    · exact Or.inl (iha x h)

theorem eval_nnf_both (ρ : String → Bool) (f : Formula) :
    eval ρ (nnf f) = eval ρ f ∧ eval ρ (nnf_not f) = !(eval ρ f) := by
  induction f with
  | var x => exact ⟨rfl, rfl⟩
  | not g ih =>
    refine ⟨ih.2, ?_⟩
    show eval ρ (nnf g) = !(eval ρ (.not g))
    rw [ih.1]
    simp [eval]
  | and a b iha ihb =>
    constructor
    · show eval ρ (.and (nnf a) (nnf b)) = _
      simp [eval, iha.1, ihb.1]
    · show eval ρ (.or (nnf_not a) (nnf_not b)) = _
      simp [eval, iha.2, ihb.2]
  | or a b iha ihb =>
    constructor
    · show eval ρ (.or (nnf a) (nnf b)) = _
      simp [eval, iha.1, ihb.1]
    · show eval ρ (.and (nnf_not a) (nnf_not b)) = _
      simp [eval, iha.2, ihb.2]
  | impl a b iha ihb =>
    constructor
    · show eval ρ (.impl (nnf a) (nnf b)) = _
      simp [eval, iha.1, ihb.1]
    · show eval ρ (.not (.impl (nnf a) (nnf b))) = _
      simp [eval, iha.1, ihb.1]
  | equiv a b iha ihb =>
    constructor
    · show eval ρ (.equiv (nnf a) (nnf b)) = _
      simp [eval, iha.1, ihb.1]
    · show eval ρ (.not (.equiv (nnf a) (nnf b))) = _
      simp [eval, iha.1, ihb.1]

theorem eval_nnf (ρ : String → Bool) (f : Formula) : eval ρ (nnf f) = eval ρ f :=
  (eval_nnf_both ρ f).1

theorem nnf_only_nnf_both (f : Formula) (h : no_ie f = true) :
    nnf_only (nnf f) = true ∧ nnf_only (nnf_not f) = true := by
  induction f with
  | var x => exact ⟨rfl, rfl⟩
  | not g ih =>
    simp only [no_ie] at h
    refine ⟨(ih h).2, ?_⟩
    show nnf_only (nnf g) = true
    exact (ih h).1
  | and a b iha ihb =>
    simp only [no_ie, Bool.and_eq_true] at h
    constructor
    · show nnf_only (.and (nnf a) (nnf b)) = true
      simp [nnf_only, (iha h.1).1, (ihb h.2).1]
    · show nnf_only (.or (nnf_not a) (nnf_not b)) = true
      simp [nnf_only, (iha h.1).2, (ihb h.2).2]
  | or a b iha ihb =>
    simp only [no_ie, Bool.and_eq_true] at h
    constructor
    · show nnf_only (.or (nnf a) (nnf b)) = true
      simp [nnf_only, (iha h.1).1, (ihb h.2).1]
    · show nnf_only (.and (nnf_not a) (nnf_not b)) = true
      simp [nnf_only, (iha h.1).2, (ihb h.2).2]
  | impl a b iha ihb => simp [no_ie] at h
  | equiv a b iha ihb => simp [no_ie] at h

theorem vars_nnf_both (f : Formula) :
    (∀ x ∈ (nnf f).vars, x ∈ f.vars) ∧ (∀ x ∈ (nnf_not f).vars, x ∈ f.vars) := by
  induction f with
  | var x => exact ⟨fun x hx => hx, fun x hx => hx⟩
  | not g ih => exact ⟨ih.2, ih.1⟩
  | and a b iha ihb =>
    constructor
    · intro x hx
      have : x ∈ (nnf a).vars ++ (nnf b).vars := hx
      simp only [Formula.vars, List.mem_append] at this ⊢
      rcases this with h | h
      · exact Or.inl (iha.1 x h)
      · exact Or.inr (ihb.1 x h)
    · intro x hx
      have : x ∈ (nnf_not a).vars ++ (nnf_not b).vars := hx
      simp only [Formula.vars, List.mem_append] at this ⊢
      rcases this with h | h
      · exact Or.inl (iha.2 x h)
      · exact Or.inr (ihb.2 x h)
  | or a b iha ihb =>
    constructor
    · intro x hx
      have : x ∈ (nnf a).vars ++ (nnf b).vars := hx
      simp only [Formula.vars, List.mem_append] at this ⊢
      rcases this with h | h
      · exact Or.inl (iha.1 x h)
      · exact Or.inr (ihb.1 x h)
    · intro x hx
      have : x ∈ (nnf_not a).vars ++ (nnf_not b).vars := hx
      simp only [Formula.vars, List.mem_append] at this ⊢
      rcases this with h | h
      · exact Or.inl (iha.2 x h)
      · exact Or.inr (ihb.2 x h)
  | impl a b iha ihb =>
    constructor
    · intro x hx
      have : x ∈ (nnf a).vars ++ (nnf b).vars := hx
      simp only [Formula.vars, List.mem_append] at this ⊢
      rcases this with h | h
      · exact Or.inl (iha.1 x h)
      · exact Or.inr (ihb.1 x h)
    · intro x hx
      have : x ∈ (nnf a).vars ++ (nnf b).vars := hx
      simp only [Formula.vars, List.mem_append] at this ⊢
      rcases this with h | h
      · exact Or.inl (iha.1 x h)
      · exact Or.inr (ihb.1 x h)
  | equiv a b iha ihb =>
    constructor
    · intro x hx
      have : x ∈ (nnf a).vars ++ (nnf b).vars := hx
      simp only [Formula.vars, List.mem_append] at this ⊢
      rcases this with h | h
      · exact Or.inl (iha.1 x h)
      · exact Or.inr (ihb.1 x h)
    · intro x hx
      have : x ∈ (nnf a).vars ++ (nnf b).vars := hx
      simp only [Formula.vars, List.mem_append] at this ⊢
      rcases this with h | h
      · exact Or.inl (iha.1 x h)
      · exact Or.inr (ihb.1 x h)

/-! ## Classical clausifier: semantics and shape -/

theorem eval_dist_aux (ρ : String → Bool) (A B : Formula) :
    eval ρ (dist_aux A B) = (eval ρ A || eval ρ B) := by
  induction B with
  | var x => rfl
  | not g _ => rfl
  | and b1 b2 ih1 ih2 =>
    show eval ρ (.and (dist_aux A b1) (dist_aux A b2)) = _
    simp only [eval, ih1, ih2]
    cases eval ρ A <;> simp
  | or b1 b2 _ _ => rfl
  | impl b1 b2 _ _ => rfl
  | equiv b1 b2 _ _ => rfl

theorem eval_dist (ρ : String → Bool) (A B : Formula) :
    eval ρ (dist A B) = (eval ρ A || eval ρ B) := by
  induction A with
  | var x => exact eval_dist_aux ρ _ B
  | not g _ => exact eval_dist_aux ρ _ B
  | and a1 a2 ih1 ih2 =>
    show eval ρ (.and (dist a1 B) (dist a2 B)) = _
    simp only [eval, ih1, ih2]
    cases eval ρ B <;> simp
  | or a1 a2 _ _ => exact eval_dist_aux ρ _ B
  | impl a1 a2 _ _ => exact eval_dist_aux ρ _ B
  | equiv a1 a2 _ _ => exact eval_dist_aux ρ _ B

theorem eval_dist_or_over_and (ρ : String → Bool) (f : Formula) :
    eval ρ (dist_or_over_and f) = eval ρ f := by
  induction f with
  | var x => rfl
  | not g ih =>
    by_cases hl : (Formula.not g).is_literal = true
    · rw [dist_or_over_and, if_pos hl]
    · rw [dist_or_over_and, if_neg hl]
      simp [eval, ih]
  | and a b iha ihb =>
    rw [dist_or_over_and, if_neg (by simp [Formula.is_literal])]
    simp [eval, iha, ihb]
  | or a b iha ihb =>
    rw [dist_or_over_and, if_neg (by simp [Formula.is_literal])]
    simp [eval, eval_dist, iha, ihb]
  | impl a b iha ihb =>
    rw [dist_or_over_and, if_neg (by simp [Formula.is_literal])]
    simp [eval, iha, ihb]
  | equiv a b iha ihb =>
    rw [dist_or_over_and, if_neg (by simp [Formula.is_literal])]
    simp [eval, iha, ihb]

theorem is_clause_of_literal {f : Formula} (h : f.is_literal = true) :
    is_clause f = true := by
  cases f with
  | var x => rfl
  | not g => cases g <;> first | rfl | (simp [Formula.is_literal] at h)
  | and a b => simp [Formula.is_literal] at h
  | or a b => simp [Formula.is_literal] at h
  | impl a b => simp [Formula.is_literal] at h
  | equiv a b => simp [Formula.is_literal] at h

theorem is_cnf_of_clause {f : Formula} (h : is_clause f = true) : is_cnf f = true := by
  cases f with
  | var x => rfl
  | not g => exact h
  | and a b => simp [is_clause, Formula.is_literal] at h
  | or a b => exact h
  | impl a b => simp [is_clause, Formula.is_literal] at h
  | equiv a b => simp [is_clause, Formula.is_literal] at h

/-- A CNF formula that is not a conjunction is a clause. -/
theorem is_clause_of_cnf_not_and {f : Formula} (h : is_cnf f = true)
    (hna : ∀ a b, f ≠ .and a b) : is_clause f = true := by
  cases f with
  | var x => rfl
  | not g => exact h
  | and a b => exact absurd rfl (hna a b)
  | or a b => exact h
  | impl a b => simp [is_cnf, Formula.is_literal] at h
  | equiv a b => simp [is_cnf, Formula.is_literal] at h

theorem dist_aux_cnf {A B : Formula} (ha : is_clause A = true) (hb : is_cnf B = true) :
    is_cnf (dist_aux A B) = true := by
  induction B with
  | var x => simpa [dist_aux, is_cnf, is_clause] using ⟨ha, rfl⟩
  | not g _ =>
    show is_cnf (.or A (.not g)) = true
    simpa [is_cnf, is_clause] using ⟨ha, is_clause_of_cnf_not_and hb (by intro a b h; cases h)⟩
  | and b1 b2 ih1 ih2 =>
    simp only [is_cnf, Bool.and_eq_true] at hb
    show is_cnf (.and (dist_aux A b1) (dist_aux A b2)) = true
    simp [is_cnf, ih1 hb.1, ih2 hb.2]
  | or b1 b2 _ _ =>
    show is_cnf (.or A (.or b1 b2)) = true
    have := is_clause_of_cnf_not_and hb (by intro a b h; cases h)
    simp only [is_cnf, is_clause, Bool.and_eq_true]
    simp only [is_clause, Bool.and_eq_true] at this
    exact ⟨ha, this⟩
  | impl b1 b2 _ _ => simp [is_cnf, Formula.is_literal] at hb
  | equiv b1 b2 _ _ => simp [is_cnf, Formula.is_literal] at hb

theorem dist_cnf {A B : Formula} (ha : is_cnf A = true) (hb : is_cnf B = true) :
    is_cnf (dist A B) = true := by
  induction A with
  | var x => exact dist_aux_cnf (is_clause_of_cnf_not_and ha (by intro a b h; cases h)) hb
  | not g _ => exact dist_aux_cnf (is_clause_of_cnf_not_and ha (by intro a b h; cases h)) hb
  | and a1 a2 ih1 ih2 =>
    simp only [is_cnf, Bool.and_eq_true] at ha
    show is_cnf (.and (dist a1 B) (dist a2 B)) = true
    simp [is_cnf, ih1 ha.1, ih2 ha.2]
  | or a1 a2 _ _ => exact dist_aux_cnf (is_clause_of_cnf_not_and ha (by intro a b h; cases h)) hb
  | impl a1 a2 _ _ => simp [is_cnf, Formula.is_literal] at ha
  | equiv a1 a2 _ _ => simp [is_cnf, Formula.is_literal] at ha

theorem dist_or_over_and_cnf {f : Formula} (h : nnf_only f = true) :
    is_cnf (dist_or_over_and f) = true := by
  induction f with
  | var x => rfl
  | not g ih =>
    cases g with
    | var x =>
      rw [dist_or_over_and,
        if_pos (show (Formula.not (Formula.var x)).is_literal = true from rfl)]
      rfl
    | not g' => simp [nnf_only] at h
    | and a b => simp [nnf_only] at h
    | or a b => simp [nnf_only] at h
    | impl a b => simp [nnf_only] at h
    | equiv a b => simp [nnf_only] at h
  | and a b iha ihb =>
    simp only [nnf_only, Bool.and_eq_true] at h
    rw [dist_or_over_and, if_neg (by simp [Formula.is_literal])]
    show is_cnf (.and (dist_or_over_and a) (dist_or_over_and b)) = true
    simp [is_cnf, iha h.1, ihb h.2]
  | or a b iha ihb =>
    simp only [nnf_only, Bool.and_eq_true] at h
    rw [dist_or_over_and, if_neg (by simp [Formula.is_literal])]
    exact dist_cnf (iha h.1) (ihb h.2)
  | impl a b _ _ => simp [nnf_only] at h
  | equiv a b _ _ => simp [nnf_only] at h

theorem vars_dist_aux (A B : Formula) :
    ∀ x ∈ (dist_aux A B).vars, x ∈ A.vars ++ B.vars := by
  induction B with
  | var y => exact fun x hx => hx
  | not g _ => exact fun x hx => hx
  | and b1 b2 ih1 ih2 =>
    intro x hx
    have : x ∈ (dist_aux A b1).vars ++ (dist_aux A b2).vars := hx
    simp only [List.mem_append] at this ⊢
    rcases this with hh | hh
    · rcases List.mem_append.mp (ih1 x hh) with h | h
      · exact Or.inl h
      · exact Or.inr (by simp [Formula.vars, List.mem_append]; exact Or.inl h)
    · rcases List.mem_append.mp (ih2 x hh) with h | h
      · exact Or.inl h
      · exact Or.inr (by simp [Formula.vars, List.mem_append]; exact Or.inr h)
  | or b1 b2 _ _ => exact fun x hx => hx
  | impl b1 b2 _ _ => exact fun x hx => hx
  | equiv b1 b2 _ _ => exact fun x hx => hx

theorem vars_dist (A B : Formula) : ∀ x ∈ (dist A B).vars, x ∈ A.vars ++ B.vars := by
  induction A with
  | var y => exact vars_dist_aux _ B
  | not g _ => exact vars_dist_aux _ B
  | and a1 a2 ih1 ih2 =>
    intro x hx
    have : x ∈ (dist a1 B).vars ++ (dist a2 B).vars := hx
    simp only [List.mem_append] at this ⊢
    rcases this with hh | hh
    · rcases List.mem_append.mp (ih1 x hh) with h | h
      · exact Or.inl (by simp [Formula.vars, List.mem_append]; exact Or.inl h)
      · exact Or.inr h
    · rcases List.mem_append.mp (ih2 x hh) with h | h
      · exact Or.inl (by simp [Formula.vars, List.mem_append]; exact Or.inr h)
      · exact Or.inr h
  | or a1 a2 _ _ => exact vars_dist_aux _ B
  | impl a1 a2 _ _ => exact vars_dist_aux _ B
  | equiv a1 a2 _ _ => exact vars_dist_aux _ B

theorem vars_dist_or_over_and (f : Formula) :
    ∀ x ∈ (dist_or_over_and f).vars, x ∈ f.vars := by
  induction f with
  | var x => exact fun x hx => hx
  | not g ih =>
    by_cases hl : (Formula.not g).is_literal = true
    · rw [dist_or_over_and, if_pos hl]
      exact fun x hx => hx
    · rw [dist_or_over_and, if_neg hl]
      exact ih
  | and a b iha ihb =>
    rw [dist_or_over_and, if_neg (by simp [Formula.is_literal])]
    intro x hx
    have : x ∈ (dist_or_over_and a).vars ++ (dist_or_over_and b).vars := hx
    simp only [Formula.vars, List.mem_append] at this ⊢
    rcases this with h | h
    · exact Or.inl (iha x h)
    · exact Or.inr (ihb x h)
  | or a b iha ihb =>
    rw [dist_or_over_and, if_neg (by simp [Formula.is_literal])]
    intro x hx
    rcases List.mem_append.mp (vars_dist _ _ x hx) with h | h
    · exact List.mem_append.mpr (Or.inl (iha x h))
    · exact List.mem_append.mpr (Or.inr (ihb x h))
  | impl a b iha ihb =>
    rw [dist_or_over_and, if_neg (by simp [Formula.is_literal])]
    intro x hx
    have : x ∈ (dist_or_over_and a).vars ++ (dist_or_over_and b).vars := hx
    simp only [Formula.vars, List.mem_append] at this ⊢
    rcases this with h | h
    · exact Or.inl (iha x h)
    · exact Or.inr (ihb x h)
  | equiv a b iha ihb =>
    rw [dist_or_over_and, if_neg (by simp [Formula.is_literal])]
    intro x hx
    have : x ∈ (dist_or_over_and a).vars ++ (dist_or_over_and b).vars := hx
    simp only [Formula.vars, List.mem_append] at this ⊢
    rcases this with h | h
    · exact Or.inl (iha x h)
    · exact Or.inr (ihb x h)

/-! ## Flattening a CNF tree into clauses -/

theorem or_to_literals_eval (ρ : String → Bool) {f : Formula} (hc : is_clause f = true)
    (hv : ∀ x ∈ f.vars, starts_dash x = false) :
    clause_eval ρ (or_to_literals f) = eval ρ f := by
  induction f with
  | var x =>
    show clause_eval ρ [x] = ρ x
    simp [clause_eval, lit_eval_of_not_dash (hv x (List.mem_singleton_self x)) ρ]
  | not g ih =>
    cases g with
    | var x =>
      show clause_eval ρ ["-" ++ x] = _
      simp [clause_eval, eval, lit_eval_dash x ρ, hv x]
    | not g' => simp [is_clause, Formula.is_literal] at hc
    | and a b => simp [is_clause, Formula.is_literal] at hc
    | or a b => simp [is_clause, Formula.is_literal] at hc
    | impl a b => simp [is_clause, Formula.is_literal] at hc
    | equiv a b => simp [is_clause, Formula.is_literal] at hc
  | or a b iha ihb =>
    simp only [is_clause, Bool.and_eq_true] at hc
    have hva : ∀ x ∈ a.vars, starts_dash x = false := fun x hx =>
      hv x (List.mem_append.mpr (Or.inl hx))
    have hvb : ∀ x ∈ b.vars, starts_dash x = false := fun x hx =>
      hv x (List.mem_append.mpr (Or.inr hx))
    show clause_eval ρ (or_to_literals a ++ or_to_literals b) = _
    simp only [clause_eval, List.any_append, eval]
    rw [← clause_eval, ← clause_eval, iha hc.1 hva, ihb hc.2 hvb]
  | and a b _ _ => simp [is_clause, Formula.is_literal] at hc
  | impl a b _ _ => simp [is_clause, Formula.is_literal] at hc
  | equiv a b _ _ => simp [is_clause, Formula.is_literal] at hc

theorem formula_to_clauses_eval (ρ : String → Bool) {f : Formula} (hc : is_cnf f = true)
    (hv : ∀ x ∈ f.vars, starts_dash x = false) :
    clauses_eval ρ (formula_to_clauses f) = eval ρ f := by
  induction f with
  | and a b iha ihb =>
    simp only [is_cnf, Bool.and_eq_true] at hc
    have hva : ∀ x ∈ a.vars, starts_dash x = false := fun x hx =>
      hv x (List.mem_append.mpr (Or.inl hx))
    have hvb : ∀ x ∈ b.vars, starts_dash x = false := fun x hx =>
      hv x (List.mem_append.mpr (Or.inr hx))
    show clauses_eval ρ (formula_to_clauses a ++ formula_to_clauses b) = _
    simp only [clauses_eval, List.all_append, eval]
    rw [← clauses_eval, ← clauses_eval, iha hc.1 hva, ihb hc.2 hvb]
  | var x =>
    show clauses_eval ρ [or_to_literals (.var x)] = _
    simp only [clauses_eval, List.all_cons, List.all_nil, Bool.and_true]
    exact or_to_literals_eval ρ (is_clause_of_cnf_not_and hc (by intro a b h; cases h)) hv
  | not g _ =>
    show clauses_eval ρ [or_to_literals (.not g)] = _
    simp only [clauses_eval, List.all_cons, List.all_nil, Bool.and_true]
    exact or_to_literals_eval ρ (is_clause_of_cnf_not_and hc (by intro a b h; cases h)) hv
  | or a b _ _ =>
    show clauses_eval ρ [or_to_literals (.or a b)] = _
    simp only [clauses_eval, List.all_cons, List.all_nil, Bool.and_true]
    exact or_to_literals_eval ρ (is_clause_of_cnf_not_and hc (by intro a b h; cases h)) hv
  | impl a b _ _ => simp [is_cnf, Formula.is_literal] at hc
  | equiv a b _ _ => simp [is_cnf, Formula.is_literal] at hc

theorem or_to_literals_ok {f : Formula} (hc : is_clause f = true)
    (hv : ∀ x ∈ f.vars, ident_tok x = true) :
    ∀ l ∈ or_to_literals f, lit_ok l = true := by
  induction f with
  | var x =>
    intro l hl
    rw [List.mem_singleton.mp hl]
    exact lit_ok_of_ident (hv x (List.mem_singleton_self x))
  | not g ih =>
    cases g with
    | var x =>
      intro l hl
      rw [List.mem_singleton.mp hl]
      exact lit_ok_dash (hv x (List.mem_singleton_self x))
    | not g' => simp [is_clause, Formula.is_literal] at hc
    | and a b => simp [is_clause, Formula.is_literal] at hc
    | or a b => simp [is_clause, Formula.is_literal] at hc
    | impl a b => simp [is_clause, Formula.is_literal] at hc
    | equiv a b => simp [is_clause, Formula.is_literal] at hc
  | or a b iha ihb =>
    simp only [is_clause, Bool.and_eq_true] at hc
    intro l hl
    rcases List.mem_append.mp hl with h | h
    · exact iha hc.1 (fun x hx => hv x (List.mem_append.mpr (Or.inl hx))) l h
    · exact ihb hc.2 (fun x hx => hv x (List.mem_append.mpr (Or.inr hx))) l h
  | and a b _ _ => simp [is_clause, Formula.is_literal] at hc
  | impl a b _ _ => simp [is_clause, Formula.is_literal] at hc
  | equiv a b _ _ => simp [is_clause, Formula.is_literal] at hc

theorem formula_to_clauses_ok {f : Formula} (hc : is_cnf f = true)
    (hv : ∀ x ∈ f.vars, ident_tok x = true) :
    ∀ c ∈ formula_to_clauses f, ∀ l ∈ c, lit_ok l = true := by
  induction f with
  | and a b iha ihb =>
    simp only [is_cnf, Bool.and_eq_true] at hc
    intro c hmem
    rcases List.mem_append.mp hmem with h | h
    · exact iha hc.1 (fun x hx => hv x (List.mem_append.mpr (Or.inl hx))) c h
    · exact ihb hc.2 (fun x hx => hv x (List.mem_append.mpr (Or.inr hx))) c h
  | var x =>
    intro c hmem
    rw [List.mem_singleton.mp hmem]
    exact or_to_literals_ok (is_clause_of_cnf_not_and hc (by intro a b h; cases h)) hv
  | not g _ =>
    intro c hmem
    rw [List.mem_singleton.mp hmem]
    exact or_to_literals_ok (is_clause_of_cnf_not_and hc (by intro a b h; cases h)) hv
  | or a b _ _ =>
    intro c hmem
    rw [List.mem_singleton.mp hmem]
    exact or_to_literals_ok (is_clause_of_cnf_not_and hc (by intro a b h; cases h)) hv
  | impl a b _ _ => simp [is_cnf, Formula.is_literal] at hc
  | equiv a b _ _ => simp [is_cnf, Formula.is_literal] at hc

/-! ## Classical pipeline: semantic equivalence -/

theorem ident_vars_not_dash {f : Formula} (hv : ∀ x ∈ f.vars, ident_tok x = true) :
    ∀ x ∈ f.vars, starts_dash x = false := fun x hx => ident_tok_not_dash (hv x hx)

theorem to_cnf_equiv_cnf_shape (f : Formula) :
    is_cnf (dist_or_over_and (nnf (elim_equiv_impl f))) = true :=
  dist_or_over_and_cnf ((nnf_only_nnf_both _ (no_ie_elim f)).1)

theorem vars_to_cnf_pipeline (f : Formula) :
    ∀ x ∈ (dist_or_over_and (nnf (elim_equiv_impl f))).vars, x ∈ f.vars := fun x hx =>
  vars_elim f x ((vars_nnf_both (elim_equiv_impl f)).1 x (vars_dist_or_over_and _ x hx))

theorem to_cnf_equiv_eval (f : Formula) (hv : ∀ x ∈ f.vars, ident_tok x = true)
    (ρ : String → Bool) : clauses_eval ρ (to_cnf_equiv f) = eval ρ f := by
  unfold to_cnf_equiv
  rw [formula_to_clauses_eval ρ (to_cnf_equiv_cnf_shape f)
      (fun x hx => ident_tok_not_dash (hv x (vars_to_cnf_pipeline f x hx))),
    eval_dist_or_over_and, eval_nnf, eval_elim]

theorem to_cnf_equiv_ok (f : Formula) (hv : ∀ x ∈ f.vars, ident_tok x = true) :
    ∀ c ∈ to_cnf_equiv f, ∀ l ∈ c, lit_ok l = true := by
  unfold to_cnf_equiv
  exact formula_to_clauses_ok (to_cnf_equiv_cnf_shape f)
    (fun x hx => hv x (vars_to_cnf_pipeline f x hx))

/-! ## Claim C1 -/

/-- C1: for every well-formed input formula (variable names are non-empty
alphanumeric/underscore tokens, the specification's data-model invariant) and
every assignment of truth values to the variables, the conjunction of the
clauses returned by the classical pipeline `to_cnf_equiv` evaluates to the
same truth value as the input formula: the output is a semantically
equivalent CNF over the same variables. -/
theorem C1_to_cnf_equiv_equivalent (f : Formula)
    (hv : ∀ x ∈ f.vars, ident_tok x = true) (ρ : String → Bool) :
    clauses_eval ρ (to_cnf_equiv f) = eval ρ f :=
  to_cnf_equiv_eval f hv ρ

/-- C1 witness: the theorem applied to the concrete formula `A -> B` and a
concrete assignment. -/
theorem C1_witness :
    clauses_eval (fun x => x == "A") (to_cnf_equiv (.impl (.var "A") (.var "B"))) =
      eval (fun x => x == "A") (.impl (.var "A") (.var "B")) :=
  C1_to_cnf_equiv_equivalent (.impl (.var "A") (.var "B")) (by decide) (fun x => x == "A")

/-! ## Claim C3 -/

/-- C3 counterexample: the classical pipeline does not pass its output
through the simplifier, so on the input formula `A v -A` it returns the
tautological clause `{A, -A}`, which contains both the literal `A` and the
literal `-A`. -/
theorem C3_counterexample :
    ∃ C ∈ to_cnf_equiv (.or (.var "A") (.not (.var "A"))), taut_pair C = true := by
  decide

/-- C3 (amended): restricted to the Tseitin pipeline `tseitin_450` (whose
output does pass through `_dedup_simplify`), the property holds: no output
clause contains both a literal `x` and the literal `-x`. -/
theorem C3_amended_tseitin_no_taut (f : Formula) :
    ∀ C ∈ tseitin_450 f, taut_pair C = false := by
  intro C hC
  have h1 : tseitin_450 f =
      dedup_simplify ((tseitin_loop (nnf (elim_equiv_impl f)).size (nnf (elim_equiv_impl f)) [] 0).1 ++
        (if is_cnf (tseitin_loop (nnf (elim_equiv_impl f)).size (nnf (elim_equiv_impl f)) [] 0).2.1 then
          formula_to_clauses (tseitin_loop (nnf (elim_equiv_impl f)).size (nnf (elim_equiv_impl f)) [] 0).2.1
        else to_cnf_equiv (tseitin_loop (nnf (elim_equiv_impl f)).size (nnf (elim_equiv_impl f)) [] 0).2.1)) := rfl
  rw [h1] at hC
  exact taut_pair_dedup_simplify _ C hC

/-- C3 witness: the amended theorem applied to the concrete formula `A & B`
and the concrete output clause `{A}`. -/
theorem C3_witness : taut_pair ["A"] = false :=
  C3_amended_tseitin_no_taut (.and (.var "A") (.var "B")) ["A"] (by decide)

/-! ## Claim C7 -/

/-- C7: the clause simplifier is idempotent: running `_dedup_simplify` twice
returns the same clause list as running it once, for every input clause
list. -/
theorem C7_simplifier_idempotent (cs : List (List String)) :
    dedup_simplify (dedup_simplify cs) = dedup_simplify cs :=
  dedup_simplify_idem cs

/-! ## Parser: returned suffixes and variable provenance -/

theorem parse_ok_spec : ∀ fuel : Nat,
    (∀ toks f rest, parse_equiv fuel toks = .ok (f, rest) →
      rest.IsSuffix toks ∧ ∀ x ∈ f.vars, x ∈ toks) ∧
    (∀ toks f rest, parse_impl fuel toks = .ok (f, rest) →
      rest.IsSuffix toks ∧ ∀ x ∈ f.vars, x ∈ toks) ∧
    (∀ toks f rest, parse_or fuel toks = .ok (f, rest) →
      rest.IsSuffix toks ∧ ∀ x ∈ f.vars, x ∈ toks) ∧
    (∀ left toks f rest, parse_or_loop fuel left toks = .ok (f, rest) →
      rest.IsSuffix toks ∧ ∀ x ∈ f.vars, x ∈ left.vars ∨ x ∈ toks) ∧
    (∀ toks f rest, parse_and fuel toks = .ok (f, rest) →
      rest.IsSuffix toks ∧ ∀ x ∈ f.vars, x ∈ toks) ∧
    (∀ left toks f rest, parse_and_loop fuel left toks = .ok (f, rest) →
      rest.IsSuffix toks ∧ ∀ x ∈ f.vars, x ∈ left.vars ∨ x ∈ toks) ∧
    (∀ toks f rest, parse_not fuel toks = .ok (f, rest) →
      rest.IsSuffix toks ∧ ∀ x ∈ f.vars, x ∈ toks) ∧
    (∀ toks f rest, parse_primary fuel toks = .ok (f, rest) →
      rest.IsSuffix toks ∧ ∀ x ∈ f.vars, x ∈ toks) := by
  intro fuel
  induction fuel with
  | zero =>
    refine ⟨?_, ?_, ?_, ?_, ?_, ?_, ?_, ?_⟩ <;>
      first
      | (intro toks f rest h; simp [parse_equiv, parse_impl, parse_or, parse_and,
          parse_not, parse_primary] at h)
      | (intro left toks f rest h; simp [parse_or_loop, parse_and_loop] at h)
  | succ fuel ih =>
    obtain ⟨ihe, ihi, iho, ihol, iha, ihal, ihn, ihp⟩ := ih
    refine ⟨?_, ?_, ?_, ?_, ?_, ?_, ?_, ?_⟩
    -- parse_equiv
    · intro toks f rest h
      simp only [parse_equiv] at h
      cases hi : parse_impl fuel toks with
      | error e => rw [hi] at h; simp at h
      | ok p =>
        obtain ⟨left, rest1⟩ := p
        rw [hi] at h
        obtain ⟨hs1, hv1⟩ := ihi toks left rest1 hi
        dsimp only at h
        split at h
        · rename_i rest2
          cases he : parse_equiv fuel rest2 with
          | error e => rw [he] at h; simp at h
          | ok q =>
            obtain ⟨right, rest3⟩ := q
            rw [he] at h
            simp at h
            obtain ⟨h1, h2⟩ := h
            subst h1; subst h2
            obtain ⟨hs2, hv2⟩ := ihe rest2 right rest3 he
            refine ⟨(hs2.trans (List.suffix_cons _ _)).trans hs1, ?_⟩
            intro x hx
            rcases List.mem_append.mp hx with hm | hm
            · exact hv1 x hm
            · exact hs1.subset (List.mem_cons_of_mem _ (hv2 x hm))
        · simp at h
          obtain ⟨h1, h2⟩ := h
          subst h1; subst h2
          exact ⟨hs1, hv1⟩
    -- parse_impl
    · intro toks f rest h
      simp only [parse_impl] at h
      cases hi : parse_or fuel toks with
      | error e => rw [hi] at h; simp at h
      | ok p =>
        obtain ⟨left, rest1⟩ := p
        rw [hi] at h
        obtain ⟨hs1, hv1⟩ := iho toks left rest1 hi
        dsimp only at h
        split at h
        · rename_i rest2
          cases he : parse_impl fuel rest2 with
          | error e => rw [he] at h; simp at h
          | ok q =>
            obtain ⟨right, rest3⟩ := q
            rw [he] at h
            simp at h
            obtain ⟨h1, h2⟩ := h
            subst h1; subst h2
            obtain ⟨hs2, hv2⟩ := ihi rest2 right rest3 he
            refine ⟨(hs2.trans (List.suffix_cons _ _)).trans hs1, ?_⟩
            intro x hx
            rcases List.mem_append.mp hx with hm | hm
            · exact hv1 x hm
            · exact hs1.subset (List.mem_cons_of_mem _ (hv2 x hm))
        · simp at h
          obtain ⟨h1, h2⟩ := h
          subst h1; subst h2
          exact ⟨hs1, hv1⟩
    -- parse_or
    · intro toks f rest h
      simp only [parse_or] at h
      cases hi : parse_and fuel toks with
      | error e => rw [hi] at h; simp at h
      | ok p =>
        obtain ⟨left, rest1⟩ := p
        rw [hi] at h
        dsimp only at h
        obtain ⟨hs1, hv1⟩ := iha toks left rest1 hi
        obtain ⟨hs2, hv2⟩ := ihol left rest1 f rest h
        refine ⟨hs2.trans hs1, ?_⟩
        intro x hx
        rcases hv2 x hx with hm | hm
        · exact hv1 x hm
        · exact hs1.subset hm
    -- parse_or_loop
    · intro left toks f rest h
      simp only [parse_or_loop] at h
      split at h
      · rename_i rest'
        cases hi : parse_and fuel rest' with
        | error e => rw [hi] at h; simp at h
        | ok p =>
          obtain ⟨right, rest2⟩ := p
          rw [hi] at h
          dsimp only at h
          obtain ⟨hs1, hv1⟩ := iha rest' right rest2 hi
          obtain ⟨hs2, hv2⟩ := ihol (.or left right) rest2 f rest h
          refine ⟨(hs2.trans hs1).trans (List.suffix_cons _ _), ?_⟩
          intro x hx
          rcases hv2 x hx with hm | hm
          · rcases List.mem_append.mp hm with hm' | hm'
            · exact Or.inl hm'
            · exact Or.inr (List.mem_cons_of_mem _ (hv1 x hm'))
          · exact Or.inr (List.mem_cons_of_mem _ (hs1.subset hm))
      · simp at h
        obtain ⟨h1, h2⟩ := h
        subst h1; subst h2
        exact ⟨List.suffix_refl _, fun x hx => Or.inl hx⟩
    -- parse_and
    · intro toks f rest h
      simp only [parse_and] at h
      cases hi : parse_not fuel toks with
      | error e => rw [hi] at h; simp at h
      | ok p =>
        obtain ⟨left, rest1⟩ := p
        rw [hi] at h
        dsimp only at h
        obtain ⟨hs1, hv1⟩ := ihn toks left rest1 hi
        obtain ⟨hs2, hv2⟩ := ihal left rest1 f rest h
        refine ⟨hs2.trans hs1, ?_⟩
        intro x hx
        rcases hv2 x hx with hm | hm
        · exact hv1 x hm
        · exact hs1.subset hm
    -- parse_and_loop
    · intro left toks f rest h
      simp only [parse_and_loop] at h
      split at h
      · rename_i rest'
        cases hi : parse_not fuel rest' with
        | error e => rw [hi] at h; simp at h
        | ok p =>
          obtain ⟨right, rest2⟩ := p
          rw [hi] at h
          dsimp only at h
          obtain ⟨hs1, hv1⟩ := ihn rest' right rest2 hi
          obtain ⟨hs2, hv2⟩ := ihal (.and left right) rest2 f rest h
          refine ⟨(hs2.trans hs1).trans (List.suffix_cons _ _), ?_⟩
          intro x hx
          rcases hv2 x hx with hm | hm
          · rcases List.mem_append.mp hm with hm' | hm'
            · exact Or.inl hm'
            · exact Or.inr (List.mem_cons_of_mem _ (hv1 x hm'))
          · exact Or.inr (List.mem_cons_of_mem _ (hs1.subset hm))
      · simp at h
        obtain ⟨h1, h2⟩ := h
        subst h1; subst h2
        exact ⟨List.suffix_refl _, fun x hx => Or.inl hx⟩
    -- parse_not
    · intro toks f rest h
      simp only [parse_not] at h
      split at h
      · rename_i rest'
        cases hi : parse_not fuel rest' with
        | error e => rw [hi] at h; simp at h
        | ok p =>
          obtain ⟨child, rest2⟩ := p
          rw [hi] at h
          simp at h
          obtain ⟨h1, h2⟩ := h
          subst h1; subst h2
          obtain ⟨hs1, hv1⟩ := ihn rest' child rest2 hi
          refine ⟨hs1.trans (List.suffix_cons _ _), ?_⟩
          intro x hx
          exact List.mem_cons_of_mem _ (hv1 x hx)
      · exact ihp toks f rest h
    -- parse_primary
    · intro toks f rest h
      simp only [parse_primary] at h
      split at h
      · rename_i rest'
        cases he : parse_equiv fuel rest' with
        | error e => rw [he] at h; simp at h
        | ok q =>
          obtain ⟨node, rest2⟩ := q
          rw [he] at h
          dsimp only at h
          obtain ⟨hs1, hv1⟩ := ihe rest' node rest2 he
          split at h
          · rename_i rest3
            simp at h
            obtain ⟨h1, h2⟩ := h
            subst h1; subst h2
            refine ⟨(((List.suffix_cons _ _).trans hs1).trans (List.suffix_cons _ _)), ?_⟩
            intro x hx
            exact List.mem_cons_of_mem _ (hv1 x hx)
          · simp at h
      · rename_i tok rest' _
        simp at h
        obtain ⟨h1, h2⟩ := h
        subst h1; subst h2
        refine ⟨List.suffix_cons _ _, ?_⟩
        intro x hx
        rw [show (Formula.var tok).vars = [tok] from rfl, List.mem_singleton] at hx
        subst hx
        exact List.mem_cons_self _ _
      · simp at h

/-! ## Parser: the fuel passed by `parse` is sufficient -/

theorem parse_no_fuelOut : ∀ fuel : Nat,
    (∀ toks, 6 * toks.length + 6 ≤ fuel → parse_equiv fuel toks ≠ .error .fuelOut) ∧
    (∀ toks, 6 * toks.length + 5 ≤ fuel → parse_impl fuel toks ≠ .error .fuelOut) ∧
    (∀ toks, 6 * toks.length + 4 ≤ fuel → parse_or fuel toks ≠ .error .fuelOut) ∧
    (∀ left toks, 6 * toks.length + 3 ≤ fuel →
      parse_or_loop fuel left toks ≠ .error .fuelOut) ∧
    (∀ toks, 6 * toks.length + 3 ≤ fuel → parse_and fuel toks ≠ .error .fuelOut) ∧
    (∀ left toks, 6 * toks.length + 2 ≤ fuel →
      parse_and_loop fuel left toks ≠ .error .fuelOut) ∧
    (∀ toks, 6 * toks.length + 2 ≤ fuel → parse_not fuel toks ≠ .error .fuelOut) ∧
    (∀ toks, 6 * toks.length + 1 ≤ fuel → parse_primary fuel toks ≠ .error .fuelOut) := by
  intro fuel
  induction fuel with
  | zero =>
    refine ⟨?_, ?_, ?_, ?_, ?_, ?_, ?_, ?_⟩ <;> (intro toks hb; omega)
  | succ fuel ih =>
    obtain ⟨ihe, ihi, iho, ihol, iha, ihal, ihn, ihp⟩ := ih
    refine ⟨?_, ?_, ?_, ?_, ?_, ?_, ?_, ?_⟩
    -- parse_equiv
    · intro toks hb h
      simp only [parse_equiv] at h
      cases hi : parse_impl fuel toks with
      | error e =>
        rw [hi] at h
        simp at h
        subst h
        exact ihi toks (by omega) hi
      | ok p =>
        obtain ⟨left, rest1⟩ := p
        rw [hi] at h
        have hs1 := ((parse_ok_spec fuel).2.1 toks left rest1 hi).1.length_le
        dsimp only at h
        split at h
        · rename_i rest2
          cases he : parse_equiv fuel rest2 with
          | error e =>
            rw [he] at h
            simp at h
            subst h
            have hlen : rest2.length + 1 ≤ toks.length := by
              simpa using hs1
            exact ihe rest2 (by omega) he
          | ok q => rw [he] at h; simp at h
        · simp at h
    -- parse_impl
    · intro toks hb h
      simp only [parse_impl] at h
      cases hi : parse_or fuel toks with
      | error e =>
        rw [hi] at h
        simp at h
        subst h
        exact iho toks (by omega) hi
      | ok p =>
        obtain ⟨left, rest1⟩ := p
        rw [hi] at h
        have hs1 := ((parse_ok_spec fuel).2.2.1 toks left rest1 hi).1.length_le
        dsimp only at h
        split at h
        · rename_i rest2
          cases he : parse_impl fuel rest2 with
          | error e =>
            rw [he] at h
            simp at h
            subst h
            have hlen : rest2.length + 1 ≤ toks.length := by
              simpa using hs1
            exact ihi rest2 (by omega) he
          | ok q => rw [he] at h; simp at h
        · simp at h
    -- parse_or
    · intro toks hb h
      simp only [parse_or] at h
      cases hi : parse_and fuel toks with
      | error e =>
        rw [hi] at h
        simp at h
        subst h
        exact iha toks (by omega) hi
      | ok p =>
        obtain ⟨left, rest1⟩ := p
        rw [hi] at h
        have hs1 := ((parse_ok_spec fuel).2.2.2.2.1 toks left rest1 hi).1.length_le
        dsimp only at h
        exact ihol left rest1 (by omega) h
    -- parse_or_loop
    · intro left toks hb h
      simp only [parse_or_loop] at h
      split at h
      · rename_i rest'
        cases hi : parse_and fuel rest' with
        | error e =>
          rw [hi] at h
          simp at h
          subst h
          exact iha rest' (by simp at hb; omega) hi
        | ok p =>
          obtain ⟨right, rest2⟩ := p
          rw [hi] at h
          have hs1 := ((parse_ok_spec fuel).2.2.2.2.1 rest' right rest2 hi).1.length_le
          dsimp only at h
          exact ihol (.or left right) rest2 (by simp at hb; omega) h
      · simp at h
    -- parse_and
    · intro toks hb h
      simp only [parse_and] at h
      cases hi : parse_not fuel toks with
      | error e =>
        rw [hi] at h
        simp at h
        subst h
        exact ihn toks (by omega) hi
      | ok p =>
        obtain ⟨left, rest1⟩ := p
        rw [hi] at h
        have hs1 := ((parse_ok_spec fuel).2.2.2.2.2.2.1 toks left rest1 hi).1.length_le
        dsimp only at h
        exact ihal left rest1 (by omega) h
    -- parse_and_loop
    · intro left toks hb h
      simp only [parse_and_loop] at h
      split at h
      · rename_i rest'
        cases hi : parse_not fuel rest' with
        | error e =>
          rw [hi] at h
          simp at h
          subst h
          exact ihn rest' (by simp at hb; omega) hi
        | ok p =>
          obtain ⟨right, rest2⟩ := p
          rw [hi] at h
          have hs1 := ((parse_ok_spec fuel).2.2.2.2.2.2.1 rest' right rest2 hi).1.length_le
          dsimp only at h
          exact ihal (.and left right) rest2 (by simp at hb; omega) h
      · simp at h
    -- parse_not
    · intro toks hb h
      simp only [parse_not] at h
      split at h
      · rename_i rest'
        cases hi : parse_not fuel rest' with
        | error e =>
          rw [hi] at h
          simp at h
          subst h
          exact ihn rest' (by simp at hb; omega) hi
        | ok p =>
          obtain ⟨child, rest2⟩ := p
          rw [hi] at h
          simp at h
      · exact ihp toks (by omega) h
    -- parse_primary
    · intro toks hb h
      simp only [parse_primary] at h
      split at h
      · rename_i rest'
        cases he : parse_equiv fuel rest' with
        | error e =>
          rw [he] at h
          simp at h
          subst h
          exact ihe rest' (by simp at hb; omega) he
        | ok q =>
          obtain ⟨node, rest2⟩ := q
          rw [he] at h
          dsimp only at h
          split at h
          · simp at h
          · simp at h
      · simp at h
      · simp at h

/-! ## Parser: the `extraneous` error is raised only by `parse` itself -/

theorem parse_no_extraneous : ∀ fuel : Nat,
    (∀ toks tok, parse_equiv fuel toks ≠ .error (.extraneous tok)) ∧
    (∀ toks tok, parse_impl fuel toks ≠ .error (.extraneous tok)) ∧
    (∀ toks tok, parse_or fuel toks ≠ .error (.extraneous tok)) ∧
    (∀ left toks tok, parse_or_loop fuel left toks ≠ .error (.extraneous tok)) ∧
    (∀ toks tok, parse_and fuel toks ≠ .error (.extraneous tok)) ∧
    (∀ left toks tok, parse_and_loop fuel left toks ≠ .error (.extraneous tok)) ∧
    (∀ toks tok, parse_not fuel toks ≠ .error (.extraneous tok)) ∧
    (∀ toks tok, parse_primary fuel toks ≠ .error (.extraneous tok)) := by
  intro fuel
  induction fuel with
  | zero =>
    refine ⟨?_, ?_, ?_, ?_, ?_, ?_, ?_, ?_⟩ <;>
      first
      | (intro toks tok h; simp [parse_equiv, parse_impl, parse_or, parse_and,
          parse_not, parse_primary] at h)
      | (intro left toks tok h; simp [parse_or_loop, parse_and_loop] at h)
  | succ fuel ih =>
    obtain ⟨ihe, ihi, iho, ihol, iha, ihal, ihn, ihp⟩ := ih
    refine ⟨?_, ?_, ?_, ?_, ?_, ?_, ?_, ?_⟩
    · intro toks tok h
      simp only [parse_equiv] at h
      cases hi : parse_impl fuel toks with
      | error e =>
        rw [hi] at h
        simp at h
        subst h
        exact ihi toks tok hi
      | ok p =>
        obtain ⟨left, rest1⟩ := p
        rw [hi] at h
        dsimp only at h
        split at h
        · rename_i rest2
          cases he : parse_equiv fuel rest2 with
          | error e =>
            rw [he] at h
            simp at h
            subst h
            exact ihe rest2 tok he
          | ok q => rw [he] at h; simp at h
        · simp at h
    · intro toks tok h
      simp only [parse_impl] at h
      cases hi : parse_or fuel toks with
      | error e =>
        rw [hi] at h
        simp at h
        subst h
        exact iho toks tok hi
      | ok p =>
        obtain ⟨left, rest1⟩ := p
        rw [hi] at h
        dsimp only at h
        split at h
        · rename_i rest2
          cases he : parse_impl fuel rest2 with
          | error e =>
            rw [he] at h
            simp at h
            subst h
            exact ihi rest2 tok he
          | ok q => rw [he] at h; simp at h
        · simp at h
    · intro toks tok h
      simp only [parse_or] at h
      cases hi : parse_and fuel toks with
      | error e =>
        rw [hi] at h
        simp at h
        subst h
        exact iha toks tok hi
      | ok p =>
        obtain ⟨left, rest1⟩ := p
        rw [hi] at h
        dsimp only at h
        exact ihol left rest1 tok h
    · intro left toks tok h
      simp only [parse_or_loop] at h
      split at h
      · rename_i rest'
        cases hi : parse_and fuel rest' with
        | error e =>
          rw [hi] at h
          simp at h
          subst h
          exact iha rest' tok hi
        | ok p =>
          obtain ⟨right, rest2⟩ := p
          rw [hi] at h
          dsimp only at h
          exact ihol (.or left right) rest2 tok h
      · simp at h
    · intro toks tok h
      simp only [parse_and] at h
      cases hi : parse_not fuel toks with
      | error e =>
        rw [hi] at h
        simp at h
        subst h
        exact ihn toks tok hi
      | ok p =>
        obtain ⟨left, rest1⟩ := p
        rw [hi] at h
        dsimp only at h
        exact ihal left rest1 tok h
    · intro left toks tok h
      simp only [parse_and_loop] at h
      split at h
      · rename_i rest'
        cases hi : parse_not fuel rest' with
        | error e =>
          rw [hi] at h
          simp at h
          subst h
          exact ihn rest' tok hi
        | ok p =>
          obtain ⟨right, rest2⟩ := p
          rw [hi] at h
          dsimp only at h
          exact ihal (.and left right) rest2 tok h
      · simp at h
    · intro toks tok h
      simp only [parse_not] at h
      split at h
      · rename_i rest'
        cases hi : parse_not fuel rest' with
        | error e =>
          rw [hi] at h
          simp at h
          subst h
          exact ihn rest' tok hi
        | ok p =>
          obtain ⟨child, rest2⟩ := p
          rw [hi] at h
          simp at h
      · exact ihp toks tok h
    · intro toks tok h
      simp only [parse_primary] at h
      split at h
      · rename_i rest'
        cases he : parse_equiv fuel rest' with
        | error e =>
          rw [he] at h
          simp at h
          subst h
          exact ihe rest' tok he
        | ok q =>
          obtain ⟨node, rest2⟩ := q
          rw [he] at h
          dsimp only at h
          split at h
          · simp at h
          · simp at h
      · simp at h
      · simp at h

/-! ## Tokenizer: shape of emitted tokens -/

theorem ident_span_spec : ∀ (l acc : List Char),
    ∃ taken rest, ident_span acc l = (acc ++ taken, rest) ∧
      ∀ c ∈ taken, id_char c = true := by
  intro l
  induction l with
  | nil =>
    intro acc
    exact ⟨[], [], by simp [ident_span], by simp⟩
  | cons c cs ih =>
    intro acc
    by_cases hc : id_char c = true
    · obtain ⟨taken, rest, heq, hall⟩ := ih (acc ++ [c])
      refine ⟨c :: taken, rest, ?_, ?_⟩
      · rw [ident_span, if_pos hc, heq]
        simp
      · intro d hd
        rcases List.mem_cons.mp hd with rfl | hd'
        · exact hc
        · exact hall d hd'
    · refine ⟨[], c :: cs, ?_, by simp⟩
      rw [ident_span, if_neg hc]
      simp

theorem tok_core_shape : ∀ fuel l, ∀ tok ∈ tok_core fuel l,
    tok.data ≠ [] ∧ (ident_tok tok = true ∨ tok ∈ ["<->", "->", "-", "&", "(", ")"]) := by
  intro fuel
  induction fuel with
  | zero => intro l tok h; simp [tok_core] at h
  | succ fuel ih =>
    intro l tok h
    rw [tok_core.eq_def] at h
    split at h
    · simp at h
    · rename_i l2 n2 l3 fuel2 heq2
      injection heq2 with hf
      subst hf
      split at h
      · simp at h
      · rename_i rest
        rcases List.mem_cons.mp h with rfl | h'
        · exact ⟨by decide, Or.inr (by decide)⟩
        · exact ih rest tok h'
      · rename_i rest
        rcases List.mem_cons.mp h with rfl | h'
        · exact ⟨by decide, Or.inr (by decide)⟩
        · exact ih rest tok h'
      · rename_i c rest _ _
        by_cases hsym : (c = '-' || c = '&' || c = 'v' || c = '(' || c = ')') = true
        · rw [if_pos hsym] at h
          rcases List.mem_cons.mp h with rfl | h'
          · refine ⟨by simp, ?_⟩
            simp only [Bool.or_eq_true, decide_eq_true_eq] at hsym
            rcases hsym with (((rfl | rfl) | rfl) | rfl) | rfl
            · exact Or.inr (by decide)
            · exact Or.inr (by decide)
            · exact Or.inl (by decide)
            · exact Or.inr (by decide)
            · exact Or.inr (by decide)
          · exact ih rest tok h'
        · rw [if_neg hsym] at h
          by_cases hid : id_char c = true
          · rw [if_pos hid] at h
            obtain ⟨taken, rest2, heq, hall⟩ := ident_span_spec rest [c]
            rw [heq] at h
            dsimp only at h
            rcases List.mem_cons.mp h with rfl | h'
            · refine ⟨by simp, Or.inl ?_⟩
              simp only [ident_tok, string_mk_data, Bool.and_eq_true, List.all_eq_true]
              refine ⟨by simp, ?_⟩
              intro d hd
              rcases List.mem_cons.mp hd with rfl | hd'
              · exact hid
              · exact hall d hd'
            · exact ih rest2 tok h'
          · rw [if_neg hid] at h
            exact ih rest tok h

theorem tokenize_shape (s : String) : ∀ tok ∈ tokenize s,
    tok.data ≠ [] ∧ (ident_tok tok = true ∨ tok ∈ ["<->", "->", "-", "&", "(", ")"]) :=
  tok_core_shape _ _

/-! ## Claim C8 -/

/-- C8: for every input string, `parse` fails exactly under the three
conditions of the source's `raise` sites, and otherwise returns a formula:
(1) `parse` succeeds iff the full `equiv` parse consumes the whole token
stream; (2) the "extraneous input" error occurs iff the `equiv` parse
succeeds with tokens remaining (and reports the first remaining token);
(3) the "expected ')'" and "unexpected end" errors of `parse` are exactly
those produced inside the recursive descent; and (4) every parse either
returns a formula or ends in one of these three errors — the whole attempt
fails atomically, returning no partial result. -/
theorem C8_parse_error_conditions (s : String) :
    ((∃ f, parse s = .ok f) ↔
      (∃ f, parse_equiv (parse_fuel (tokenize s)) (tokenize s) = .ok (f, []))) ∧
    (∀ tok, parse s = .error (.extraneous tok) ↔
      ∃ f rest, parse_equiv (parse_fuel (tokenize s)) (tokenize s) = .ok (f, tok :: rest)) ∧
    (∀ e, e = ParseErr.expectedParen ∨ e = ParseErr.endOfInput →
      (parse s = .error e ↔
        parse_equiv (parse_fuel (tokenize s)) (tokenize s) = .error e)) ∧
    ((∃ f, parse s = .ok f) ∨ (∃ tok, parse s = .error (.extraneous tok)) ∨
      parse s = .error .expectedParen ∨ parse s = .error .endOfInput) := by
  have hp0 : parse s = match parse_equiv (parse_fuel (tokenize s)) (tokenize s) with
    | .error e => .error e
    | .ok (f, []) => .ok f
    | .ok (_, tok :: _) => .error (.extraneous tok) := rfl
  rcases hq : parse_equiv (parse_fuel (tokenize s)) (tokenize s) with e | ⟨f, rest⟩
  · -- the recursive descent itself failed
    have hp' : parse s = .error e := by rw [hp0, hq]
    have hnf : e ≠ .fuelOut := by
      intro h
      subst h
      exact (parse_no_fuelOut (parse_fuel (tokenize s))).1 (tokenize s) le_rfl hq
    have hne : ∀ tok, e ≠ .extraneous tok := by
      intro tok h
      subst h
      exact (parse_no_extraneous (parse_fuel (tokenize s))).1 (tokenize s) tok hq
    refine ⟨?_, ?_, ?_, ?_⟩
    · constructor
      · rintro ⟨f', h⟩
        exact absurd (hp'.symm.trans h) (by simp)
      · rintro ⟨f', h⟩
        simp at h
    · intro tok
      constructor
      · intro h
        have hh := hp'.symm.trans h
        injection hh with hh'
        exact absurd hh' (hne tok)
      · rintro ⟨f', rest', h⟩
        simp at h
    · intro e' _
      constructor
      · intro h
        have hh := hp'.symm.trans h
        injection hh with hh'
        rw [hh']
      · intro h
        injection h with h'
        rw [hp', h']
    · cases e with
      | extraneous tok => exact absurd rfl (hne tok)
      | expectedParen => exact Or.inr (Or.inr (Or.inl hp'))
      | endOfInput => exact Or.inr (Or.inr (Or.inr hp'))
      | fuelOut => exact absurd rfl hnf
  · cases rest with
    | nil =>
      have hp' : parse s = .ok f := by rw [hp0, hq]
      refine ⟨⟨fun _ => ⟨f, rfl⟩, fun _ => ⟨f, hp'⟩⟩, ?_, ?_, Or.inl ⟨f, hp'⟩⟩
      · intro tok
        constructor
        · intro h
          exact absurd (hp'.symm.trans h) (by simp)
        · rintro ⟨f', rest', h⟩
          simp at h
      · intro e' _
        constructor
        · intro h
          exact absurd (hp'.symm.trans h) (by simp)
        · intro h
          simp at h
    | cons tok rest' =>
      have hp' : parse s = .error (.extraneous tok) := by rw [hp0, hq]
      refine ⟨?_, ?_, ?_, Or.inr (Or.inl ⟨tok, hp'⟩)⟩
      · constructor
        · rintro ⟨f', h⟩
          exact absurd (hp'.symm.trans h) (by simp)
        · rintro ⟨f', h⟩
          simp at h
      · intro tok'
        constructor
        · intro h
          have hh := hp'.symm.trans h
          injection hh with hh'
          injection hh' with hh''
          exact ⟨f, rest', by rw [hh'']⟩
        · rintro ⟨f', rest'', h⟩
          injection h with h'
          injection h' with h1 h2
          injection h2 with h3 h4
          rw [hp', h3]
      · intro e' he'
        constructor
        · intro h
          have hh := hp'.symm.trans h
          injection hh with hh'
          rcases he' with rfl | rfl <;> cases hh'
        · intro h
          simp at h

/-- C8 witness: the theorem applied to the concrete input `"(A"`, whose
parse fails with the missing-parenthesis condition. -/
theorem C8_witness : parse "(A" = .error .expectedParen :=
  ((C8_parse_error_conditions "(A").2.2.1 ParseErr.expectedParen (Or.inl rfl)).mpr rfl

/-! ## Claim C9 -/

/-- C9 counterexample: `_parse_primary` accepts any remaining token as a
variable name, so `parse ")"` succeeds and returns a `Variable` whose name
is `")"`, which is not an alphanumeric/underscore token. -/
theorem C9_counterexample : parse ")" = .ok (.var ")") ∧ ident_tok ")" = false :=
  ⟨rfl, by decide⟩

/-- C9 (amended): for every input string on which `parse` succeeds, every
`Variable` node of the returned tree carries no children (by the shape of
the `Formula` type) and its name is a non-empty token of the tokenizer:
either an alphanumeric/underscore identifier, or one of the symbolic tokens
`<->`, `->`, `-`, `&`, `(`, `)` (the source's `_parse_primary` takes any
available token as a variable name, not just identifiers). -/
theorem C9_amended_var_names (s : String) (f : Formula) (h : parse s = .ok f) :
    ∀ x ∈ f.vars, x.data ≠ [] ∧
      (ident_tok x = true ∨ x ∈ ["<->", "->", "-", "&", "(", ")"]) := by
  intro x hx
  have hp0 : parse s = match parse_equiv (parse_fuel (tokenize s)) (tokenize s) with
    | .error e => .error e
    | .ok (f, []) => .ok f
    | .ok (_, tok :: _) => .error (.extraneous tok) := rfl
  rcases hq : parse_equiv (parse_fuel (tokenize s)) (tokenize s) with e | ⟨f', rest⟩
  · have hp' : parse s = .error e := by rw [hp0, hq]
    exact absurd (hp'.symm.trans h) (by simp)
  · cases rest with
    | nil =>
      have hp' : parse s = .ok f' := by rw [hp0, hq]
      have hf : f' = f := by
        have hh := hp'.symm.trans h
        injection hh
      subst hf
      have hmem := ((parse_ok_spec (parse_fuel (tokenize s))).1 _ _ _ hq).2 x hx
      exact tokenize_shape s x hmem
    | cons tok rest' =>
      have hp' : parse s = .error (.extraneous tok) := by rw [hp0, hq]
      exact absurd (hp'.symm.trans h) (by simp)

/-- C9 witness: the amended theorem applied to the concrete input `"A & B"`
and the variable `A` of its parse tree. -/
theorem C9_witness : ("A" : String).data ≠ [] ∧
    (ident_tok "A" = true ∨ "A" ∈ ["<->", "->", "-", "&", "(", ")"]) :=
  C9_amended_var_names "A & B" (.and (.var "A") (.var "B")) rfl "A" (by decide)

/-! ## Claim C6 -/

/-- C6 counterexample: in `"A v B v C"`, the tokenizer first removes spaces
and then reads the maximal alphanumeric run `AvBvC` as a single identifier
(`v` is alphanumeric), so the parse yields a lone variable whose text is
`"AvBvC"`, not `"((A v B) v C)"`. -/
theorem C6_counterexample :
    parse "A v B v C" = .ok (.var "AvBvC") ∧
      Formula.str (.var "AvBvC") = "AvBvC" ∧ ("AvBvC" : String) ≠ "((A v B) v C)" :=
  ⟨rfl, rfl, by decide⟩

/-- C6 (amended): the parser is right-associative for `->` and `<->` and
left-associative for `v` and `&`, observably in the canonical rendering:
`"A -> B -> C"` parses to text `"(A -> (B -> C))"`, `"A <-> B <-> C"` to
`"(A <-> (B <-> C))"`, and `"A & B & C"` to `"((A & B) & C)"`; but
`"A v B v C"` tokenizes as the single identifier `AvBvC` (so it parses to
the variable text `"AvBvC"`), and the left associativity of `v` is
observable only with delimiters around the operands, e.g.
`"(A) v (B) v (C)"` parses to text `"((A v B) v C)"`. -/
theorem C6_amended_associativity :
    (parse "A -> B -> C").map Formula.str = .ok "(A -> (B -> C))" ∧
    (parse "A <-> B <-> C").map Formula.str = .ok "(A <-> (B <-> C))" ∧
    (parse "A & B & C").map Formula.str = .ok "((A & B) & C)" ∧
    (parse "A v B v C").map Formula.str = .ok "AvBvC" ∧
    (parse "(A) v (B) v (C)").map Formula.str = .ok "((A v B) v C)" :=
  ⟨rfl, rfl, rfl, rfl, rfl⟩

/-! ## Basic formula facts for the Tseitin development -/

theorem size_pos (f : Formula) : 1 ≤ f.size := by
  cases f <;> simp [Formula.size] <;> omega

theorem eval_congr_vars {ρ ρ' : String → Bool} {f : Formula}
    (h : ∀ x ∈ f.vars, ρ' x = ρ x) : eval ρ' f = eval ρ f := by
  induction f with
  | var x => exact h x (List.mem_singleton_self x)
  | not g ih => simp [eval, ih h]
  | and a b iha ihb =>
    simp [eval, iha (fun x hx => h x (List.mem_append.mpr (Or.inl hx))),
      ihb (fun x hx => h x (List.mem_append.mpr (Or.inr hx)))]
  | or a b iha ihb =>
    simp [eval, iha (fun x hx => h x (List.mem_append.mpr (Or.inl hx))),
      ihb (fun x hx => h x (List.mem_append.mpr (Or.inr hx)))]
  | impl a b iha ihb =>
    simp [eval, iha (fun x hx => h x (List.mem_append.mpr (Or.inl hx))),
      ihb (fun x hx => h x (List.mem_append.mpr (Or.inr hx)))]
  | equiv a b iha ihb =>
    simp [eval, iha (fun x hx => h x (List.mem_append.mpr (Or.inl hx))),
      ihb (fun x hx => h x (List.mem_append.mpr (Or.inr hx)))]

theorem literal_cases {a : Formula} (h : a.is_literal = true) :
    (∃ x, a = .var x) ∨ ∃ x, a = .not (.var x) := by
  cases a with
  | var x => exact Or.inl ⟨x, rfl⟩
  | not g =>
    cases g with
    | var x => exact Or.inr ⟨x, rfl⟩
    | not g' => simp [Formula.is_literal] at h
    | and a b => simp [Formula.is_literal] at h
    | or a b => simp [Formula.is_literal] at h
    | impl a b => simp [Formula.is_literal] at h
    | equiv a b => simp [Formula.is_literal] at h
  | and a b => simp [Formula.is_literal] at h
  | or a b => simp [Formula.is_literal] at h
  | impl a b => simp [Formula.is_literal] at h
  | equiv a b => simp [Formula.is_literal] at h

theorem is_cnf_of_literal {f : Formula} (h : f.is_literal = true) : is_cnf f = true :=
  is_cnf_of_clause (is_clause_of_literal h)

theorem lit_to_str_eval {a : Formula} (hl : a.is_literal = true)
    (hv : ∀ x ∈ a.vars, starts_dash x = false) (ρ : String → Bool) :
    lit_eval ρ (lit_to_str a) = eval ρ a := by
  rcases literal_cases hl with ⟨x, rfl⟩ | ⟨x, rfl⟩
  · exact lit_eval_of_not_dash (hv x (List.mem_singleton_self x)) ρ
  · show lit_eval ρ ("-" ++ x) = _
    rw [lit_eval_dash]
    rfl

theorem lit_to_str_ok {a : Formula} (hl : a.is_literal = true)
    (hv : ∀ x ∈ a.vars, ident_tok x = true) : lit_ok (lit_to_str a) = true := by
  rcases literal_cases hl with ⟨x, rfl⟩ | ⟨x, rfl⟩
  · exact lit_ok_of_ident (hv x (List.mem_singleton_self x))
  · exact lit_ok_dash (hv x (List.mem_singleton_self x))

theorem vars_literal {a : Formula} (hl : a.is_literal = true) :
    ∃ x, a.vars = [x] := by
  rcases literal_cases hl with ⟨x, rfl⟩ | ⟨x, rfl⟩ <;> exact ⟨x, rfl⟩

/-! ## The literal-binary search -/

theorem find_shape : ∀ (h : Formula) (p : List Dir) (n : Formula) (q : List Dir),
    find_literal_binary h p = some (n, q) →
    ∃ q', q = p ++ q' ∧ subtree_at h q' = some n ∧
      ∃ a b, (n = .and a b ∨ n = .or a b) ∧ a.is_literal = true ∧ b.is_literal = true := by
  intro h
  induction h with
  | var x => intro p n q hf; simp [find_literal_binary] at hf
  | not g ih =>
    intro p n q hf
    rw [show find_literal_binary (.not g) p = find_literal_binary g (p ++ [.left]) from rfl]
      at hf
    obtain ⟨q', hq, hsub, hshape⟩ := ih (p ++ [.left]) n q hf
    exact ⟨Dir.left :: q', by rw [hq, List.append_assoc]; rfl, hsub, hshape⟩
  | and a b iha ihb =>
    intro p n q hf
    rw [show find_literal_binary (.and a b) p =
        (if a.is_literal && b.is_literal then some (.and a b, p)
         else
           match find_literal_binary a (p ++ [.left]) with
           | some r => some r
           | none => find_literal_binary b (p ++ [.right])) from rfl] at hf
    by_cases hlit : (a.is_literal && b.is_literal) = true
    · rw [if_pos hlit] at hf
      injection hf with hf'
      injection hf' with h1 h2
      subst h1
      subst h2
      simp only [Bool.and_eq_true] at hlit
      exact ⟨[], by simp, rfl, a, b, Or.inl rfl, hlit.1, hlit.2⟩
    · rw [if_neg hlit] at hf
      cases hfa : find_literal_binary a (p ++ [.left]) with
      | some r =>
        rw [hfa] at hf
        injection hf with hf'
        subst hf'
        obtain ⟨q', hq, hsub, hshape⟩ := iha (p ++ [.left]) n q hfa
        exact ⟨Dir.left :: q', by rw [hq, List.append_assoc]; rfl, hsub, hshape⟩
      | none =>
        rw [hfa] at hf
        obtain ⟨q', hq, hsub, hshape⟩ := ihb (p ++ [.right]) n q hf
        exact ⟨Dir.right :: q', by rw [hq, List.append_assoc]; rfl, hsub, hshape⟩
  | or a b iha ihb =>
    intro p n q hf
    rw [show find_literal_binary (.or a b) p =
        (if a.is_literal && b.is_literal then some (.or a b, p)
         else
           match find_literal_binary a (p ++ [.left]) with
           | some r => some r
           | none => find_literal_binary b (p ++ [.right])) from rfl] at hf
    by_cases hlit : (a.is_literal && b.is_literal) = true
    · rw [if_pos hlit] at hf
      injection hf with hf'
      injection hf' with h1 h2
      subst h1
      subst h2
      simp only [Bool.and_eq_true] at hlit
      exact ⟨[], by simp, rfl, a, b, Or.inr rfl, hlit.1, hlit.2⟩
    · rw [if_neg hlit] at hf
      cases hfa : find_literal_binary a (p ++ [.left]) with
      | some r =>
        rw [hfa] at hf
        injection hf with hf'
        subst hf'
        obtain ⟨q', hq, hsub, hshape⟩ := iha (p ++ [.left]) n q hfa
        exact ⟨Dir.left :: q', by rw [hq, List.append_assoc]; rfl, hsub, hshape⟩
      | none =>
        rw [hfa] at hf
        obtain ⟨q', hq, hsub, hshape⟩ := ihb (p ++ [.right]) n q hf
        exact ⟨Dir.right :: q', by rw [hq, List.append_assoc]; rfl, hsub, hshape⟩
  | impl a b iha ihb =>
    intro p n q hf
    rw [show find_literal_binary (.impl a b) p =
        (match find_literal_binary a (p ++ [.left]) with
         | some r => some r
         | none => find_literal_binary b (p ++ [.right])) from rfl] at hf
    cases hfa : find_literal_binary a (p ++ [.left]) with
    | some r =>
      rw [hfa] at hf
      injection hf with hf'
      subst hf'
      obtain ⟨q', hq, hsub, hshape⟩ := iha (p ++ [.left]) n q hfa
      exact ⟨Dir.left :: q', by rw [hq, List.append_assoc]; rfl, hsub, hshape⟩
    | none =>
      rw [hfa] at hf
      obtain ⟨q', hq, hsub, hshape⟩ := ihb (p ++ [.right]) n q hf
      exact ⟨Dir.right :: q', by rw [hq, List.append_assoc]; rfl, hsub, hshape⟩
  | equiv a b iha ihb =>
    intro p n q hf
    rw [show find_literal_binary (.equiv a b) p =
        (match find_literal_binary a (p ++ [.left]) with
         | some r => some r
         | none => find_literal_binary b (p ++ [.right])) from rfl] at hf
    cases hfa : find_literal_binary a (p ++ [.left]) with
    | some r =>
      rw [hfa] at hf
      injection hf with hf'
      subst hf'
      obtain ⟨q', hq, hsub, hshape⟩ := iha (p ++ [.left]) n q hfa
      exact ⟨Dir.left :: q', by rw [hq, List.append_assoc]; rfl, hsub, hshape⟩
    | none =>
      rw [hfa] at hf
      obtain ⟨q', hq, hsub, hshape⟩ := ihb (p ++ [.right]) n q hf
      exact ⟨Dir.right :: q', by rw [hq, List.append_assoc]; rfl, hsub, hshape⟩

theorem find_some_of_nnf {g : Formula} (hg : nnf_only g = true)
    (hnl : g.is_literal = false) : ∀ p, (find_literal_binary g p).isSome = true := by
  induction g with
  | var x => simp [Formula.is_literal] at hnl
  | not g' ih =>
    cases g' with
    | var x => simp [Formula.is_literal] at hnl
    | not g'' => simp [nnf_only] at hg
    | and a b => simp [nnf_only] at hg
    | or a b => simp [nnf_only] at hg
    | impl a b => simp [nnf_only] at hg
    | equiv a b => simp [nnf_only] at hg
  | and a b iha ihb =>
    simp only [nnf_only, Bool.and_eq_true] at hg
    intro p
    rw [show find_literal_binary (.and a b) p =
        (if a.is_literal && b.is_literal then some (.and a b, p)
         else
           match find_literal_binary a (p ++ [.left]) with
           | some r => some r
           | none => find_literal_binary b (p ++ [.right])) from rfl]
    by_cases hlit : (a.is_literal && b.is_literal) = true
    · rw [if_pos hlit]; rfl
    · rw [if_neg hlit]
      cases hfa : find_literal_binary a (p ++ [.left]) with
      | some r => rfl
      | none =>
        by_cases hla : a.is_literal = true
        · have hlb : b.is_literal = false := by
            cases hb : b.is_literal
            · rfl
            · rw [hla, hb] at hlit; cases hlit rfl
          exact ihb hg.2 hlb (p ++ [.right])
        · have := iha hg.1 (by simpa using hla) (p ++ [.left])
          rw [hfa] at this
          cases this
  | or a b iha ihb =>
    simp only [nnf_only, Bool.and_eq_true] at hg
    intro p
    rw [show find_literal_binary (.or a b) p =
        (if a.is_literal && b.is_literal then some (.or a b, p)
         else
           match find_literal_binary a (p ++ [.left]) with
           | some r => some r
           | none => find_literal_binary b (p ++ [.right])) from rfl]
    by_cases hlit : (a.is_literal && b.is_literal) = true
    · rw [if_pos hlit]; rfl
    · rw [if_neg hlit]
      cases hfa : find_literal_binary a (p ++ [.left]) with
      | some r => rfl
      | none =>
        by_cases hla : a.is_literal = true
        · have hlb : b.is_literal = false := by
            cases hb : b.is_literal
            · rfl
            · rw [hla, hb] at hlit; cases hlit rfl
          exact ihb hg.2 hlb (p ++ [.right])
        · have := iha hg.1 (by simpa using hla) (p ++ [.left])
          rw [hfa] at this
          cases this
  | impl a b _ _ => simp [nnf_only] at hg
  | equiv a b _ _ => simp [nnf_only] at hg

/-! ## Subtree replacement -/

theorem subtree_at_nil (g : Formula) : subtree_at g [] = some g := by
  cases g <;> rfl

theorem replace_at_nil (g x : Formula) : replace_at g [] x = x := by
  cases g <;> rfl

theorem size_replace_at : ∀ (q : List Dir) (g n x : Formula),
    subtree_at g q = some n →
    (replace_at g q x).size + n.size = g.size + x.size := by
  intro q
  induction q with
  | nil =>
    intro g n x hs
    rw [subtree_at_nil] at hs
    injection hs with hs'
    subst hs'
    rw [replace_at_nil]
    omega
  | cons d rest ih =>
    intro g n x hs
    cases g with
    | var y => simp [subtree_at] at hs
    | not g' =>
      cases d with
      | left =>
        have := ih g' n x hs
        show 1 + (replace_at g' rest x).size + n.size = 1 + g'.size + x.size
        omega
      | right => simp [subtree_at] at hs
    | and a b =>
      cases d with
      | left =>
        have := ih a n x hs
        show 1 + (replace_at a rest x).size + b.size + n.size = 1 + a.size + b.size + x.size
        omega
      | right =>
        have := ih b n x hs
        show 1 + a.size + (replace_at b rest x).size + n.size = 1 + a.size + b.size + x.size
        omega
    | or a b =>
      cases d with
      | left =>
        have := ih a n x hs
        show 1 + (replace_at a rest x).size + b.size + n.size = 1 + a.size + b.size + x.size
        omega
      | right =>
        have := ih b n x hs
        show 1 + a.size + (replace_at b rest x).size + n.size = 1 + a.size + b.size + x.size
        omega
    | impl a b =>
      cases d with
      | left =>
        have := ih a n x hs
        show 1 + (replace_at a rest x).size + b.size + n.size = 1 + a.size + b.size + x.size
        omega
      | right =>
        have := ih b n x hs
        show 1 + a.size + (replace_at b rest x).size + n.size = 1 + a.size + b.size + x.size
        omega
    | equiv a b =>
      cases d with
      | left =>
        have := ih a n x hs
        show 1 + (replace_at a rest x).size + b.size + n.size = 1 + a.size + b.size + x.size
        omega
      | right =>
        have := ih b n x hs
        show 1 + a.size + (replace_at b rest x).size + n.size = 1 + a.size + b.size + x.size
        omega

theorem eval_replace_at : ∀ (q : List Dir) (g n x : Formula) (ρ : String → Bool),
    subtree_at g q = some n → eval ρ x = eval ρ n →
    eval ρ (replace_at g q x) = eval ρ g := by
  intro q
  induction q with
  | nil =>
    intro g n x ρ hs he
    rw [subtree_at_nil] at hs
    injection hs with hs'
    subst hs'
    rw [replace_at_nil]
    exact he
  | cons d rest ih =>
    intro g n x ρ hs he
    cases g with
    | var y => simp [subtree_at] at hs
    | not g' =>
      cases d with
      | left =>
        show (!eval ρ (replace_at g' rest x)) = !eval ρ g'
        rw [ih g' n x ρ hs he]
      | right => simp [subtree_at] at hs
    | and a b =>
      cases d with
      | left =>
        show (eval ρ (replace_at a rest x) && eval ρ b) = _
        rw [ih a n x ρ hs he]
        rfl
      | right =>
        show (eval ρ a && eval ρ (replace_at b rest x)) = _
        rw [ih b n x ρ hs he]
        rfl
    | or a b =>
      cases d with
      | left =>
        show (eval ρ (replace_at a rest x) || eval ρ b) = _
        rw [ih a n x ρ hs he]
        rfl
      | right =>
        show (eval ρ a || eval ρ (replace_at b rest x)) = _
        rw [ih b n x ρ hs he]
        rfl
    | impl a b =>
      cases d with
      | left =>
        show (!eval ρ (replace_at a rest x) || eval ρ b) = _
        rw [ih a n x ρ hs he]
        rfl
      | right =>
        show (!eval ρ a || eval ρ (replace_at b rest x)) = _
        rw [ih b n x ρ hs he]
        rfl
    | equiv a b =>
      cases d with
      | left =>
        show (eval ρ (replace_at a rest x) == eval ρ b) = _
        rw [ih a n x ρ hs he]
        rfl
      | right =>
        show (eval ρ a == eval ρ (replace_at b rest x)) = _
        rw [ih b n x ρ hs he]
        rfl

theorem vars_replace_at : ∀ (q : List Dir) (g x : Formula),
    ∀ y ∈ (replace_at g q x).vars, y ∈ g.vars ∨ y ∈ x.vars := by
  intro q
  induction q with
  | nil =>
    intro g x y hy
    rw [replace_at_nil] at hy
    exact Or.inr hy
  | cons d rest ih =>
    intro g x y hy
    cases g with
    | var z => exact Or.inl hy
    | not g' =>
      cases d with
      | left => exact ih g' x y hy
      | right => exact Or.inl hy
    | and a b =>
      cases d with
      | left =>
        rcases List.mem_append.mp hy with hm | hm
        · rcases ih a x y hm with hh | hh
          · exact Or.inl (List.mem_append.mpr (Or.inl hh))
          · exact Or.inr hh
        · exact Or.inl (List.mem_append.mpr (Or.inr hm))
      | right =>
        rcases List.mem_append.mp hy with hm | hm
        · exact Or.inl (List.mem_append.mpr (Or.inl hm))
        · rcases ih b x y hm with hh | hh
          · exact Or.inl (List.mem_append.mpr (Or.inr hh))
          · exact Or.inr hh
    | or a b =>
      cases d with
      | left =>
        rcases List.mem_append.mp hy with hm | hm
        · rcases ih a x y hm with hh | hh
          · exact Or.inl (List.mem_append.mpr (Or.inl hh))
          · exact Or.inr hh
        · exact Or.inl (List.mem_append.mpr (Or.inr hm))
      | right =>
        rcases List.mem_append.mp hy with hm | hm
        · exact Or.inl (List.mem_append.mpr (Or.inl hm))
        · rcases ih b x y hm with hh | hh
          · exact Or.inl (List.mem_append.mpr (Or.inr hh))
          · exact Or.inr hh
    | impl a b =>
      cases d with
      | left =>
        rcases List.mem_append.mp hy with hm | hm
        · rcases ih a x y hm with hh | hh
          · exact Or.inl (List.mem_append.mpr (Or.inl hh))
          · exact Or.inr hh
        · exact Or.inl (List.mem_append.mpr (Or.inr hm))
      | right =>
        rcases List.mem_append.mp hy with hm | hm
        · exact Or.inl (List.mem_append.mpr (Or.inl hm))
        · rcases ih b x y hm with hh | hh
          · exact Or.inl (List.mem_append.mpr (Or.inr hh))
          · exact Or.inr hh
    | equiv a b =>
      cases d with
      | left =>
        rcases List.mem_append.mp hy with hm | hm
        · rcases ih a x y hm with hh | hh
          · exact Or.inl (List.mem_append.mpr (Or.inl hh))
          · exact Or.inr hh
        · exact Or.inl (List.mem_append.mpr (Or.inr hm))
      | right =>
        rcases List.mem_append.mp hy with hm | hm
        · exact Or.inl (List.mem_append.mpr (Or.inl hm))
        · rcases ih b x y hm with hh | hh
          · exact Or.inl (List.mem_append.mpr (Or.inr hh))
          · exact Or.inr hh

theorem replace_var_is_var : ∀ (q : List Dir) (x : String) (p : String),
    ∃ y, replace_at (.var x) q (.var p) = .var y := by
  intro q x p
  cases q with
  | nil => exact ⟨p, rfl⟩
  | cons d rest => exact ⟨x, rfl⟩

theorem nnf_only_replace_at : ∀ (q : List Dir) (g : Formula) (p : String),
    nnf_only g = true → nnf_only (replace_at g q (.var p)) = true := by
  intro q
  induction q with
  | nil =>
    intro g p _
    rw [replace_at_nil]
    rfl
  | cons d rest ih =>
    intro g p hg
    cases g with
    | var y => exact hg
    | not g' =>
      cases g' with
      | var y =>
        cases d with
        | left =>
          show nnf_only (.not (replace_at (.var y) rest (.var p))) = true
          obtain ⟨z, hz⟩ := replace_var_is_var rest y p
          rw [hz]
          rfl
        | right => exact hg
      | not g'' => simp [nnf_only] at hg
      | and a b => simp [nnf_only] at hg
      | or a b => simp [nnf_only] at hg
      | impl a b => simp [nnf_only] at hg
      | equiv a b => simp [nnf_only] at hg
    | and a b =>
      simp only [nnf_only, Bool.and_eq_true] at hg
      cases d with
      | left =>
        show nnf_only (.and (replace_at a rest (.var p)) b) = true
        simp [nnf_only, ih a p hg.1, hg.2]
      | right =>
        show nnf_only (.and a (replace_at b rest (.var p))) = true
        simp [nnf_only, ih b p hg.2, hg.1]
    | or a b =>
      simp only [nnf_only, Bool.and_eq_true] at hg
      cases d with
      | left =>
        show nnf_only (.or (replace_at a rest (.var p)) b) = true
        simp [nnf_only, ih a p hg.1, hg.2]
      | right =>
        show nnf_only (.or a (replace_at b rest (.var p))) = true
        simp [nnf_only, ih b p hg.2, hg.1]
    | impl a b => simp [nnf_only] at hg
    | equiv a b => simp [nnf_only] at hg

/-! ## The Tseitin rewrite loop: termination with a CNF result -/

theorem tseitin_loop_cnf : ∀ (fuel : Nat) (g : Formula) (cls : List (List String)) (k : Nat),
    nnf_only g = true → g.size ≤ fuel →
    is_cnf (tseitin_loop fuel g cls k).2.1 = true := by
  intro fuel
  induction fuel with
  | zero =>
    intro g cls k _ hsz
    have := size_pos g
    omega
  | succ fuel ih =>
    intro g cls k hg hsz
    simp only [tseitin_loop]
    by_cases hc : is_cnf g = true
    · rw [if_pos hc]
      exact hc
    · rw [if_neg hc]
      have hnl : g.is_literal = false := by
        cases hl : g.is_literal
        · rfl
        · exact absurd (is_cnf_of_literal hl) hc
      have hsome := find_some_of_nnf hg hnl []
      cases hfind : find_literal_binary g [] with
      | none => rw [hfind] at hsome; cases hsome
      | some r =>
        obtain ⟨n, path⟩ := r
        obtain ⟨q', hq, hsub, a', b', hor, hla, hlb⟩ := find_shape g [] n path hfind
        simp only [List.nil_append] at hq
        subst hq
        rcases hor with hn | hn
        · subst hn
          dsimp only
          have hsz' := size_replace_at path g (.and a' b')
            (.var (fresh_name (k+1))) hsub
          have h3 : 3 ≤ (Formula.and a' b').size := by
            have := size_pos a'
            have := size_pos b'
            show 3 ≤ 1 + a'.size + b'.size
            omega
          have hv1 : (Formula.var (fresh_name (k+1))).size = 1 := rfl
          exact ih _ _ _ (nnf_only_replace_at path g (fresh_name (k+1)) hg) (by omega)
        · subst hn
          dsimp only
          have hsz' := size_replace_at path g (.or a' b')
            (.var (fresh_name (k+1))) hsub
          have h3 : 3 ≤ (Formula.or a' b').size := by
            have := size_pos a'
            have := size_pos b'
            show 3 ≤ 1 + a'.size + b'.size
            omega
          have hv1 : (Formula.var (fresh_name (k+1))).size = 1 := rfl
          exact ih _ _ _ (nnf_only_replace_at path g (fresh_name (k+1)) hg) (by omega)

/-! ## The Tseitin rewrite loop: emitted clause blocks and fresh names -/

theorem tseitin_loop_blocks : ∀ (fuel : Nat) (g : Formula) (cls : List (List String)) (k : Nat),
    ∃ steps : List (Bool × String × String),
      (tseitin_loop fuel g cls k).1 = cls ++ spec_tseitin_blocks k steps ∧
      (tseitin_loop fuel g cls k).2.2 = k + steps.length := by
  intro fuel
  induction fuel with
  | zero =>
    intro g cls k
    exact ⟨[], by simp [tseitin_loop, spec_tseitin_blocks], by simp [tseitin_loop]⟩
  | succ fuel ih =>
    intro g cls k
    simp only [tseitin_loop]
    by_cases hc : is_cnf g = true
    · rw [if_pos hc]
      exact ⟨[], by simp [spec_tseitin_blocks], by simp⟩
    · rw [if_neg hc]
      cases hfind : find_literal_binary g [] with
      | none => exact ⟨[], by simp [spec_tseitin_blocks], by simp⟩
      | some r =>
        obtain ⟨n, path⟩ := r
        cases n with
        | and a b =>
          dsimp only
          obtain ⟨steps, h1, h2⟩ :=
            ih (replace_at g path (.var (fresh_name (k+1))))
              (cls ++ add_equiv_cnf (fresh_name (k+1)) (.and a b)
                (lit_to_str a) (lit_to_str b)) (k+1)
          refine ⟨(true, lit_to_str a, lit_to_str b) :: steps, ?_, ?_⟩
          · rw [h1]
            show _ = cls ++ spec_tseitin_blocks k ((true, lit_to_str a, lit_to_str b) :: steps)
            rw [show spec_tseitin_blocks k ((true, lit_to_str a, lit_to_str b) :: steps) =
              [["-" ++ fresh_name (k+1), lit_to_str a],
               ["-" ++ fresh_name (k+1), lit_to_str b],
               [negate (lit_to_str a), negate (lit_to_str b), fresh_name (k+1)]] ++
                spec_tseitin_blocks (k+1) steps from rfl]
            rw [show add_equiv_cnf (fresh_name (k+1)) (.and a b)
                (lit_to_str a) (lit_to_str b) =
              [["-" ++ fresh_name (k+1), lit_to_str a],
               ["-" ++ fresh_name (k+1), lit_to_str b],
               [negate (lit_to_str a), negate (lit_to_str b), fresh_name (k+1)]] from rfl]
            rw [List.append_assoc]
          · rw [h2]
            simp only [List.length_cons]
            omega
        | or a b =>
          dsimp only
          obtain ⟨steps, h1, h2⟩ :=
            ih (replace_at g path (.var (fresh_name (k+1))))
              (cls ++ add_equiv_cnf (fresh_name (k+1)) (.or a b)
                (lit_to_str a) (lit_to_str b)) (k+1)
          refine ⟨(false, lit_to_str a, lit_to_str b) :: steps, ?_, ?_⟩
          · rw [h1]
            show _ = cls ++ spec_tseitin_blocks k ((false, lit_to_str a, lit_to_str b) :: steps)
            rw [show spec_tseitin_blocks k ((false, lit_to_str a, lit_to_str b) :: steps) =
              [[fresh_name (k+1), negate (lit_to_str a)],
               [fresh_name (k+1), negate (lit_to_str b)],
               ["-" ++ fresh_name (k+1), lit_to_str a, lit_to_str b]] ++
                spec_tseitin_blocks (k+1) steps from rfl]
            rw [show add_equiv_cnf (fresh_name (k+1)) (.or a b)
                (lit_to_str a) (lit_to_str b) =
              [[fresh_name (k+1), negate (lit_to_str a)],
               [fresh_name (k+1), negate (lit_to_str b)],
               ["-" ++ fresh_name (k+1), lit_to_str a, lit_to_str b]] from rfl]
            rw [List.append_assoc]
          · rw [h2]
            simp only [List.length_cons]
            omega
        | var x => exact ⟨[], by simp [spec_tseitin_blocks], by simp⟩
        | not g' => exact ⟨[], by simp [spec_tseitin_blocks], by simp⟩
        | impl a b => exact ⟨[], by simp [spec_tseitin_blocks], by simp⟩
        | equiv a b => exact ⟨[], by simp [spec_tseitin_blocks], by simp⟩

theorem vars_subtree : ∀ (q : List Dir) (g n : Formula),
    subtree_at g q = some n → ∀ x ∈ n.vars, x ∈ g.vars := by
  intro q
  induction q with
  | nil =>
    intro g n hs x hx
    rw [subtree_at_nil] at hs
    injection hs with hs'
    subst hs'
    exact hx
  | cons d rest ih =>
    intro g n hs x hx
    cases g with
    | var y => simp [subtree_at] at hs
    | not g' =>
      cases d with
      | left => exact ih g' n hs x hx
      | right => simp [subtree_at] at hs
    | and a b =>
      cases d with
      | left => exact List.mem_append.mpr (Or.inl (ih a n hs x hx))
      | right => exact List.mem_append.mpr (Or.inr (ih b n hs x hx))
    | or a b =>
      cases d with
      | left => exact List.mem_append.mpr (Or.inl (ih a n hs x hx))
      | right => exact List.mem_append.mpr (Or.inr (ih b n hs x hx))
    | impl a b =>
      cases d with
      | left => exact List.mem_append.mpr (Or.inl (ih a n hs x hx))
      | right => exact List.mem_append.mpr (Or.inr (ih b n hs x hx))
    | equiv a b =>
      cases d with
      | left => exact List.mem_append.mpr (Or.inl (ih a n hs x hx))
      | right => exact List.mem_append.mpr (Or.inr (ih b n hs x hx))

/-! ## The Tseitin rewrite loop: variables of the residual -/

theorem tseitin_loop_vars : ∀ (fuel : Nat) (g : Formula) (cls : List (List String)) (k : Nat),
    ∀ x ∈ (tseitin_loop fuel g cls k).2.1.vars,
      x ∈ g.vars ∨ ∃ n, k < n ∧ x = fresh_name n := by
  intro fuel
  induction fuel with
  | zero => intro g cls k x hx; exact Or.inl hx
  | succ fuel ih =>
    intro g cls k x hx
    rw [tseitin_loop] at hx
    by_cases hc : is_cnf g = true
    · rw [if_pos hc] at hx
      exact Or.inl hx
    · rw [if_neg hc] at hx
      cases hfind : find_literal_binary g [] with
      | none => rw [hfind] at hx; exact Or.inl hx
      | some r =>
        obtain ⟨n, path⟩ := r
        rw [hfind] at hx
        cases n with
        | and a b =>
          dsimp only at hx
          rcases ih _ _ _ x hx with hh | ⟨m, hm, rfl⟩
          · rcases vars_replace_at path g _ x hh with hg | hp
            · exact Or.inl hg
            · rw [List.mem_singleton.mp hp]
              exact Or.inr ⟨k+1, by omega, rfl⟩
          · exact Or.inr ⟨m, by omega, rfl⟩
        | or a b =>
          dsimp only at hx
          rcases ih _ _ _ x hx with hh | ⟨m, hm, rfl⟩
          · rcases vars_replace_at path g _ x hh with hg | hp
            · exact Or.inl hg
            · rw [List.mem_singleton.mp hp]
              exact Or.inr ⟨k+1, by omega, rfl⟩
          · exact Or.inr ⟨m, by omega, rfl⟩
        | var y => exact Or.inl hx
        | not g' => exact Or.inl hx
        | impl a b => exact Or.inl hx
        | equiv a b => exact Or.inl hx

/-! ## The Tseitin rewrite loop: emitted literals are proper -/

theorem tseitin_loop_cls_ok :
    ∀ (fuel : Nat) (g : Formula) (cls : List (List String)) (k : Nat),
    nnf_only g = true → (∀ x ∈ g.vars, ident_tok x = true) →
    (∀ c ∈ cls, ∀ l ∈ c, lit_ok l = true) →
    ∀ c ∈ (tseitin_loop fuel g cls k).1, ∀ l ∈ c, lit_ok l = true := by
  intro fuel
  induction fuel with
  | zero => intro g cls k _ _ hok; exact hok
  | succ fuel ih =>
    intro g cls k hg hv hok c hc
    rw [tseitin_loop] at hc
    by_cases hcnf : is_cnf g = true
    · rw [if_pos hcnf] at hc
      exact hok c hc
    · rw [if_neg hcnf] at hc
      cases hfind : find_literal_binary g [] with
      | none => rw [hfind] at hc; exact hok c hc
      | some r =>
        obtain ⟨n, path⟩ := r
        rw [hfind] at hc
        obtain ⟨q', hq, hsub, a', b', hor, hla, hlb⟩ := find_shape g [] n path hfind
        simp only [List.nil_append] at hq
        subst hq
        have hva : ∀ x ∈ a'.vars, ident_tok x = true := by
          intro x hx
          refine hv x (vars_subtree path g n hsub x ?_)
          rcases hor with rfl | rfl <;> exact List.mem_append.mpr (Or.inl hx)
        have hvb : ∀ x ∈ b'.vars, ident_tok x = true := by
          intro x hx
          refine hv x (vars_subtree path g n hsub x ?_)
          rcases hor with rfl | rfl <;> exact List.mem_append.mpr (Or.inr hx)
        have hLa : lit_ok (lit_to_str a') = true := lit_to_str_ok hla hva
        have hLb : lit_ok (lit_to_str b') = true := lit_to_str_ok hlb hvb
        have hp : lit_ok (fresh_name (k+1)) = true :=
          lit_ok_of_ident (ident_tok_fresh_name (k+1))
        have hnp : lit_ok ("-" ++ fresh_name (k+1)) = true :=
          lit_ok_dash (ident_tok_fresh_name (k+1))
        have hvrep : ∀ x ∈ (replace_at g path (.var (fresh_name (k+1)))).vars,
            ident_tok x = true := by
          intro x hx
          rcases vars_replace_at path g _ x hx with hh | hh
          · exact hv x hh
          · rw [List.mem_singleton.mp hh]
            exact ident_tok_fresh_name (k+1)
        rcases hor with hn | hn
        · subst hn
          dsimp only at hc
          refine ih _ _ _ (nnf_only_replace_at path g _ hg) hvrep ?_ c hc
          intro c' hc' l hl
          rcases List.mem_append.mp hc' with hm | hm
          · exact hok c' hm l hl
          · simp only [add_equiv_cnf, List.mem_cons, List.not_mem_nil, or_false] at hm
            rcases hm with rfl | rfl | rfl
            · rcases List.mem_cons.mp hl with rfl | hl'
              · exact hnp
              · rw [List.mem_singleton.mp hl']
                exact hLa
            · rcases List.mem_cons.mp hl with rfl | hl'
              · exact hnp
              · rw [List.mem_singleton.mp hl']
                exact hLb
            · rcases List.mem_cons.mp hl with rfl | hl'
              · exact lit_ok_negate hLa
              · rcases List.mem_cons.mp hl' with rfl | hl''
                · exact lit_ok_negate hLb
                · rw [List.mem_singleton.mp hl'']
                  exact hp
        · subst hn
          dsimp only at hc
          refine ih _ _ _ (nnf_only_replace_at path g _ hg) hvrep ?_ c hc
          intro c' hc' l hl
          rcases List.mem_append.mp hc' with hm | hm
          · exact hok c' hm l hl
          · simp only [add_equiv_cnf, List.mem_cons, List.not_mem_nil, or_false] at hm
            rcases hm with rfl | rfl | rfl
            · rcases List.mem_cons.mp hl with rfl | hl'
              · exact hp
              · rw [List.mem_singleton.mp hl']
                exact lit_ok_negate hLa
            · rcases List.mem_cons.mp hl with rfl | hl'
              · exact hp
              · rw [List.mem_singleton.mp hl']
                exact lit_ok_negate hLb
            · rcases List.mem_cons.mp hl with rfl | hl'
              · exact hnp
              · rcases List.mem_cons.mp hl' with rfl | hl''
                · exact hLa
                · rw [List.mem_singleton.mp hl'']
                  exact hLb

theorem clauses_eval_append (ρ : String → Bool) (xs ys : List (List String)) :
    clauses_eval ρ (xs ++ ys) = (clauses_eval ρ xs && clauses_eval ρ ys) := by
  simp [clauses_eval, List.all_append]

theorem bool_and_def : ∀ (P A B : Bool), (!P || A) = true → (!P || B) = true →
    (!A || (!B || P)) = true → P = (A && B) := by decide

theorem bool_or_def : ∀ (P A B : Bool), (P || !A) = true → (P || !B) = true →
    (!P || (A || B)) = true → P = (A || B) := by decide

/-! ## The Tseitin rewrite loop: soundness of the defining clauses -/

theorem tseitin_loop_sound :
    ∀ (fuel : Nat) (g : Formula) (cls : List (List String)) (k : Nat) (ρ : String → Bool),
    nnf_only g = true → (∀ x ∈ g.vars, ident_tok x = true) →
    clauses_eval ρ (tseitin_loop fuel g cls k).1 = true →
    clauses_eval ρ cls = true ∧ eval ρ (tseitin_loop fuel g cls k).2.1 = eval ρ g := by
  intro fuel
  induction fuel with
  | zero => intro g cls k ρ _ _ h; exact ⟨h, rfl⟩
  | succ fuel ih =>
    intro g cls k ρ hg hv h
    rw [tseitin_loop] at h ⊢
    by_cases hcnf : is_cnf g = true
    · rw [if_pos hcnf] at h ⊢
      exact ⟨h, rfl⟩
    · rw [if_neg hcnf] at h ⊢
      cases hfind : find_literal_binary g [] with
      | none =>
        rw [hfind] at h
        dsimp only at h ⊢
        exact ⟨h, rfl⟩
      | some r =>
        obtain ⟨n, path⟩ := r
        rw [hfind] at h
        obtain ⟨q', hq, hsub, a', b', hor, hla, hlb⟩ := find_shape g [] n path hfind
        simp only [List.nil_append] at hq
        subst hq
        have hva : ∀ x ∈ a'.vars, ident_tok x = true := by
          intro x hx
          refine hv x (vars_subtree path g n hsub x ?_)
          rcases hor with rfl | rfl <;> exact List.mem_append.mpr (Or.inl hx)
        have hvb : ∀ x ∈ b'.vars, ident_tok x = true := by
          intro x hx
          refine hv x (vars_subtree path g n hsub x ?_)
          rcases hor with rfl | rfl <;> exact List.mem_append.mpr (Or.inr hx)
        have hLa : lit_ok (lit_to_str a') = true := lit_to_str_ok hla hva
        have hLb : lit_ok (lit_to_str b') = true := lit_to_str_ok hlb hvb
        have hvrep : ∀ x ∈ (replace_at g path (.var (fresh_name (k+1)))).vars,
            ident_tok x = true := by
          intro x hx
          rcases vars_replace_at path g _ x hx with hh | hh
          · exact hv x hh
          · rw [List.mem_singleton.mp hh]
            exact ident_tok_fresh_name (k+1)
        have e1 : lit_eval ρ ("-" ++ fresh_name (k+1)) = !(ρ (fresh_name (k+1))) :=
          lit_eval_dash _ ρ
        have e2 : lit_eval ρ (lit_to_str a') = eval ρ a' :=
          lit_to_str_eval hla (fun x hx => ident_tok_not_dash (hva x hx)) ρ
        have e3 : lit_eval ρ (lit_to_str b') = eval ρ b' :=
          lit_to_str_eval hlb (fun x hx => ident_tok_not_dash (hvb x hx)) ρ
        have e4 : lit_eval ρ (negate (lit_to_str a')) = !(lit_eval ρ (lit_to_str a')) :=
          lit_eval_negate hLa ρ
        have e5 : lit_eval ρ (negate (lit_to_str b')) = !(lit_eval ρ (lit_to_str b')) :=
          lit_eval_negate hLb ρ
        have e6 : lit_eval ρ (fresh_name (k+1)) = ρ (fresh_name (k+1)) :=
          lit_eval_of_not_dash (ident_tok_not_dash (ident_tok_fresh_name (k+1))) ρ
        rcases hor with hn | hn
        · subst hn
          dsimp only at h ⊢
          obtain ⟨hcls', heval⟩ := ih _ _ _ ρ (nnf_only_replace_at path g _ hg) hvrep h
          rw [clauses_eval_append, Bool.and_eq_true] at hcls'
          obtain ⟨hcls, hΔ⟩ := hcls'
          refine ⟨hcls, heval.trans ?_⟩
          refine eval_replace_at path g (.and a' b') _ ρ hsub ?_
          show ρ (fresh_name (k+1)) = eval ρ (.and a' b')
          simp only [add_equiv_cnf, clauses_eval, List.all_cons, List.all_nil,
            Bool.and_true, Bool.and_eq_true, clause_eval, List.any_cons, List.any_nil,
            Bool.or_false] at hΔ
          obtain ⟨hc1, hc2, hc3⟩ := hΔ
          rw [e1, e2] at hc1
          rw [e1, e3] at hc2
          rw [e4, e5, e6, e2, e3] at hc3
          show _ = (eval ρ a' && eval ρ b')
          exact bool_and_def _ _ _ hc1 hc2 hc3
        · subst hn
          dsimp only at h ⊢
          obtain ⟨hcls', heval⟩ := ih _ _ _ ρ (nnf_only_replace_at path g _ hg) hvrep h
          rw [clauses_eval_append, Bool.and_eq_true] at hcls'
          obtain ⟨hcls, hΔ⟩ := hcls'
          refine ⟨hcls, heval.trans ?_⟩
          refine eval_replace_at path g (.or a' b') _ ρ hsub ?_
          show ρ (fresh_name (k+1)) = eval ρ (.or a' b')
          simp only [add_equiv_cnf, clauses_eval, List.all_cons, List.all_nil,
            Bool.and_true, Bool.and_eq_true, clause_eval, List.any_cons, List.any_nil,
            Bool.or_false] at hΔ
          obtain ⟨hc1, hc2, hc3⟩ := hΔ
          rw [e6, e4] at hc1
          rw [e6, e5] at hc2
          rw [e1, e2, e3] at hc3
          rw [e2] at hc1
          rw [e3] at hc2
          show _ = (eval ρ a' || eval ρ b')
          exact bool_or_def _ _ _ hc1 hc2 hc3

/-! ## Updating an assignment at a fresh variable -/

theorem dash_head (x : String) : ("-" ++ x).data.head? = some '-' := by
  rw [dash_append_data]
  rfl

theorem dash_inj {x y : String} (h : "-" ++ x = "-" ++ y) : x = y := by
  have hd := congrArg String.data h
  rw [dash_append_data, dash_append_data] at hd
  injection hd with h1 h2
  exact string_data_inj h2

theorem ident_ne_dash_append {x : String} (hx : ident_tok x = true) (y : String) :
    x ≠ "-" ++ y := by
  intro he
  have h1 := ident_tok_not_dash hx
  rw [he, starts_dash_dash] at h1
  cases h1

theorem dash_ne_fresh (n : Nat) (x : String) : "-" ++ x ≠ fresh_name n := by
  intro he
  exact fresh_name_ne (n := n) (x := "-" ++ x) (by rw [dash_head]; decide) he.symm

theorem lit_eval_update {l p' : String} {v : Bool} (hok : lit_ok l = true)
    (h1 : l ≠ p') (h2 : l ≠ "-" ++ p') (ρ : String → Bool) :
    lit_eval (fun y => if y = p' then v else ρ y) l = lit_eval ρ l := by
  rcases lit_ok_cases hok with ⟨hd, _⟩ | ⟨x, rfl, hx⟩
  · rw [lit_eval_of_not_dash hd, lit_eval_of_not_dash hd]
    exact if_neg h1
  · rw [lit_eval_dash, lit_eval_dash]
    have hxne : x ≠ p' := fun he => h2 (by rw [he])
    rw [show (if x = p' then v else ρ x) = ρ x from if_neg hxne]

theorem clause_eval_ext {ρ ρ' : String → Bool} {c : List String}
    (h : ∀ l ∈ c, lit_eval ρ' l = lit_eval ρ l) : clause_eval ρ' c = clause_eval ρ c := by
  induction c with
  | nil => rfl
  | cons l ls ih =>
    show (lit_eval ρ' l || clause_eval ρ' ls) = (lit_eval ρ l || clause_eval ρ ls)
    rw [h l (List.mem_cons_self l ls), ih (fun l' hl' => h l' (List.mem_cons_of_mem l hl'))]

theorem clauses_eval_ext {ρ ρ' : String → Bool} {cs : List (List String)}
    (h : ∀ c ∈ cs, clause_eval ρ' c = clause_eval ρ c) :
    clauses_eval ρ' cs = clauses_eval ρ cs := by
  induction cs with
  | nil => rfl
  | cons c cs ih =>
    show (clause_eval ρ' c && clauses_eval ρ' cs) = (clause_eval ρ c && clauses_eval ρ cs)
    rw [h c (List.mem_cons_self c cs), ih (fun c' hc' => h c' (List.mem_cons_of_mem c hc'))]

theorem bool_and_c1 : ∀ A B : Bool, (!(A && B) || A) = true := by decide

theorem bool_and_c2 : ∀ A B : Bool, (!(A && B) || B) = true := by decide

theorem bool_and_c3 : ∀ A B : Bool, (!A || (!B || (A && B))) = true := by decide

theorem bool_or_c1 : ∀ A B : Bool, ((A || B) || !A) = true := by decide

theorem bool_or_c2 : ∀ A B : Bool, ((A || B) || !B) = true := by decide

theorem bool_or_c3 : ∀ A B : Bool, (!(A || B) || (A || B)) = true := by decide

/-- The four freshness disequalities of a proper literal over a non-fresh
identifier: neither the positive nor the dashed form of `x` can collide with
the positive or dashed form of a fresh name `x` is different from. -/
theorem lit_fresh_safe {x : String} {n : Nat} (hid : ident_tok x = true)
    (hne : x ≠ fresh_name n) :
    (x ≠ fresh_name n ∧ x ≠ "-" ++ fresh_name n) ∧
      ("-" ++ x ≠ fresh_name n ∧ "-" ++ x ≠ "-" ++ fresh_name n) :=
  ⟨⟨hne, ident_ne_dash_append hid _⟩,
    ⟨dash_ne_fresh n x, fun he => hne (dash_inj he)⟩⟩

/-- Freshness disequalities for the rendering of a literal subformula and its
negation, given that none of its variables is the fresh name in question. -/
theorem lit_to_str_fresh_safe {a : Formula} {n : Nat} (hl : a.is_literal = true)
    (hid : ∀ x ∈ a.vars, ident_tok x = true)
    (hne : ∀ x ∈ a.vars, x ≠ fresh_name n) :
    (lit_to_str a ≠ fresh_name n ∧ lit_to_str a ≠ "-" ++ fresh_name n) ∧
      (negate (lit_to_str a) ≠ fresh_name n ∧
        negate (lit_to_str a) ≠ "-" ++ fresh_name n) := by
  rcases literal_cases hl with ⟨x, rfl⟩ | ⟨x, rfl⟩
  · have hx : ident_tok x = true := hid x (List.mem_singleton_self x)
    have hxn : x ≠ fresh_name n := hne x (List.mem_singleton_self x)
    obtain ⟨h1, h2⟩ := lit_fresh_safe hx hxn
    refine ⟨h1, ?_⟩
    rw [show lit_to_str (.var x) = x from rfl, negate_of_not_dash (ident_tok_not_dash hx)]
    exact h2
  · have hx : ident_tok x = true := hid x (List.mem_singleton_self x)
    have hxn : x ≠ fresh_name n := hne x (List.mem_singleton_self x)
    obtain ⟨h1, h2⟩ := lit_fresh_safe hx hxn
    rw [show lit_to_str (.not (.var x)) = "-" ++ x from rfl, negate_dash]
    exact ⟨h2, h1⟩

/-! ## The Tseitin rewrite loop: completeness of the defining clauses

A satisfying assignment of the input extends (by giving the fresh `t`-variables
their defining values) to a satisfying assignment of the emitted clauses and of
the residual formula, provided the input mentions no future fresh name. -/

theorem tseitin_loop_complete :
    ∀ (fuel : Nat) (g : Formula) (cls : List (List String)) (k : Nat) (ρ : String → Bool),
    nnf_only g = true → (∀ x ∈ g.vars, ident_tok x = true) →
    (∀ m, k < m → ∀ x ∈ g.vars, x ≠ fresh_name m) →
    (∀ m, k < m → ∀ c ∈ cls, ∀ l ∈ c,
      l ≠ fresh_name m ∧ l ≠ "-" ++ fresh_name m) →
    (∀ c ∈ cls, ∀ l ∈ c, lit_ok l = true) →
    eval ρ g = true → clauses_eval ρ cls = true →
    ∃ ρ' : String → Bool,
      (∀ x, (∀ m, k < m → x ≠ fresh_name m) → ρ' x = ρ x) ∧
      clauses_eval ρ' (tseitin_loop fuel g cls k).1 = true ∧
      eval ρ' (tseitin_loop fuel g cls k).2.1 = true := by
  intro fuel
  induction fuel with
  | zero =>
    intro g cls k ρ _ _ _ _ _ hge hcls
    exact ⟨ρ, fun x _ => rfl, hcls, hge⟩
  | succ fuel ih =>
    intro g cls k ρ hg hv hgfresh hclsfresh hok hge hcls
    rw [tseitin_loop]
    by_cases hcnf : is_cnf g = true
    · rw [if_pos hcnf]
      exact ⟨ρ, fun x _ => rfl, hcls, hge⟩
    · rw [if_neg hcnf]
      cases hfind : find_literal_binary g [] with
      | none => exact ⟨ρ, fun x _ => rfl, hcls, hge⟩
      | some r =>
        obtain ⟨n, path⟩ := r
        obtain ⟨q', hq, hsub, a', b', hor, hla, hlb⟩ := find_shape g [] n path hfind
        simp only [List.nil_append] at hq
        subst hq
        have hva : ∀ x ∈ a'.vars, ident_tok x = true := by
          intro x hx
          refine hv x (vars_subtree path g n hsub x ?_)
          rcases hor with rfl | rfl <;> exact List.mem_append.mpr (Or.inl hx)
        have hvb : ∀ x ∈ b'.vars, ident_tok x = true := by
          intro x hx
          refine hv x (vars_subtree path g n hsub x ?_)
          rcases hor with rfl | rfl <;> exact List.mem_append.mpr (Or.inr hx)
        have hfa : ∀ m, k < m → ∀ x ∈ a'.vars, x ≠ fresh_name m := by
          intro m hm x hx
          refine hgfresh m hm x (vars_subtree path g n hsub x ?_)
          rcases hor with rfl | rfl <;> exact List.mem_append.mpr (Or.inl hx)
        have hfb : ∀ m, k < m → ∀ x ∈ b'.vars, x ≠ fresh_name m := by
          intro m hm x hx
          refine hgfresh m hm x (vars_subtree path g n hsub x ?_)
          rcases hor with rfl | rfl <;> exact List.mem_append.mpr (Or.inr hx)
        have hLa : lit_ok (lit_to_str a') = true := lit_to_str_ok hla hva
        have hLb : lit_ok (lit_to_str b') = true := lit_to_str_ok hlb hvb
        have hvrep : ∀ x ∈ (replace_at g path (.var (fresh_name (k+1)))).vars,
            ident_tok x = true := by
          intro x hx
          rcases vars_replace_at path g _ x hx with hh | hh
          · exact hv x hh
          · rw [List.mem_singleton.mp hh]
            exact ident_tok_fresh_name (k+1)
        have hgfresh' : ∀ m, k+1 < m →
            ∀ x ∈ (replace_at g path (.var (fresh_name (k+1)))).vars,
            x ≠ fresh_name m := by
          intro m hm x hx
          rcases vars_replace_at path g _ x hx with hh | hh
          · exact hgfresh m (by omega) x hh
          · rw [List.mem_singleton.mp hh]
            intro he
            have := fresh_name_inj (by omega) (by omega) he
            omega
        have hpf : ∀ m, k+1 < m → fresh_name (k+1) ≠ fresh_name m ∧
            fresh_name (k+1) ≠ "-" ++ fresh_name m := by
          intro m hm
          refine ⟨fun he => ?_, ?_⟩
          · have := fresh_name_inj (by omega) (by omega) he
            omega
          · exact fresh_name_ne (n := k+1) (by rw [dash_head]; decide)
        have hdpf : ∀ m, k+1 < m → "-" ++ fresh_name (k+1) ≠ fresh_name m ∧
            "-" ++ fresh_name (k+1) ≠ "-" ++ fresh_name m := by
          intro m hm
          refine ⟨dash_ne_fresh m _, fun he => ?_⟩
          have := fresh_name_inj (by omega) (by omega) (dash_inj he)
          omega
        rcases hor with hn | hn
        · subst hn
          dsimp only
          obtain ⟨ρ₁, hρ₁⟩ : ∃ f : String → Bool, f = fun y =>
              if y = fresh_name (k+1) then (eval ρ a' && eval ρ b') else ρ y := ⟨_, rfl⟩
          have hρ₁p : ρ₁ (fresh_name (k+1)) = (eval ρ a' && eval ρ b') := by
            rw [hρ₁]
            exact if_pos rfl
          have hρ₁g : ∀ x ∈ g.vars, ρ₁ x = ρ x := by
            intro x hx
            rw [hρ₁]
            exact if_neg (hgfresh (k+1) (Nat.lt_succ_self k) x hx)
          have ea : eval ρ₁ a' = eval ρ a' := by
            refine eval_congr_vars ?_
            intro x hx
            exact hρ₁g x (vars_subtree path g _ hsub x (List.mem_append.mpr (Or.inl hx)))
          have eb : eval ρ₁ b' = eval ρ b' := by
            refine eval_congr_vars ?_
            intro x hx
            exact hρ₁g x (vars_subtree path g _ hsub x (List.mem_append.mpr (Or.inr hx)))
          have hrepl : eval ρ₁ (replace_at g path (.var (fresh_name (k+1)))) = true := by
            have h1 : eval ρ₁ (.var (fresh_name (k+1))) = eval ρ₁ (.and a' b') := by
              show ρ₁ (fresh_name (k+1)) = (eval ρ₁ a' && eval ρ₁ b')
              rw [hρ₁p, ea, eb]
            rw [eval_replace_at path g (.and a' b') _ ρ₁ hsub h1,
              eval_congr_vars hρ₁g]
            exact hge
          have hcls₁ : clauses_eval ρ₁ cls = true := by
            have hext : clauses_eval ρ₁ cls = clauses_eval ρ cls := by
              refine clauses_eval_ext ?_
              intro c hc
              refine clause_eval_ext ?_
              intro l hl
              rw [hρ₁]
              exact lit_eval_update (hok c hc l hl)
                (hclsfresh (k+1) (Nat.lt_succ_self k) c hc l hl).1
                (hclsfresh (k+1) (Nat.lt_succ_self k) c hc l hl).2 ρ
            rw [hext]
            exact hcls
          have e1 : lit_eval ρ₁ ("-" ++ fresh_name (k+1)) = !(ρ₁ (fresh_name (k+1))) :=
            lit_eval_dash _ ρ₁
          have e2 : lit_eval ρ₁ (lit_to_str a') = eval ρ₁ a' :=
            lit_to_str_eval hla (fun x hx => ident_tok_not_dash (hva x hx)) ρ₁
          have e3 : lit_eval ρ₁ (lit_to_str b') = eval ρ₁ b' :=
            lit_to_str_eval hlb (fun x hx => ident_tok_not_dash (hvb x hx)) ρ₁
          have e4 : lit_eval ρ₁ (negate (lit_to_str a')) = !(lit_eval ρ₁ (lit_to_str a')) :=
            lit_eval_negate hLa ρ₁
          have e5 : lit_eval ρ₁ (negate (lit_to_str b')) = !(lit_eval ρ₁ (lit_to_str b')) :=
            lit_eval_negate hLb ρ₁
          have e6 : lit_eval ρ₁ (fresh_name (k+1)) = ρ₁ (fresh_name (k+1)) :=
            lit_eval_of_not_dash (ident_tok_not_dash (ident_tok_fresh_name (k+1))) ρ₁
          have hΔ : clauses_eval ρ₁ (add_equiv_cnf (fresh_name (k+1)) (.and a' b')
              (lit_to_str a') (lit_to_str b')) = true := by
            simp only [add_equiv_cnf, clauses_eval, List.all_cons, List.all_nil,
              Bool.and_true, Bool.and_eq_true, clause_eval, List.any_cons, List.any_nil,
              Bool.or_false]
            refine ⟨?_, ?_, ?_⟩
            · rw [e1, e2, hρ₁p, ea]
              exact bool_and_c1 _ _
            · rw [e1, e3, hρ₁p, eb]
              exact bool_and_c2 _ _
            · rw [e4, e5, e6, e2, e3, hρ₁p, ea, eb]
              exact bool_and_c3 _ _
          have hclsΔ : clauses_eval ρ₁ (cls ++ add_equiv_cnf (fresh_name (k+1))
              (.and a' b') (lit_to_str a') (lit_to_str b')) = true := by
            rw [clauses_eval_append, Bool.and_eq_true]
            exact ⟨hcls₁, hΔ⟩
          have hclsfresh' : ∀ m, k+1 < m →
              ∀ c ∈ cls ++ add_equiv_cnf (fresh_name (k+1)) (.and a' b')
                (lit_to_str a') (lit_to_str b'), ∀ l ∈ c,
              l ≠ fresh_name m ∧ l ≠ "-" ++ fresh_name m := by
            intro m hm c hc l hl
            rcases List.mem_append.mp hc with hmem | hmem
            · exact hclsfresh m (by omega) c hmem l hl
            · obtain ⟨sa1, sa2⟩ := lit_to_str_fresh_safe hla hva (hfa m (by omega))
              obtain ⟨sb1, sb2⟩ := lit_to_str_fresh_safe hlb hvb (hfb m (by omega))
              simp only [add_equiv_cnf, List.mem_cons, List.not_mem_nil, or_false] at hmem
              rcases hmem with rfl | rfl | rfl
              · rcases List.mem_cons.mp hl with rfl | hl'
                · exact hdpf m hm
                · rw [List.mem_singleton.mp hl']
                  exact sa1
              · rcases List.mem_cons.mp hl with rfl | hl'
                · exact hdpf m hm
                · rw [List.mem_singleton.mp hl']
                  exact sb1
              · rcases List.mem_cons.mp hl with rfl | hl'
                · exact sa2
                · rcases List.mem_cons.mp hl' with rfl | hl''
                  · exact sb2
                  · rw [List.mem_singleton.mp hl'']
                    exact hpf m hm
          have hok' : ∀ c ∈ cls ++ add_equiv_cnf (fresh_name (k+1)) (.and a' b')
              (lit_to_str a') (lit_to_str b'), ∀ l ∈ c, lit_ok l = true := by
            intro c hc l hl
            rcases List.mem_append.mp hc with hmem | hmem
            · exact hok c hmem l hl
            · simp only [add_equiv_cnf, List.mem_cons, List.not_mem_nil, or_false] at hmem
              rcases hmem with rfl | rfl | rfl
              · rcases List.mem_cons.mp hl with rfl | hl'
                · exact lit_ok_dash (ident_tok_fresh_name (k+1))
                · rw [List.mem_singleton.mp hl']
                  exact hLa
              · rcases List.mem_cons.mp hl with rfl | hl'
                · exact lit_ok_dash (ident_tok_fresh_name (k+1))
                · rw [List.mem_singleton.mp hl']
                  exact hLb
              · rcases List.mem_cons.mp hl with rfl | hl'
                · exact lit_ok_negate hLa
                · rcases List.mem_cons.mp hl' with rfl | hl''
                  · exact lit_ok_negate hLb
                  · rw [List.mem_singleton.mp hl'']
                    exact lit_ok_of_ident (ident_tok_fresh_name (k+1))
          obtain ⟨ρ', hag, hout1, hout2⟩ := ih _ _ _ ρ₁
            (nnf_only_replace_at path g _ hg) hvrep hgfresh' hclsfresh' hok' hrepl hclsΔ
          refine ⟨ρ', ?_, hout1, hout2⟩
          intro x hx
          have h1 : ρ' x = ρ₁ x := hag x (fun m hm => hx m (by omega))
          rw [h1, hρ₁]
          exact if_neg (hx (k+1) (Nat.lt_succ_self k))
        · subst hn
          dsimp only
          obtain ⟨ρ₁, hρ₁⟩ : ∃ f : String → Bool, f = fun y =>
              if y = fresh_name (k+1) then (eval ρ a' || eval ρ b') else ρ y := ⟨_, rfl⟩
          have hρ₁p : ρ₁ (fresh_name (k+1)) = (eval ρ a' || eval ρ b') := by
            rw [hρ₁]
            exact if_pos rfl
          have hρ₁g : ∀ x ∈ g.vars, ρ₁ x = ρ x := by
            intro x hx
            rw [hρ₁]
            exact if_neg (hgfresh (k+1) (Nat.lt_succ_self k) x hx)
          have ea : eval ρ₁ a' = eval ρ a' := by
            refine eval_congr_vars ?_
            intro x hx
            exact hρ₁g x (vars_subtree path g _ hsub x (List.mem_append.mpr (Or.inl hx)))
          have eb : eval ρ₁ b' = eval ρ b' := by
            refine eval_congr_vars ?_
            intro x hx
            exact hρ₁g x (vars_subtree path g _ hsub x (List.mem_append.mpr (Or.inr hx)))
          have hrepl : eval ρ₁ (replace_at g path (.var (fresh_name (k+1)))) = true := by
            have h1 : eval ρ₁ (.var (fresh_name (k+1))) = eval ρ₁ (.or a' b') := by
              show ρ₁ (fresh_name (k+1)) = (eval ρ₁ a' || eval ρ₁ b')
              rw [hρ₁p, ea, eb]
            rw [eval_replace_at path g (.or a' b') _ ρ₁ hsub h1,
              eval_congr_vars hρ₁g]
            exact hge
          have hcls₁ : clauses_eval ρ₁ cls = true := by
            have hext : clauses_eval ρ₁ cls = clauses_eval ρ cls := by
              refine clauses_eval_ext ?_
              intro c hc
              refine clause_eval_ext ?_
              intro l hl
              rw [hρ₁]
              exact lit_eval_update (hok c hc l hl)
                (hclsfresh (k+1) (Nat.lt_succ_self k) c hc l hl).1
                (hclsfresh (k+1) (Nat.lt_succ_self k) c hc l hl).2 ρ
            rw [hext]
            exact hcls
          have e1 : lit_eval ρ₁ ("-" ++ fresh_name (k+1)) = !(ρ₁ (fresh_name (k+1))) :=
            lit_eval_dash _ ρ₁
          have e2 : lit_eval ρ₁ (lit_to_str a') = eval ρ₁ a' :=
            lit_to_str_eval hla (fun x hx => ident_tok_not_dash (hva x hx)) ρ₁
          have e3 : lit_eval ρ₁ (lit_to_str b') = eval ρ₁ b' :=
            lit_to_str_eval hlb (fun x hx => ident_tok_not_dash (hvb x hx)) ρ₁
          have e4 : lit_eval ρ₁ (negate (lit_to_str a')) = !(lit_eval ρ₁ (lit_to_str a')) :=
            lit_eval_negate hLa ρ₁
          have e5 : lit_eval ρ₁ (negate (lit_to_str b')) = !(lit_eval ρ₁ (lit_to_str b')) :=
            lit_eval_negate hLb ρ₁
          have e6 : lit_eval ρ₁ (fresh_name (k+1)) = ρ₁ (fresh_name (k+1)) :=
            lit_eval_of_not_dash (ident_tok_not_dash (ident_tok_fresh_name (k+1))) ρ₁
          have hΔ : clauses_eval ρ₁ (add_equiv_cnf (fresh_name (k+1)) (.or a' b')
              (lit_to_str a') (lit_to_str b')) = true := by
            simp only [add_equiv_cnf, clauses_eval, List.all_cons, List.all_nil,
              Bool.and_true, Bool.and_eq_true, clause_eval, List.any_cons, List.any_nil,
              Bool.or_false]
            refine ⟨?_, ?_, ?_⟩
            · rw [e6, e4, e2, hρ₁p, ea]
              exact bool_or_c1 _ _
            · rw [e6, e5, e3, hρ₁p, eb]
              exact bool_or_c2 _ _
            · rw [e1, e2, e3, hρ₁p, ea, eb]
              exact bool_or_c3 _ _
          have hclsΔ : clauses_eval ρ₁ (cls ++ add_equiv_cnf (fresh_name (k+1))
              (.or a' b') (lit_to_str a') (lit_to_str b')) = true := by
            rw [clauses_eval_append, Bool.and_eq_true]
            exact ⟨hcls₁, hΔ⟩
          have hclsfresh' : ∀ m, k+1 < m →
              ∀ c ∈ cls ++ add_equiv_cnf (fresh_name (k+1)) (.or a' b')
                (lit_to_str a') (lit_to_str b'), ∀ l ∈ c,
              l ≠ fresh_name m ∧ l ≠ "-" ++ fresh_name m := by
            intro m hm c hc l hl
            rcases List.mem_append.mp hc with hmem | hmem
            · exact hclsfresh m (by omega) c hmem l hl
            · obtain ⟨sa1, sa2⟩ := lit_to_str_fresh_safe hla hva (hfa m (by omega))
              obtain ⟨sb1, sb2⟩ := lit_to_str_fresh_safe hlb hvb (hfb m (by omega))
              simp only [add_equiv_cnf, List.mem_cons, List.not_mem_nil, or_false] at hmem
              rcases hmem with rfl | rfl | rfl
              · rcases List.mem_cons.mp hl with rfl | hl'
                · exact hpf m hm
                · rw [List.mem_singleton.mp hl']
                  exact sa2
              · rcases List.mem_cons.mp hl with rfl | hl'
                · exact hpf m hm
                · rw [List.mem_singleton.mp hl']
                  exact sb2
              · rcases List.mem_cons.mp hl with rfl | hl'
                · exact hdpf m hm
                · rcases List.mem_cons.mp hl' with rfl | hl''
                  · exact sa1
                  · rw [List.mem_singleton.mp hl'']
                    exact sb1
          have hok' : ∀ c ∈ cls ++ add_equiv_cnf (fresh_name (k+1)) (.or a' b')
              (lit_to_str a') (lit_to_str b'), ∀ l ∈ c, lit_ok l = true := by
            intro c hc l hl
            rcases List.mem_append.mp hc with hmem | hmem
            · exact hok c hmem l hl
            · simp only [add_equiv_cnf, List.mem_cons, List.not_mem_nil, or_false] at hmem
              rcases hmem with rfl | rfl | rfl
              · rcases List.mem_cons.mp hl with rfl | hl'
                · exact lit_ok_of_ident (ident_tok_fresh_name (k+1))
                · rw [List.mem_singleton.mp hl']
                  exact lit_ok_negate hLa
              · rcases List.mem_cons.mp hl with rfl | hl'
                · exact lit_ok_of_ident (ident_tok_fresh_name (k+1))
                · rw [List.mem_singleton.mp hl']
                  exact lit_ok_negate hLb
              · rcases List.mem_cons.mp hl with rfl | hl'
                · exact lit_ok_dash (ident_tok_fresh_name (k+1))
                · rcases List.mem_cons.mp hl' with rfl | hl''
                  · exact hLa
                  · rw [List.mem_singleton.mp hl'']
                    exact hLb
          obtain ⟨ρ', hag, hout1, hout2⟩ := ih _ _ _ ρ₁
            (nnf_only_replace_at path g _ hg) hvrep hgfresh' hclsfresh' hok' hrepl hclsΔ
          refine ⟨ρ', ?_, hout1, hout2⟩
          intro x hx
          have h1 : ρ' x = ρ₁ x := hag x (fun m hm => hx m (by omega))
          rw [h1, hρ₁]
          exact if_neg (hx (k+1) (Nat.lt_succ_self k))

/-! ## A CNF input is a fixpoint of the normalization front end -/

theorem elim_fix : ∀ f : Formula, no_ie f = true → elim_equiv_impl f = f := by
  intro f
  induction f with
  | var x => intro _; rfl
  | not g ih =>
    intro h
    show Formula.not (elim_equiv_impl g) = Formula.not g
    rw [ih h]
  | and a b iha ihb =>
    intro h
    have h' : (no_ie a && no_ie b) = true := h
    rw [Bool.and_eq_true] at h'
    show Formula.and (elim_equiv_impl a) (elim_equiv_impl b) = Formula.and a b
    rw [iha h'.1, ihb h'.2]
  | or a b iha ihb =>
    intro h
    have h' : (no_ie a && no_ie b) = true := h
    rw [Bool.and_eq_true] at h'
    show Formula.or (elim_equiv_impl a) (elim_equiv_impl b) = Formula.or a b
    rw [iha h'.1, ihb h'.2]
  | impl a b iha ihb => intro h; exact absurd h Bool.false_ne_true
  | equiv a b iha ihb => intro h; exact absurd h Bool.false_ne_true

theorem nnf_fix : ∀ f : Formula, nnf_only f = true → nnf f = f := by
  intro f
  induction f with
  | var x => intro _; rfl
  | not g ih =>
    intro h
    cases g with
    | var x => rfl
    | not g' => exact absurd h Bool.false_ne_true
    | and a b => exact absurd h Bool.false_ne_true
    | or a b => exact absurd h Bool.false_ne_true
    | impl a b => exact absurd h Bool.false_ne_true
    | equiv a b => exact absurd h Bool.false_ne_true
  | and a b iha ihb =>
    intro h
    have h' : (nnf_only a && nnf_only b) = true := h
    rw [Bool.and_eq_true] at h'
    show Formula.and (nnf a) (nnf b) = Formula.and a b
    rw [iha h'.1, ihb h'.2]
  | or a b iha ihb =>
    intro h
    have h' : (nnf_only a && nnf_only b) = true := h
    rw [Bool.and_eq_true] at h'
    show Formula.or (nnf a) (nnf b) = Formula.or a b
    rw [iha h'.1, ihb h'.2]
  | impl a b iha ihb => intro h; exact absurd h Bool.false_ne_true
  | equiv a b iha ihb => intro h; exact absurd h Bool.false_ne_true

theorem is_clause_nnf_no_ie : ∀ f : Formula,
    is_clause f = true → nnf_only f = true ∧ no_ie f = true := by
  intro f
  induction f with
  | var x => intro _; exact ⟨rfl, rfl⟩
  | not g ih =>
    intro h
    cases g with
    | var x => exact ⟨rfl, rfl⟩
    | not g' => exact absurd h Bool.false_ne_true
    | and a b => exact absurd h Bool.false_ne_true
    | or a b => exact absurd h Bool.false_ne_true
    | impl a b => exact absurd h Bool.false_ne_true
    | equiv a b => exact absurd h Bool.false_ne_true
  | and a b iha ihb => intro h; exact absurd h Bool.false_ne_true
  | or a b iha ihb =>
    intro h
    have h' : (is_clause a && is_clause b) = true := h
    rw [Bool.and_eq_true] at h'
    obtain ⟨ha1, ha2⟩ := iha h'.1
    obtain ⟨hb1, hb2⟩ := ihb h'.2
    constructor
    · show (nnf_only a && nnf_only b) = true
      rw [ha1, hb1]
      rfl
    · show (no_ie a && no_ie b) = true
      rw [ha2, hb2]
      rfl
  | impl a b iha ihb => intro h; exact absurd h Bool.false_ne_true
  | equiv a b iha ihb => intro h; exact absurd h Bool.false_ne_true

theorem is_cnf_nnf_no_ie : ∀ f : Formula,
    is_cnf f = true → nnf_only f = true ∧ no_ie f = true := by
  intro f
  induction f with
  | var x => intro _; exact ⟨rfl, rfl⟩
  | not g ih =>
    intro h
    cases g with
    | var x => exact ⟨rfl, rfl⟩
    | not g' => exact absurd h Bool.false_ne_true
    | and a b => exact absurd h Bool.false_ne_true
    | or a b => exact absurd h Bool.false_ne_true
    | impl a b => exact absurd h Bool.false_ne_true
    | equiv a b => exact absurd h Bool.false_ne_true
  | and a b iha ihb =>
    intro h
    have h' : (is_cnf a && is_cnf b) = true := h
    rw [Bool.and_eq_true] at h'
    obtain ⟨ha1, ha2⟩ := iha h'.1
    obtain ⟨hb1, hb2⟩ := ihb h'.2
    constructor
    · show (nnf_only a && nnf_only b) = true
      rw [ha1, hb1]
      rfl
    · show (no_ie a && no_ie b) = true
      rw [ha2, hb2]
      rfl
  | or a b iha ihb =>
    intro h
    have h' : (is_clause a && is_clause b) = true := h
    rw [Bool.and_eq_true] at h'
    obtain ⟨ha1, ha2⟩ := is_clause_nnf_no_ie a h'.1
    obtain ⟨hb1, hb2⟩ := is_clause_nnf_no_ie b h'.2
    constructor
    · show (nnf_only a && nnf_only b) = true
      rw [ha1, hb1]
      rfl
    · show (no_ie a && no_ie b) = true
      rw [ha2, hb2]
      rfl
  | impl a b iha ihb => intro h; exact absurd h Bool.false_ne_true
  | equiv a b iha ihb => intro h; exact absurd h Bool.false_ne_true

/-- **C2** (amended).  Under the specification's documented naming assumption —
the input's variable names are well-formed identifier tokens and none of them
collides with a fresh Tseitin name `t1, t2, ...` — the Tseitin pipeline
`tseitin_450` is equisatisfiable with its input: every model of the output
clauses satisfies the input, every model of the input extends (changing only
variables outside the input's vocabulary, i.e. the fresh `t`-variables) to a
model of the output clauses, and hence the output is satisfiable iff the input
is. -/
theorem C2_amended_tseitin_equisat (f : Formula)
    (hid : ∀ x ∈ f.vars, ident_tok x = true)
    (hfresh : ∀ n, 1 ≤ n → ∀ x ∈ f.vars, x ≠ fresh_name n) :
    (∀ ρ : String → Bool, clauses_eval ρ (tseitin_450 f) = true → eval ρ f = true) ∧
    (∀ ρ : String → Bool, eval ρ f = true →
      ∃ ρ' : String → Bool, (∀ x ∈ f.vars, ρ' x = ρ x) ∧
        clauses_eval ρ' (tseitin_450 f) = true) ∧
    ((∃ ρ : String → Bool, clauses_eval ρ (tseitin_450 f) = true) ↔
      (∃ ρ : String → Bool, eval ρ f = true)) := by
  set g0 := nnf (elim_equiv_impl f) with hg0
  set r := tseitin_loop g0.size g0 [] 0 with hr
  have hgn : nnf_only g0 = true := (nnf_only_nnf_both _ (no_ie_elim f)).1
  have hgv : ∀ x ∈ g0.vars, x ∈ f.vars := by
    intro x hx
    exact vars_elim f x ((vars_nnf_both (elim_equiv_impl f)).1 x hx)
  have hgid : ∀ x ∈ g0.vars, ident_tok x = true := fun x hx => hid x (hgv x hx)
  have hcnf : is_cnf r.2.1 = true := by
    rw [hr]
    exact tseitin_loop_cnf _ g0 [] 0 hgn (le_refl _)
  have hrv : ∀ x ∈ r.2.1.vars, ident_tok x = true := by
    rw [hr]
    intro x hx
    rcases tseitin_loop_vars _ g0 [] 0 x hx with hh | ⟨n, _, rfl⟩
    · exact hgid x hh
    · exact ident_tok_fresh_name n
  have hrd : ∀ x ∈ r.2.1.vars, starts_dash x = false :=
    fun x hx => ident_tok_not_dash (hrv x hx)
  have hok1 : ∀ c ∈ r.1, ∀ l ∈ c, lit_ok l = true := by
    rw [hr]
    exact tseitin_loop_cls_ok _ g0 [] 0 hgn hgid
      (fun c hc => absurd hc (List.not_mem_nil c))
  have hok2 : ∀ c ∈ formula_to_clauses r.2.1, ∀ l ∈ c, lit_ok l = true :=
    formula_to_clauses_ok hcnf hrv
  have hokall : ∀ c ∈ r.1 ++ formula_to_clauses r.2.1, ∀ l ∈ c, lit_ok l = true := by
    intro c hc
    rcases List.mem_append.mp hc with hm | hm
    · exact hok1 c hm
    · exact hok2 c hm
  have h450 : tseitin_450 f = dedup_simplify (r.1 ++ formula_to_clauses r.2.1) := by
    simp only [tseitin_450]
    rw [← hg0, ← hr, if_pos hcnf]
  have hsound : ∀ ρ : String → Bool,
      clauses_eval ρ (tseitin_450 f) = true → eval ρ f = true := by
    intro ρ hρ
    rw [h450, dedup_simplify_eval _ hokall ρ, clauses_eval_append,
      Bool.and_eq_true] at hρ
    obtain ⟨h1, h2⟩ := hρ
    have h1' : clauses_eval ρ (tseitin_loop g0.size g0 [] 0).1 = true := by
      rw [← hr]
      exact h1
    obtain ⟨_, heq⟩ := tseitin_loop_sound g0.size g0 [] 0 ρ hgn hgid h1'
    rw [formula_to_clauses_eval ρ hcnf hrd, hr, heq, hg0, eval_nnf, eval_elim] at h2
    exact h2
  have hcomp : ∀ ρ : String → Bool, eval ρ f = true →
      ∃ ρ' : String → Bool, (∀ x ∈ f.vars, ρ' x = ρ x) ∧
        clauses_eval ρ' (tseitin_450 f) = true := by
    intro ρ hρ
    have hge : eval ρ g0 = true := by
      rw [hg0, eval_nnf, eval_elim]
      exact hρ
    have hgfr : ∀ m, 0 < m → ∀ x ∈ g0.vars, x ≠ fresh_name m :=
      fun m hm x hx => hfresh m hm x (hgv x hx)
    obtain ⟨ρ', hag, hc1, hc2⟩ := tseitin_loop_complete g0.size g0 [] 0 ρ hgn hgid hgfr
      (fun m _ c hc => absurd hc (List.not_mem_nil c))
      (fun c hc => absurd hc (List.not_mem_nil c)) hge rfl
    refine ⟨ρ', ?_, ?_⟩
    · intro x hx
      exact hag x (fun m hm => hfresh m hm x hx)
    · rw [h450, dedup_simplify_eval _ hokall ρ', clauses_eval_append,
        Bool.and_eq_true]
      constructor
      · rw [hr]
        exact hc1
      · rw [formula_to_clauses_eval ρ' hcnf hrd, hr]
        exact hc2
  refine ⟨hsound, hcomp, ?_, ?_⟩
  · rintro ⟨ρ, hρ⟩
    exact ⟨ρ, hsound ρ hρ⟩
  · rintro ⟨ρ, hρ⟩
    obtain ⟨ρ', _, hρ'⟩ := hcomp ρ hρ
    exact ⟨ρ', hρ'⟩

/-- **C2** (counterexample to the unconditional claim): the well-formed input
`(a ∧ ¬t1) ∨ b` uses the variable name `t1`, which collides with the first
fresh Tseitin name.  The assignment making exactly `a` true satisfies the
input, yet no assignment agreeing with it on the input's variables satisfies
the output clauses — the clause `{-t1}` forces `t1` false while `{-a, t1}`
forces it true — so the claimed extension property fails without the
specification's fresh-name assumption. -/
theorem C2_counterexample :
    eval (fun x => x == "a")
      (Formula.or (.and (.var "a") (.not (.var "t1"))) (.var "b")) = true ∧
    ∀ σ : String → Bool,
      (∀ x ∈ (Formula.or (.and (.var "a") (.not (.var "t1"))) (.var "b")).vars,
        σ x = (fun x => x == "a") x) →
      clauses_eval σ
        (tseitin_450 (Formula.or (.and (.var "a") (.not (.var "t1"))) (.var "b"))) =
        false := by
  constructor
  · decide
  · intro σ h
    have ha : σ "a" = true := (h "a" (by decide)).trans (by decide)
    have ht : σ "t1" = false := (h "t1" (by decide)).trans (by decide)
    have hb : σ "b" = false := (h "b" (by decide)).trans (by decide)
    have hcomp : tseitin_450
        (Formula.or (.and (.var "a") (.not (.var "t1"))) (.var "b")) =
        [["-t1"], ["-a", "t1"], ["b", "t1"]] := by decide
    rw [hcomp]
    have l1 : lit_eval σ "-t1" = !(σ "t1") := by
      rw [show ("-t1" : String) = "-" ++ "t1" from by decide, lit_eval_dash]
    have l2 : lit_eval σ "-a" = !(σ "a") := by
      rw [show ("-a" : String) = "-" ++ "a" from by decide, lit_eval_dash]
    have l3 : lit_eval σ "t1" = σ "t1" := lit_eval_of_not_dash (by decide) σ
    have l4 : lit_eval σ "b" = σ "b" := lit_eval_of_not_dash (by decide) σ
    simp only [clauses_eval, clause_eval, List.all_cons, List.all_nil,
      List.any_cons, List.any_nil, Bool.and_true, Bool.or_false]
    rw [l1, l2, l3, l4, ha, ht, hb]
    decide

/-- Witness for C2: the amended equisatisfiability theorem applied to the
concrete input `A ∨ B`, whose variable names are identifier tokens distinct
from every fresh name. -/
theorem C2_witness :
    (∀ x ∈ (Formula.or (.var "A") (.var "B")).vars, ident_tok x = true) ∧
    ((∃ ρ : String → Bool,
        clauses_eval ρ (tseitin_450 (Formula.or (.var "A") (.var "B"))) = true) ↔
      (∃ ρ : String → Bool, eval ρ (Formula.or (.var "A") (.var "B")) = true)) :=
  ⟨by decide,
    (C2_amended_tseitin_equisat (Formula.or (.var "A") (.var "B")) (by decide)
      (fun n _ x hx => by
        have hh : x.data.head? ≠ some 't' := by
          rcases List.mem_cons.mp hx with rfl | hx'
          · decide
          · rw [List.mem_singleton.mp hx']
            decide
        exact fun he => fresh_name_ne hh he.symm)).2.2⟩

/-- **C4**: on an NNF formula (negation only on variables) that is not already
CNF, the depth-first search `find_literal_binary` succeeds and returns an
`And`/`Or` node both of whose children are literals, located at the returned
path; replacing that node by a fresh variable strictly shrinks the tree, so
the rewrite loop reaches a CNF residual within `size` steps and the classical
fallback branch is never taken. -/
theorem C4_find_literal_binary_terminates (g : Formula) (hg : nnf_only g = true)
    (hnc : is_cnf g = false) :
    (∃ n path, find_literal_binary g [] = some (n, path) ∧
      subtree_at g path = some n ∧
      (∃ a b, (n = .and a b ∨ n = .or a b) ∧
        a.is_literal = true ∧ b.is_literal = true) ∧
      ∀ p : String, (replace_at g path (.var p)).size < g.size) ∧
    is_cnf (tseitin_loop g.size g [] 0).2.1 = true := by
  have hnl : g.is_literal = false := by
    cases hl : g.is_literal
    · rfl
    · rw [is_cnf_of_literal hl] at hnc
      exact absurd hnc.symm Bool.false_ne_true
  have hsome := find_some_of_nnf hg hnl []
  cases hfind : find_literal_binary g [] with
  | none =>
    rw [hfind] at hsome
    exact absurd hsome (by decide)
  | some r =>
    obtain ⟨n, path⟩ := r
    obtain ⟨q', hq, hsub, a, b, hor, hla, hlb⟩ := find_shape g [] n path hfind
    simp only [List.nil_append] at hq
    subst hq
    refine ⟨⟨n, path, rfl, hsub, ⟨a, b, hor, hla, hlb⟩, ?_⟩,
      tseitin_loop_cnf _ g [] 0 hg (le_refl _)⟩
    intro p
    have hsz := size_replace_at path g n (.var p) hsub
    have hv1 : (Formula.var p).size = 1 := rfl
    have h3 : 3 ≤ n.size := by
      rcases hor with rfl | rfl
      · show 3 ≤ 1 + a.size + b.size
        have h1 := size_pos a
        have h2 := size_pos b
        omega
      · show 3 ≤ 1 + a.size + b.size
        have h1 := size_pos a
        have h2 := size_pos b
        omega
    omega

/-- Witness for C4 at the non-CNF NNF input `(A ∧ B) ∨ C`. -/
theorem C4_witness :
    nnf_only (Formula.or (.and (.var "A") (.var "B")) (.var "C")) = true ∧
    is_cnf (Formula.or (.and (.var "A") (.var "B")) (.var "C")) = false ∧
    ((∃ n path,
        find_literal_binary (Formula.or (.and (.var "A") (.var "B")) (.var "C")) [] =
          some (n, path) ∧
        subtree_at (Formula.or (.and (.var "A") (.var "B")) (.var "C")) path = some n ∧
        (∃ a b, (n = .and a b ∨ n = .or a b) ∧
          a.is_literal = true ∧ b.is_literal = true) ∧
        ∀ p : String,
          (replace_at (Formula.or (.and (.var "A") (.var "B")) (.var "C")) path
            (.var p)).size <
            (Formula.or (.and (.var "A") (.var "B")) (.var "C")).size) ∧
      is_cnf (tseitin_loop (Formula.or (.and (.var "A") (.var "B")) (.var "C")).size
        (Formula.or (.and (.var "A") (.var "B")) (.var "C")) [] 0).2.1 = true) :=
  ⟨by decide, by decide,
    C4_find_literal_binary_terminates (Formula.or (.and (.var "A") (.var "B")) (.var "C"))
      (by decide) (by decide)⟩

/-- **C10**: on an input that already satisfies the CNF predicate, the rewrite
loop exits immediately — no clauses emitted, formula unchanged, counter `0`,
so no fresh `t`-variable is ever created — and `tseitin_450` returns exactly
the simplifier applied to the flattened clauses of the input itself. -/
theorem C10_cnf_fast_path (f : Formula) (hcnf : is_cnf f = true) :
    tseitin_loop (nnf (elim_equiv_impl f)).size (nnf (elim_equiv_impl f)) [] 0 =
      ([], f, 0) ∧
    tseitin_450 f = dedup_simplify (formula_to_clauses f) := by
  have hfix : nnf (elim_equiv_impl f) = f := by
    rw [elim_fix f (is_cnf_nnf_no_ie f hcnf).2, nnf_fix f (is_cnf_nnf_no_ie f hcnf).1]
  have hloop : tseitin_loop f.size f [] 0 = ([], f, 0) := by
    obtain ⟨m, hm⟩ : ∃ m, f.size = m + 1 := ⟨f.size - 1, by have := size_pos f; omega⟩
    rw [hm, tseitin_loop, if_pos hcnf]
  constructor
  · rw [hfix]
    exact hloop
  · simp only [tseitin_450, hfix, hloop]
    rw [if_pos hcnf, List.nil_append]

/-- Witness for C10 at the CNF input `A ∨ ¬B`. -/
theorem C10_witness :
    is_cnf (Formula.or (.var "A") (.not (.var "B"))) = true ∧
    (tseitin_loop (nnf (elim_equiv_impl (Formula.or (.var "A") (.not (.var "B"))))).size
        (nnf (elim_equiv_impl (Formula.or (.var "A") (.not (.var "B"))))) [] 0 =
      ([], Formula.or (.var "A") (.not (.var "B")), 0) ∧
    tseitin_450 (Formula.or (.var "A") (.not (.var "B"))) =
      dedup_simplify (formula_to_clauses (Formula.or (.var "A") (.not (.var "B"))))) :=
  ⟨by decide, C10_cnf_fast_path (Formula.or (.var "A") (.not (.var "B"))) (by decide)⟩

/-! ## The Tseitin rewrite loop in lockstep with its recorded steps -/

theorem tseitin_loop_spec_steps :
    ∀ (fuel : Nat) (g : Formula) (cls : List (List String)) (k : Nat),
    (tseitin_loop fuel g cls k).1 =
      cls ++ spec_blocks_of_steps (tseitin_steps fuel g k) ∧
    (tseitin_loop fuel g cls k).2.2 = k + (tseitin_steps fuel g k).length := by
  intro fuel
  induction fuel with
  | zero =>
    intro g cls k
    exact ⟨by simp [tseitin_loop, tseitin_steps, spec_blocks_of_steps],
      by simp [tseitin_loop, tseitin_steps]⟩
  | succ fuel ih =>
    intro g cls k
    simp only [tseitin_loop, tseitin_steps]
    by_cases hc : is_cnf g = true
    · rw [if_pos hc, if_pos hc]
      exact ⟨by simp [spec_blocks_of_steps], by simp⟩
    · rw [if_neg hc, if_neg hc]
      cases hfind : find_literal_binary g [] with
      | none => exact ⟨by simp [spec_blocks_of_steps], by simp⟩
      | some r =>
        obtain ⟨n, path⟩ := r
        cases n with
        | and a b =>
          dsimp only
          obtain ⟨h1, h2⟩ :=
            ih (replace_at g path (.var (fresh_name (k+1))))
              (cls ++ add_equiv_cnf (fresh_name (k+1)) (.and a b)
                (lit_to_str a) (lit_to_str b)) (k+1)
          constructor
          · rw [h1]
            rw [show spec_blocks_of_steps ((k+1, Formula.and a b) ::
                tseitin_steps fuel (replace_at g path (.var (fresh_name (k+1)))) (k+1)) =
              add_equiv_cnf (fresh_name (k+1)) (.and a b)
                  (lit_to_str a) (lit_to_str b) ++
                spec_blocks_of_steps
                  (tseitin_steps fuel (replace_at g path (.var (fresh_name (k+1)))) (k+1))
              from rfl]
            rw [List.append_assoc]
          · rw [h2]
            simp only [List.length_cons]
            omega
        | or a b =>
          dsimp only
          obtain ⟨h1, h2⟩ :=
            ih (replace_at g path (.var (fresh_name (k+1))))
              (cls ++ add_equiv_cnf (fresh_name (k+1)) (.or a b)
                (lit_to_str a) (lit_to_str b)) (k+1)
          constructor
          · rw [h1]
            rw [show spec_blocks_of_steps ((k+1, Formula.or a b) ::
                tseitin_steps fuel (replace_at g path (.var (fresh_name (k+1)))) (k+1)) =
              add_equiv_cnf (fresh_name (k+1)) (.or a b)
                  (lit_to_str a) (lit_to_str b) ++
                spec_blocks_of_steps
                  (tseitin_steps fuel (replace_at g path (.var (fresh_name (k+1)))) (k+1))
              from rfl]
            rw [List.append_assoc]
          · rw [h2]
            simp only [List.length_cons]
            omega
        | var x => exact ⟨by simp [spec_blocks_of_steps], by simp⟩
        | not g' => exact ⟨by simp [spec_blocks_of_steps], by simp⟩
        | impl a b => exact ⟨by simp [spec_blocks_of_steps], by simp⟩
        | equiv a b => exact ⟨by simp [spec_blocks_of_steps], by simp⟩

theorem tseitin_steps_fst : ∀ (fuel : Nat) (g : Formula) (k : Nat),
    (tseitin_steps fuel g k).map Prod.fst =
      List.range' (k+1) (tseitin_steps fuel g k).length := by
  intro fuel
  induction fuel with
  | zero => intro g k; rfl
  | succ fuel ih =>
    intro g k
    simp only [tseitin_steps]
    by_cases hc : is_cnf g = true
    · rw [if_pos hc]
      rfl
    · rw [if_neg hc]
      cases hfind : find_literal_binary g [] with
      | none => rfl
      | some r =>
        obtain ⟨n, path⟩ := r
        cases n with
        | and a b =>
          dsimp only
          show (k+1) :: (tseitin_steps fuel
              (replace_at g path (.var (fresh_name (k+1)))) (k+1)).map Prod.fst =
            (k+1) :: List.range' (k+2) (tseitin_steps fuel
              (replace_at g path (.var (fresh_name (k+1)))) (k+1)).length
          exact congrArg _ (ih _ (k+1))
        | or a b =>
          dsimp only
          show (k+1) :: (tseitin_steps fuel
              (replace_at g path (.var (fresh_name (k+1)))) (k+1)).map Prod.fst =
            (k+1) :: List.range' (k+2) (tseitin_steps fuel
              (replace_at g path (.var (fresh_name (k+1)))) (k+1)).length
          exact congrArg _ (ih _ (k+1))
        | var x => rfl
        | not g' => rfl
        | impl a b => rfl
        | equiv a b => rfl

theorem tseitin_steps_shape : ∀ (fuel : Nat) (g : Formula) (k : Nat),
    ∀ s ∈ tseitin_steps fuel g k, ∃ a b,
      (s.2 = .and a b ∨ s.2 = .or a b) ∧
        a.is_literal = true ∧ b.is_literal = true := by
  intro fuel
  induction fuel with
  | zero =>
    intro g k s hs
    exact absurd hs (List.not_mem_nil s)
  | succ fuel ih =>
    intro g k s hs
    rw [tseitin_steps] at hs
    by_cases hc : is_cnf g = true
    · rw [if_pos hc] at hs
      exact absurd hs (List.not_mem_nil s)
    · rw [if_neg hc] at hs
      cases hfind : find_literal_binary g [] with
      | none =>
        rw [hfind] at hs
        exact absurd hs (List.not_mem_nil s)
      | some r =>
        obtain ⟨n, path⟩ := r
        rw [hfind] at hs
        cases n with
        | and a b =>
          dsimp only at hs
          rcases List.mem_cons.mp hs with rfl | hs'
          · obtain ⟨q', hq, hsub, a', b', hor, hla, hlb⟩ :=
              find_shape g [] (.and a b) path hfind
            rcases hor with h | h
            · injection h with h1 h2
              subst h1
              subst h2
              exact ⟨a, b, Or.inl rfl, hla, hlb⟩
            · exact Formula.noConfusion h
          · exact ih _ (k+1) s hs'
        | or a b =>
          dsimp only at hs
          rcases List.mem_cons.mp hs with rfl | hs'
          · obtain ⟨q', hq, hsub, a', b', hor, hla, hlb⟩ :=
              find_shape g [] (.or a b) path hfind
            rcases hor with h | h
            · exact Formula.noConfusion h
            · injection h with h1 h2
              subst h1
              subst h2
              exact ⟨a, b, Or.inr rfl, hla, hlb⟩
          · exact ih _ (k+1) s hs'
        | var x => exact absurd hs (List.not_mem_nil s)
        | not g' => exact absurd hs (List.not_mem_nil s)
        | impl a b => exact absurd hs (List.not_mem_nil s)
        | equiv a b => exact absurd hs (List.not_mem_nil s)

/-- **C5**: the rewrite loop of `tseitin_450` (started from counter `0`, as
`tseitin_450` starts it) emits exactly the specification's defining-clause
blocks over the steps it actually performs: each recorded step selects an
`And`/`Or` node both of whose children are literals, and contributes precisely
the three clauses of the spec over the renderings `L`, `R` of that node's own
children with fresh variable `p = t<n>` — for `And`, `{¬p, L}`, `{¬p, R}`,
`{¬L, ¬R, p}`; for `Or`, `{p, ¬L}`, `{p, ¬R}`, `{¬p, L, R}`.  The recorded
counter values are `1, 2, ...` in order, so the fresh names are `t1, t2, ...`
increasing from `t1`, and the final counter equals the number of steps. -/
theorem C5_fresh_names_and_blocks (fuel : Nat) (g : Formula) :
    (tseitin_loop fuel g [] 0).1 =
      spec_blocks_of_steps (tseitin_steps fuel g 0) ∧
    (tseitin_loop fuel g [] 0).2.2 = (tseitin_steps fuel g 0).length ∧
    (tseitin_steps fuel g 0).map Prod.fst =
      List.range' 1 (tseitin_steps fuel g 0).length ∧
    ∀ s ∈ tseitin_steps fuel g 0, ∃ a b,
      (s.2 = .and a b ∨ s.2 = .or a b) ∧
        a.is_literal = true ∧ b.is_literal = true := by
  obtain ⟨h1, h2⟩ := tseitin_loop_spec_steps fuel g [] 0
  refine ⟨?_, ?_, ?_, ?_⟩
  · rw [h1, List.nil_append]
  · rw [h2, Nat.zero_add]
  · exact tseitin_steps_fst fuel g 0
  · exact tseitin_steps_shape fuel g 0
